import Mathlib

/-!
# Comment rendering and reply quoting of `views/utils.go`

A shallow embedding of `formatComment`, `formatReply` and `censor` from
`src/views/utils.go`, together with the part of Go's `regexp` and `strings`
packages these functions rely on.

Go strings are modelled as lists of characters (the text is taken to be valid
UTF-8, so that the runes the regexp engine sees are the characters of the list).

Regular expressions are modelled by a small syntax tree and a backtracking
matcher that lists every way a pattern can match at a position, in the priority
order of Go's leftmost-first semantics: the head of that list is the match Go
reports.  Every repetition in the six fixed patterns of `init` ranges over a
single character class, so repetition is provided for character classes.
-/

namespace Views

/-- A Go string, as the list of its characters. -/
abbrev Str := List Char

/-! ## Regular expressions -/

/-- Regular expression syntax covering the six patterns compiled in `init`. -/
inductive Re where
  | eps
  | bol
  | eol
  | cls (p : Char → Bool)
  | star (p : Char → Bool)
  | seq (a b : Re)
  | alt (a b : Re)
  | grp (i : Nat) (a : Re)

/-- Capture groups recorded so far, most recent first. -/
abbrev Caps := List (Nat × Str)

/-- A matcher state: the captures and the text still to be read. -/
abbrev MState := Caps × Str

/-- Greedy repetition `[p]*`: the longest run first, then every shorter one. -/
def starRun (p : Char → Bool) (caps : Caps) : Str → List MState
  | [] => [(caps, [])]
  | c :: cs => if p c then starRun p caps cs ++ [(caps, c :: cs)] else [(caps, c :: cs)]

/-- All matches of a pattern from a state, in backtracking priority order.
`n` is the length of the whole text, so that `^` (no multi-line flag) holds
exactly when nothing has been read, and `$` exactly when nothing is left. -/
def run (n : Nat) : Re → MState → List MState
  | .eps => fun st => [st]
  | .bol => fun st => if st.2.length = n then [st] else []
  | .eol => fun st => if st.2.isEmpty then [st] else []
  | .cls p => fun st =>
      match st.2 with
      | [] => []
      | c :: cs => if p c then [(st.1, cs)] else []
  | .star p => fun st => starRun p st.1 st.2
  | .seq a b => fun st => (run n a st).flatMap (run n b)
  | .alt a b => fun st => run n a st ++ run n b st
  | .grp i a => fun st =>
      (run n a st).map (fun r => ((i, st.2.take (st.2.length - r.2.length)) :: r.1, r.2))

/-- The single character `c`. -/
def chr (c : Char) : Re := .cls (fun d => d == c)

/-- A literal string. -/
def lit : Str → Re
  | [] => .eps
  | c :: cs => .seq (chr c) (lit cs)

/-- Greedy `[p]+`. -/
def plus (p : Char → Bool) : Re := .seq (.cls p) (.star p)

/-- Greedy `r?`. -/
def opt (r : Re) : Re := .alt r .eps

/-- A piece of a replacement template: literal text or `$i`. -/
inductive TItem where
  | text (s : Str)
  | ref (i : Nat)

/-- The text of capture group `i`; a group that took no part is empty. -/
def getCap (caps : Caps) (i : Nat) : Str := (caps.lookup i).getD []

/-- Expansion of a replacement template for one match (`$0` is the whole match). -/
def expand (whole : Str) (caps : Caps) : List TItem → Str
  | [] => []
  | .text s :: t => s ++ expand whole caps t
  | .ref 0 :: t => whole ++ expand whole caps t
  | .ref (i + 1) :: t => getCap caps (i + 1) ++ expand whole caps t

/-- The copy loop shared by `Regexp.ReplaceAllString` and `strings.Replace`:
`m t` tells whether a match starts at the remaining text `t`, and if so gives
its replacement and the number of characters it spans.  `skip` counts the
characters of the current match still to pass over; `am` records that a match
ended exactly here, in which case an empty match is not replaced. -/
def rewriteAux (m : Str → Option (Str × Nat)) : Str → Nat → Bool → Str
  | [], 0, am =>
      match m [] with
      | some (e, _) => if am then [] else e
      | none => []
  | [], _ + 1, _ => []
  | _ :: cs, skip + 1, _ => rewriteAux m cs skip true
  | c :: cs, 0, am =>
      match m (c :: cs) with
      | none => c :: rewriteAux m cs 0 false
      | some (e, 0) => (if am then [] else e) ++ c :: rewriteAux m cs 0 false
      | some (e, k + 1) => e ++ rewriteAux m cs k true

/-- The leftmost-first match of `re` at the remaining text `t` of a text of
length `n`, as replacement text and width. -/
def matchAt (re : Re) (tpl : List TItem) (n : Nat) (t : Str) : Option (Str × Nat) :=
  match (run n re ([], t)).head? with
  | none => none
  | some r =>
      let k := t.length - r.2.length
      some (expand (t.take k) r.1 tpl, k)

/-- Go's `re.ReplaceAllString(s, tpl)`. -/
def replaceAllString (re : Re) (tpl : List TItem) (s : Str) : Str :=
  rewriteAux (matchAt re tpl s.length) s 0 false

/-- Go's `strings.HasPrefix(s, w)`. -/
def hasPrefix : Str → Str → Bool
  | _, [] => true
  | [], _ :: _ => false
  | c :: cs, d :: ds => c == d && hasPrefix cs ds

/-- Go's `strings.Contains(s, sub)`. -/
def containsStr (sub : Str) : Str → Bool
  | [] => hasPrefix [] sub
  | c :: cs => hasPrefix (c :: cs) sub || containsStr sub cs

/-- Go's `strings.Replace(s, old, new, -1)`. -/
def stringsReplace (s old new : Str) : Str :=
  rewriteAux (fun t => if hasPrefix t old then some (new, old.length) else none) s 0 false

/-! ## The patterns of `init` -/

def isAlnum (c : Char) : Bool :=
  ('A' ≤ c && c ≤ 'Z') || ('a' ≤ c && c ≤ 'z') || ('0' ≤ c && c ≤ '9')

def isDigit (c : Char) : Bool := '0' ≤ c && c ≤ '9'

/-- `[A-Za-z0-9\-]` -/
def hostCh (c : Char) : Bool := isAlnum c || c == '-'

/-- `[A-Za-z0-9\-\.]` -/
def hostDotCh (c : Char) : Bool := isAlnum c || c == '-' || c == '.'

/-- `[a-zA-Z0-9@:%_\+~#?&/=;\-]` -/
def urlEndCh (c : Char) : Bool :=
  isAlnum c || c == '@' || c == ':' || c == '%' || c == '_' || c == '+' || c == '~' ||
  c == '#' || c == '?' || c == '&' || c == '/' || c == '=' || c == ';' || c == '-'

/-- `[a-zA-Z0-9@:%_\+\.~#?&/=;\-]` -/
def urlCh (c : Char) : Bool := urlEndCh c || c == '.'

/-- `[^\*\n]` -/
def notStarNl (c : Char) : Bool := c != '*' && c != '\n'

/-- `.` and `[^\n]` -/
def notNl (c : Char) : Bool := c != '\n'

/-- `.` under the `s` flag -/
def anyCh (_ : Char) : Bool := true

/-- `\S`: anything but tab, newline, form feed, carriage return and space. -/
def nonSpace (c : Char) : Bool :=
  c != '\t' && c != '\n' && c != Char.ofNat 12 && c != '\r' && c != ' '

/-- `https?://([A-Za-z0-9\-]+\.[A-Za-z0-9\-\.]+|localhost)(:[0-9]+)?[a-zA-Z0-9@:%_\+\.~#?&/=;\-]*[a-zA-Z0-9@:%_\+~#?&/=;\-]` -/
def linkRe : Re :=
  .seq (lit "http".toList) (.seq (opt (chr 's')) (.seq (lit "://".toList)
    (.seq (.grp 1 (.alt (.seq (plus hostCh) (.seq (chr '.') (plus hostDotCh)))
                       (lit "localhost".toList)))
      (.seq (opt (.grp 2 (.seq (chr ':') (plus isDigit))))
        (.seq (.star urlCh) (.cls urlEndCh))))))

/-- `\*([^\*\n]+)\*` -/
def italicRe : Re := .seq (chr '*') (.seq (.grp 1 (plus notStarNl)) (chr '*'))

/-- `\*\*([^\*\n]+)\*\*` -/
def boldRe : Re :=
  .seq (lit "**".toList) (.seq (.grp 1 (plus notStarNl)) (lit "**".toList))

/-- The pattern "(?:^|\n)```.*\n(?s:(.+))\n```(?:$|\n)". -/
def codeRe : Re :=
  .seq (.alt .bol (chr '\n')) (.seq (lit "```".toList) (.seq (.star notNl) (.seq (chr '\n')
    (.seq (.grp 1 (plus anyCh)) (.seq (lit "\n```".toList) (.alt .eol (chr '\n')))))))

/-- `(?:^|\n)    ([^\n]+)` -/
def oldCodeRe : Re :=
  .seq (.alt .bol (chr '\n')) (.seq (lit "    ".toList) (.grp 1 (plus notNl)))

/-- `((?:^|\n)>*)[ ]*(\S[^\n]*)` -/
def quoteRe : Re :=
  .seq (.grp 1 (.seq (.alt .bol (chr '\n')) (.star (fun c => c == '>'))))
    (.seq (.star (fun c => c == ' ')) (.grp 2 (.seq (.cls nonSpace) (.star notNl))))

/-! ## The functions of `utils.go` -/

/-- Go's `template.HTMLEscapeString` on one character: the five characters
`& < > " '` become entities (and NUL becomes U+FFFD). -/
def escapeChar (c : Char) : Str :=
  if c = '&' then "&amp;".toList
  else if c = '<' then "&lt;".toList
  else if c = '>' then "&gt;".toList
  else if c = Char.ofNat 34 then "&#34;".toList
  else if c = Char.ofNat 39 then "&#39;".toList
  else if c = Char.ofNat 0 then [Char.ofNat 0xFFFD]
  else [c]

/-- Go's `template.HTMLEscapeString`. -/
def HTMLEscapeString (s : Str) : Str := s.flatMap escapeChar

/-- The statement `strings.Replace(x, "\r", "", -1)`. -/
def stripCR (s : Str) : Str := stringsReplace s ['\r'] []

/-- The template "<pre>$1</pre>". -/
def preTpl : List TItem := [.text "<pre>".toList, .ref 1, .text "</pre>".toList]

/-- The template "<b>$1</b>". -/
def boldTpl : List TItem := [.text "<b>".toList, .ref 1, .text "</b>".toList]

/-- The template "<em>$1</em>". -/
def italicTpl : List TItem := [.text "<em>".toList, .ref 1, .text "</em>".toList]

/-- The template `<a href="$0">$0</a>`. -/
def linkTpl : List TItem :=
  [.text ("<a href=".toList ++ [Char.ofNat 34]), .ref 0,
   .text (Char.ofNat 34 :: ">".toList), .ref 0, .text "</a>".toList]

/-- The code-block step of `formatComment` (lines 156 to 163). -/
def codeBlocks (comment : Str) : Str :=
  if containsStr "```".toList comment then
    replaceAllString codeRe preTpl comment
  else
    stringsReplace (replaceAllString oldCodeRe preTpl comment) "</pre><pre>".toList ['\n']

/-- The paragraph and line-break step of `formatComment` (lines 165 and 166). -/
def lineBreaks (comment : Str) : Str :=
  stringsReplace (stringsReplace comment "\n\n".toList "</p><p>".toList) "\n".toList "<br>".toList

/-- The body of `formatComment` up to the string handed to `censor`. -/
def formatted (comment : Str) : Str :=
  let comment := stripCR comment
  let comment := HTMLEscapeString comment
  let comment := codeBlocks comment
  let comment := lineBreaks comment
  let comment := replaceAllString boldRe boldTpl comment
  let comment := replaceAllString italicRe italicTpl comment
  let comment := replaceAllString linkRe linkTpl comment
  "<p>".toList ++ comment ++ "</p>".toList

/-- The part of Go's `regexp` package that `censor` uses on the pattern it
builds at run time: `mustCompile` gives no result where `regexp.MustCompile`
panics. -/
structure RegexpLib (R : Type) where
  mustCompile : Str → Option R
  replaceAllString : R → Str → Str → Str

/-- The package variables `censored` and `censorRe`. -/
structure CensorCache (R : Type) where
  censored : Str
  censorRe : Option R
  deriving DecidableEq

/-- The state of `censored` and `censorRe` when the program starts. -/
def CensorCache.initial (R : Type) : CensorCache R := ⟨[], none⟩

/-- Go's `strings.Split(s, ",")`. -/
def splitComma : Str → List Str
  | [] => [[]]
  | c :: cs =>
      match splitComma cs with
      | [] => [[c]]
      | w :: ws => if c = ',' then [] :: w :: ws else (c :: w) :: ws

/-- Go's `unicode.IsSpace`. -/
def isSpace (c : Char) : Bool :=
  c == '\t' || c == '\n' || c == Char.ofNat 11 || c == Char.ofNat 12 || c == '\r' || c == ' ' ||
  c == Char.ofNat 0x85 || c == Char.ofNat 0xA0 || c == Char.ofNat 0x1680 ||
  (0x2000 ≤ c.toNat && c.toNat ≤ 0x200A) || c == Char.ofNat 0x2028 || c == Char.ofNat 0x2029 ||
  c == Char.ofNat 0x202F || c == Char.ofNat 0x205F || c == Char.ofNat 0x3000

/-- Go's `strings.TrimSpace`. -/
def trimSpace (s : Str) : Str :=
  ((s.dropWhile isSpace).reverse.dropWhile isSpace).reverse

/-- The loop of `censor` that joins the trimmed words with `|`. -/
def joinWords : List Str → Str
  | [] => []
  | [w] => trimSpace w
  | w :: ws => trimSpace w ++ '|' :: joinWords ws

/-- The last four lines of `censor`: the replacement with the matcher at hand. -/
def censorApply {R : Type} (lib : RegexpLib R) (cache : CensorCache R) (content : Str) :
    Option Str × CensorCache R :=
  match cache.censorRe with
  | some re => (some (lib.replaceAllString re content "****".toList), cache)
  | none => (some content, cache)

/-- The function `censor`; `cWords` is the value of
`models.Config(models.CensoredWords)`.  The result is the returned string, or
nothing when the call panics, and the values of the package variables after the
call: `censored` is assigned before `regexp.MustCompile` runs, so a panic leaves
the new word list next to the old matcher. -/
def censor {R : Type} (lib : RegexpLib R) (cWords : Str) (cache : CensorCache R)
    (content : Str) : Option Str × CensorCache R :=
  if cWords ≠ cache.censored then
    let cWordList := splitComma cWords
    if cWordList.length > 0 then
      match lib.mustCompile ("(?i:".toList ++ joinWords cWordList ++ ")".toList) with
      | none => (none, ⟨cWords, cache.censorRe⟩)
      | some re => censorApply lib ⟨cWords, some re⟩ content
    else censorApply lib ⟨cWords, none⟩ content
  else censorApply lib cache content

/-- The function `formatComment`. -/
def formatComment {R : Type} (lib : RegexpLib R) (cWords : Str) (cache : CensorCache R)
    (comment : Str) : Option Str × CensorCache R :=
  censor lib cWords cache (formatted comment)

/-- The template "\n$1\n". -/
def unfenceTpl : List TItem := [.text ['\n'], .ref 1, .text ['\n']]

/-- The template "$1> $2". -/
def quoteTpl : List TItem := [.ref 1, .text "> ".toList, .ref 2]

/-- The function `formatReply`; no result where the index expression
`quoteContent[0]` panics. -/
def formatReply (quotedUser quoteContent : Str) : Option Str :=
  let quoteContent := stripCR quoteContent
  let quoteContent := replaceAllString codeRe unfenceTpl quoteContent
  match quoteContent with
  | [] => none
  | c :: cs =>
      let quoteContent := if c = '\n' then cs else c :: cs
      let quoteContent := replaceAllString quoteRe quoteTpl quoteContent
      some ("```\n".toList ++ quotedUser ++ " wrote:\n".toList ++ quoteContent ++ "\n```\n".toList)

/-! ## Auxiliary notions used in the statements and proofs -/

/-- The characters `template.HTMLEscapeString` rewrites. -/
def special (c : Char) : Bool :=
  c == '&' || c == '<' || c == '>' || c == Char.ofNat 34 || c == Char.ofNat 39 || c == Char.ofNat 0

/-- The characters that occur in the replacements of `template.HTMLEscapeString`. -/
def entityText : Str := "&amp;lt;gt;#349".toList ++ [Char.ofNat 0xFFFD]

/-- No URL scheme `http://` or `https://` occurs in the text. -/
def noUrl (s : Str) : Prop :=
  containsStr "http://".toList s = false ∧ containsStr "https://".toList s = false

instance (s : Str) : Decidable (noUrl s) := by
  unfold noUrl
  infer_instance

/-- The tags the pipeline has inserted before the auto-link step. -/
def blockTags : List Str :=
  ["<p>".toList, "</p>".toList, "<pre>".toList, "</pre>".toList, "<br>".toList,
   "<b>".toList, "</b>".toList, "<em>".toList, "</em>".toList]

/-- The tags of the pipeline: the above and the two pieces of a link. -/
def pipelineTags : List Str :=
  blockTags ++ ["<a href=".toList ++ [Char.ofNat 34], "</a>".toList]

/-- One of the tags is a beginning of the text `t`. -/
def tagAt (tags : List Str) (t : Str) : Bool := tags.any (fun tag => hasPrefix t tag)

/-- Every `<` of the text is the first character of one of the tags. -/
def wellTagged (tags : List Str) : Str → Bool
  | [] => true
  | c :: cs => (c != '<' || tagAt tags (c :: cs)) && wellTagged tags cs

/-- Every character class of the pattern lies inside `q`. -/
def Re.within (q : Char → Prop) : Re → Prop
  | .eps => True
  | .bol => True
  | .eol => True
  | .cls p => ∀ c, p c = true → q c
  | .star p => ∀ c, p c = true → q c
  | .seq a b => Re.within q a ∧ Re.within q b
  | .alt a b => Re.within q a ∧ Re.within q b
  | .grp _ a => Re.within q a

/-- The pattern cannot match the empty string. -/
def Re.nonEmpty : Re → Bool
  | .eps => false
  | .bol => false
  | .eol => false
  | .cls _ => true
  | .star _ => false
  | .seq a b => Re.nonEmpty a || Re.nonEmpty b
  | .alt a b => Re.nonEmpty a && Re.nonEmpty b
  | .grp _ a => Re.nonEmpty a

/-- A regexp library in which `MustCompile` always panics; `censor` does not
call it while the word list is empty and the cache is in its initial state. -/
def panicLib : RegexpLib Unit := ⟨fun _ => none, fun _ s _ => s⟩

/-- The number of places of the text at which the word `sub` starts. -/
def countStr (sub : Str) : Str → Nat
  | [] => if hasPrefix [] sub then 1 else 0
  | c :: cs => (if hasPrefix (c :: cs) sub then 1 else 0) + countStr sub cs

/-- The pattern has neither `^` nor `$`. -/
def Re.anchorFree : Re → Bool
  | .eps => true
  | .bol => false
  | .eol => false
  | .cls _ => true
  | .star _ => true
  | .seq a b => Re.anchorFree a && Re.anchorFree b
  | .alt a b => Re.anchorFree a && Re.anchorFree b
  | .grp _ a => Re.anchorFree a

/-- The pattern matches the text `u` in full: one of the ways it matches from
the start of `u` ends at the end of `u`. -/
def fullMatch (re : Re) (u : Str) : Bool :=
  (run u.length re ([], u)).any (fun r => r.2.isEmpty)

/-- The part of `linkRe` in front of its last two character classes: scheme,
host and port. -/
def linkHead : Re :=
  .seq (lit "http".toList) (.seq (opt (chr 's')) (.seq (lit "://".toList)
    (.seq (.grp 1 (.alt (.seq (plus hostCh) (.seq (chr '.') (plus hostDotCh)))
                       (lit "localhost".toList)))
      (opt (.grp 2 (.seq (chr ':') (plus isDigit)))))))

/-- The last two character classes of `linkRe`. -/
def linkTail : Re := .seq (.star urlCh) (.cls urlEndCh)

/-- A text without carriage return, newline, asterisk, backtick and URL scheme. -/
def plainText (s : Str) : Prop :=
  '\r' ∉ s ∧ '\n' ∉ s ∧ '*' ∉ s ∧ Char.ofNat 96 ∉ s ∧ noUrl s

instance (s : Str) : Decidable (plainText s) := by
  unfold plainText
  infer_instance

/-- A quoted line: `l.1` characters `>`, then `l.2.1` spaces, then the content
`l.2.2`. -/
def quotedLine (l : Nat × Nat × Str) : Str :=
  List.replicate l.1 '>' ++ (List.replicate l.2.1 ' ' ++ l.2.2)

/-- The same line one level deeper: one more `>`, one space, the content. -/
def requotedLine (l : Nat × Nat × Str) : Str :=
  List.replicate (l.1 + 1) '>' ++ (' ' :: l.2.2)

/-- A content of a quoted line: not empty, starting with a character that is
neither blank (for `\S`) nor `>`, without newline and carriage return. -/
def quotable (c : Str) : Prop :=
  (∃ d ∈ c.head?, nonSpace d = true ∧ d ≠ '>') ∧ '\n' ∉ c ∧ '\r' ∉ c

instance (c : Str) : Decidable (quotable c) := by
  unfold quotable
  cases c with
  | nil => exact isFalse (by simp)
  | cons d c =>
    exact decidable_of_iff ((nonSpace d = true ∧ d ≠ '>') ∧ '\n' ∉ d :: c ∧ '\r' ∉ d :: c)
      (by simp)

/-! ## The matcher `censor` compiles at run time -/

/-- Case folding of `(?i:...)` for a letter or digit `c`: the characters a
literal `c` matches are `c`, its other case, and the two characters outside
ASCII whose simple case folding is a letter, U+212A for `k` and U+017F for `s`. -/
def ciCh (c : Char) : Char → Bool := fun d =>
  d == c || d.toLower == c.toLower ||
  ((c == 'k' || c == 'K') && d == Char.ofNat 0x212A) ||
  ((c == 's' || c == 'S') && d == Char.ofNat 0x17F)

/-- A word under `(?i:...)`. -/
def ciLit : Str → Re
  | [] => .eps
  | c :: cs => .seq (.cls (ciCh c)) (ciLit cs)

/-- The alternation `w1|w2|...|wn` under `(?i:...)`. -/
def wordsRe : List Str → Re
  | [] => .eps
  | [w] => ciLit w
  | w :: ws => .alt (ciLit w) (wordsRe ws)

/-- The words of a pattern body separated by `|`. -/
def splitBar : Str → List Str
  | [] => [[]]
  | c :: cs =>
      match splitBar cs with
      | [] => [[c]]
      | w :: ws => if c = '|' then [] :: w :: ws else (c :: w) :: ws

/-- The patterns `(?i:w1|w2|...|wn)` whose words are made of ASCII letters and
digits, each word possibly empty: the syntax tree `regexp.MustCompile` builds for
them, and nothing for a text of another shape. -/
def compileWords (p : Str) : Option Re :=
  if hasPrefix p "(?i:".toList then
    match (p.drop 4).reverse with
    | [] => none
    | c :: br =>
        if c = ')' ∧ br.all (fun d => isAlnum d || d == '|') then
          some (wordsRe (splitBar br.reverse))
        else none
  else none

/-- Go's `regexp` package as far as `censor` uses it.  Patterns of the shape
above are compiled as said there; `other` stands for `regexp.MustCompile` on
every other pattern (no result where it panics).  `ReplaceAllString` is applied
to replacement texts without `$`, as the `****` of `censor`. -/
def goRegexp (other : Str → Option Re) : RegexpLib Re where
  mustCompile := fun p =>
    match compileWords p with
    | some re => some re
    | none => other p
  replaceAllString := fun re s repl => replaceAllString re [.text repl] s

/-- The pattern `censor` builds from the word list. -/
def censorPattern (cWords : Str) : Str :=
  "(?i:".toList ++ joinWords (splitComma cWords) ++ ")".toList

/-- The entries of a word list after trimming. -/
def entries (cWords : Str) : List Str := (splitComma cWords).map trimSpace

/-- Every entry of the word list is, after trimming, a non-empty word of ASCII
letters and digits. -/
def alnumList (cWords : Str) : Prop :=
  ∀ w ∈ entries cWords, w ≠ [] ∧ ∀ c ∈ w, isAlnum c = true

instance (cWords : Str) : Decidable (alnumList cWords) := by
  unfold alnumList
  infer_instance

/-- The text `y` equals the word `w` up to the case folding of `(?i:...)`. -/
def foldEq : Str → Str → Bool
  | [], [] => true
  | c :: w, d :: y => ciCh c d && foldEq w y
  | _, _ => false

/-- The states of the package variables that calls of `censor` can produce from
the state at program start. -/
inductive Reachable {R : Type} (lib : RegexpLib R) : CensorCache R → Prop
  | start : Reachable lib (CensorCache.initial R)
  | call (cache : CensorCache R) (cWords content : Str) :
      Reachable lib cache → Reachable lib (censor lib cWords cache content).2

/-- The text `t` begins with the word `w`, compared character by character as a
case-insensitive pattern compares them. -/
def hasPrefixFold : Str → Str → Bool
  | _, [] => true
  | [], _ :: _ => false
  | d :: ds, c :: cs => ciCh c d && hasPrefixFold ds cs

/-- The word `w` occurs somewhere in the text, compared case-insensitively. -/
def containsFold (w : Str) : Str → Bool
  | [] => hasPrefixFold [] w
  | c :: cs => hasPrefixFold (c :: cs) w || containsFold w cs

/-! # Properties -/

/-! ## The copy loop -/

theorem rewriteAux_id (m : Str → Option (Str × Nat)) :
    ∀ (s : Str) (am : Bool), (∀ t, t <:+ s → m t = none) → rewriteAux m s 0 am = s
  | [], am, h => by simp [rewriteAux, h [] (List.suffix_refl _)]
  | c :: cs, am, h => by
      have h0 := h (c :: cs) (List.suffix_refl _)
      have ih := rewriteAux_id m cs false (fun t ht => h t (ht.trans (List.suffix_cons c cs)))
      simp [rewriteAux, h0, ih]

theorem rewriteAux_skip (m : Str → Option (Str × Nat)) :
    ∀ (x r : Str) (am : Bool), x ≠ [] → rewriteAux m (x ++ r) x.length am = rewriteAux m r 0 true
  | [], _, _, h => absurd rfl h
  | [c], r, am, _ => by simp [rewriteAux]
  | c :: d :: x, r, am, _ => by
      have ih := rewriteAux_skip m (d :: x) r true (by simp)
      simpa [rewriteAux] using ih

theorem rewriteAux_match (m : Str → Option (Str × Nat)) (x r e : Str) (am : Bool)
    (hx : x ≠ []) (hm : m (x ++ r) = some (e, x.length)) :
    rewriteAux m (x ++ r) 0 am = e ++ rewriteAux m r 0 true := by
  cases x with
  | nil => exact absurd rfl hx
  | cons c x =>
    simp only [List.cons_append, List.length_cons] at hm ⊢
    rw [rewriteAux, hm]
    cases x with
    | nil => simp
    | cons d x =>
      have := rewriteAux_skip m (d :: x) r true (by simp)
      simpa using this

theorem rewriteAux_cons (m : Str → Option (Str × Nat)) (c : Char) (cs : Str) (am : Bool)
    (hm : m (c :: cs) = none) :
    rewriteAux m (c :: cs) 0 am = c :: rewriteAux m cs 0 false := by
  rw [rewriteAux, hm]

/-- Text in front of which no match starts is copied. -/
theorem rewriteAux_copy (m : Str → Option (Str × Nat)) (r : Str) :
    ∀ (x : Str) (am : Bool), x ≠ [] → (∀ y z, x = y ++ z → z ≠ [] → m (z ++ r) = none) →
      rewriteAux m (x ++ r) 0 am = x ++ rewriteAux m r 0 false
  | [], _, h, _ => absurd rfl h
  | [c], am, _, h => by
      have := h [] [c] rfl (by simp)
      simpa using rewriteAux_cons m c r am this
  | c :: d :: x, am, _, h => by
      have h0 := h [] (c :: d :: x) rfl (by simp)
      have ih := rewriteAux_copy m r (d :: x) false (by simp)
        (fun y z hyz hz => h (c :: y) z (by simp [hyz]) hz)
      have := rewriteAux_cons m c (d :: x ++ r) am h0
      simp only [List.cons_append] at this ih ⊢
      rw [this, ih]

/-! ## Prefixes and substrings -/

@[simp] theorem hasPrefix_nil (s : Str) : hasPrefix s [] = true := by cases s <;> rfl

@[simp] theorem hasPrefix_nil_cons (d : Char) (ds : Str) : hasPrefix [] (d :: ds) = false := rfl

@[simp] theorem hasPrefix_cons_cons (c d : Char) (cs ds : Str) :
    hasPrefix (c :: cs) (d :: ds) = (c == d && hasPrefix cs ds) := rfl

theorem hasPrefix_iff : ∀ (s w : Str), hasPrefix s w = true ↔ ∃ r, s = w ++ r
  | s, [] => by simp
  | [], d :: ds => by simp
  | c :: cs, d :: ds => by
      simp only [hasPrefix_cons_cons, Bool.and_eq_true, beq_iff_eq, hasPrefix_iff cs ds,
        List.cons_append, List.cons.injEq]
      constructor
      · rintro ⟨h, r, hr⟩; exact ⟨r, h, hr⟩
      · rintro ⟨r, h, hr⟩; exact ⟨h, r, hr⟩

theorem hasPrefix_append_self (w r : Str) : hasPrefix (w ++ r) w = true :=
  (hasPrefix_iff _ _).2 ⟨r, rfl⟩

theorem containsStr_false (sub : Str) :
    ∀ (s : Str), containsStr sub s = false ↔ ∀ t, t <:+ s → hasPrefix t sub = false
  | [] => by simp [containsStr]
  | c :: cs => by
      simp only [containsStr, Bool.or_eq_false_iff, containsStr_false sub cs, List.suffix_cons_iff]
      constructor
      · rintro ⟨h1, h2⟩ t (rfl | ht)
        · exact h1
        · exact h2 t ht
      · intro h
        exact ⟨h _ (Or.inl rfl), fun t ht => h t (Or.inr ht)⟩

theorem containsStr_true (sub : Str) (s : Str) :
    containsStr sub s = true ↔ ∃ x y, s = x ++ sub ++ y := by
  constructor
  · intro h
    by_contra hc
    have : containsStr sub s = false := by
      rw [containsStr_false]
      intro t ht
      by_contra h2
      simp only [Bool.not_eq_false] at h2
      obtain ⟨r, hr⟩ := (hasPrefix_iff _ _).1 h2
      obtain ⟨x, hx⟩ := ht
      exact hc ⟨x, r, by rw [← hx, hr, List.append_assoc]⟩
    rw [this] at h
    exact Bool.noConfusion h
  · rintro ⟨x, y, rfl⟩
    by_contra hc
    simp only [Bool.not_eq_true] at hc
    rw [containsStr_false] at hc
    have := hc (sub ++ y) ⟨x, by simp⟩
    rw [hasPrefix_append_self] at this
    exact Bool.noConfusion this

theorem hasPrefix_head_ne (d : Char) (ds t : Str) (h : t.head? ≠ some d) :
    hasPrefix t (d :: ds) = false := by
  cases t with
  | nil => rfl
  | cons a t =>
    have : a ≠ d := fun e => h (by simp [e])
    simp [this]

theorem head_ne_of_not_mem (c : Char) (s t : Str) (hc : c ∉ s) (ht : t <:+ s) :
    t.head? ≠ some c := by
  cases t with
  | nil => simp
  | cons a t =>
    have : a ∈ s := ht.subset (List.mem_cons_self _ _)
    simp only [List.head?_cons, ne_eq, Option.some.injEq]
    rintro rfl
    exact hc this

theorem containsStr_of_not_mem (c : Char) (ds s : Str) (hc : c ∉ s) :
    containsStr (c :: ds) s = false := by
  rw [containsStr_false]
  intro t ht
  exact hasPrefix_head_ne c ds t (head_ne_of_not_mem c s t hc ht)

theorem stringsReplace_id (s old new : Str) (h : containsStr old s = false) :
    stringsReplace s old new = s := by
  rw [containsStr_false] at h
  apply rewriteAux_id
  intro t ht
  simp [h t ht]

/-! ## The matcher -/

@[simp] theorem run_eps (n : Nat) (st : MState) : run n .eps st = [st] := rfl

@[simp] theorem run_bol (n : Nat) (st : MState) :
    run n .bol st = if st.2.length = n then [st] else [] := rfl

@[simp] theorem run_eol (n : Nat) (st : MState) :
    run n .eol st = if st.2.isEmpty then [st] else [] := rfl

@[simp] theorem run_cls_nil (n : Nat) (p : Char → Bool) (caps : Caps) :
    run n (.cls p) (caps, []) = [] := rfl

@[simp] theorem run_cls_cons (n : Nat) (p : Char → Bool) (caps : Caps) (c : Char) (cs : Str) :
    run n (.cls p) (caps, c :: cs) = if p c then [(caps, cs)] else [] := rfl

@[simp] theorem run_star (n : Nat) (p : Char → Bool) (st : MState) :
    run n (.star p) st = starRun p st.1 st.2 := rfl

@[simp] theorem run_seq (n : Nat) (a b : Re) (st : MState) :
    run n (.seq a b) st = (run n a st).flatMap (run n b) := rfl

@[simp] theorem run_alt (n : Nat) (a b : Re) (st : MState) :
    run n (.alt a b) st = run n a st ++ run n b st := rfl

@[simp] theorem run_grp (n i : Nat) (a : Re) (st : MState) :
    run n (.grp i a) st =
      (run n a st).map (fun r => ((i, st.2.take (st.2.length - r.2.length)) :: r.1, r.2)) := rfl

theorem run_chr (n : Nat) (c : Char) (caps : Caps) (t : Str) :
    run n (chr c) (caps, t) = if hasPrefix t [c] then [(caps, t.drop 1)] else [] := by
  cases t with
  | nil => simp [chr]
  | cons a t => simp [chr]

theorem run_lit (n : Nat) : ∀ (w : Str) (caps : Caps) (t : Str),
    run n (lit w) (caps, t) = if hasPrefix t w then [(caps, t.drop w.length)] else []
  | [], caps, t => by simp [lit]
  | d :: ds, caps, [] => by simp [lit, chr]
  | d :: ds, caps, a :: t => by
      by_cases h : a = d
      · subst h
        simp [lit, chr, run_lit n ds caps t]
      · simp [lit, chr, h]

theorem replaceAllString_id (re : Re) (tpl : List TItem) (s : Str)
    (h : ∀ t, t <:+ s → run s.length re ([], t) = []) : replaceAllString re tpl s = s := by
  apply rewriteAux_id
  intro t ht
  simp [matchAt, h t ht]

/-! ## Escaping -/

@[simp] theorem HTMLEscapeString_nil : HTMLEscapeString [] = [] := rfl

@[simp] theorem HTMLEscapeString_cons (c : Char) (cs : Str) :
    HTMLEscapeString (c :: cs) = escapeChar c ++ HTMLEscapeString cs := rfl

@[simp] theorem HTMLEscapeString_append (x y : Str) :
    HTMLEscapeString (x ++ y) = HTMLEscapeString x ++ HTMLEscapeString y := by
  simp [HTMLEscapeString]

theorem escapeChar_plain (c : Char) (h : special c = false) : escapeChar c = [c] := by
  simp only [special, Bool.or_eq_false_iff, beq_eq_false_iff_ne, ne_eq] at h
  obtain ⟨⟨⟨⟨⟨h1, h2⟩, h3⟩, h4⟩, h5⟩, h6⟩ := h
  simp [escapeChar, h1, h2, h3, h4, h5, h6]

theorem escapeChar_special (c : Char) (h : special c = true) :
    ∀ d ∈ escapeChar c, d ∈ entityText := by
  unfold escapeChar
  split_ifs with h1 h2 h3 h4 h5 h6
  all_goals first
    | (intro d hd; revert d; decide)
    | skip
  simp [special, h1, h2, h3, h4, h5, h6] at h

theorem escapeChar_ne_nil (c : Char) : escapeChar c ≠ [] := by
  unfold escapeChar
  split_ifs <;> simp

theorem special_of_mem_entityText (d : Char) (h : special d = true) :
    d = '&' ∨ d ∉ entityText := by
  simp only [special, Bool.or_eq_true, beq_iff_eq] at h
  rcases h with ((((h | h) | h) | h) | h) | h <;> subst h
  · exact Or.inl rfl
  all_goals exact Or.inr (by decide)

/-- A character that is neither rewritten nor produced by escaping occurs in the
escaped text only where it occurs in the raw text. -/
theorem mem_escape (d : Char) (hd : d ∉ entityText) (s : Str) :
    d ∈ HTMLEscapeString s → d ∈ s := by
  induction s with
  | nil => simp
  | cons c cs ih =>
    simp only [HTMLEscapeString_cons, List.mem_append, List.mem_cons]
    rintro (h | h)
    · by_cases hc : special c = true
      · exact absurd (escapeChar_special c hc d h) hd
      · simp only [Bool.not_eq_true] at hc
        rw [escapeChar_plain c hc] at h
        exact Or.inl (by simpa using h)
    · exact Or.inr (ih h)

theorem not_mem_escape (d : Char) (hd : d ∉ entityText) (s : Str) (h : d ∉ s) :
    d ∉ HTMLEscapeString s := fun hm => h (mem_escape d hd s hm)

/-- The escaped text has no character `<`. -/
theorem lt_not_mem_escape (s : Str) : '<' ∉ HTMLEscapeString s := by
  induction s with
  | nil => simp
  | cons c cs ih =>
    simp only [HTMLEscapeString_cons, List.mem_append, not_or]
    refine ⟨?_, ih⟩
    by_cases hc : special c = true
    · intro h
      exact absurd (escapeChar_special c hc _ h) (by decide)
    · simp only [Bool.not_eq_true] at hc
      rw [escapeChar_plain c hc]
      simp only [List.mem_singleton]
      rintro rfl
      simp [special] at hc

theorem escapeChar_head (c : Char) (h : special c = true) :
    ∃ a e, escapeChar c = a :: e ∧ (a = '&' ∨ a = Char.ofNat 0xFFFD) := by
  unfold escapeChar
  split_ifs with h1 h2 h3 h4 h5 h6
  · exact ⟨_, _, rfl, Or.inl rfl⟩
  · exact ⟨_, _, rfl, Or.inl rfl⟩
  · exact ⟨_, _, rfl, Or.inl rfl⟩
  · exact ⟨_, _, rfl, Or.inl rfl⟩
  · exact ⟨_, _, rfl, Or.inl rfl⟩
  · exact ⟨_, _, rfl, Or.inr rfl⟩
  · simp [special, h1, h2, h3, h4, h5, h6] at h

/-- A word of characters that escaping neither rewrites nor starts a replacement
with is a beginning of the escaped text exactly when it is one of the raw text. -/
theorem hasPrefix_escape : ∀ (w : Str), (∀ d ∈ w, special d = false ∧ d ≠ Char.ofNat 0xFFFD) →
    ∀ s : Str, hasPrefix (HTMLEscapeString s) w = hasPrefix s w
  | [], _, s => by simp
  | d :: ds, _, [] => by simp
  | d :: ds, hw, c :: cs => by
      have hd := hw d (List.mem_cons_self _ _)
      by_cases hc : special c = true
      · have hne : c ≠ d := by
          rintro rfl
          rw [hc] at hd
          exact Bool.noConfusion hd.1
        obtain ⟨a, e, he, ha⟩ := escapeChar_head c hc
        have : a ≠ d := by
          rintro rfl
          rcases ha with ha | ha
          · subst ha
            exact Bool.noConfusion hd.1
          · exact hd.2 ha
        simp [he, beq_eq_false_iff_ne.2 this, beq_eq_false_iff_ne.2 hne]
      · simp only [Bool.not_eq_true] at hc
        have ih := hasPrefix_escape ds (fun x hx => hw x (List.mem_cons_of_mem _ hx)) cs
        simp [escapeChar_plain c hc, ih]

theorem containsStr_append_heads (d : Char) (ds : Str) (y : Str) :
    ∀ x : Str, (∀ a ∈ x, a ≠ d) →
      containsStr (d :: ds) (x ++ y) = containsStr (d :: ds) y
  | [], _ => rfl
  | a :: x, h => by
      have ha : a ≠ d := h a (List.mem_cons_self _ _)
      have ih := containsStr_append_heads d ds y x (fun b hb => h b (List.mem_cons_of_mem _ hb))
      simp [containsStr, ha, ih]

/-- Escaping creates no occurrence of such a word. -/
theorem containsStr_escape (d : Char) (ds : Str)
    (hw : ∀ a ∈ d :: ds, special a = false ∧ a ≠ Char.ofNat 0xFFFD) (hd0 : d ∉ entityText) :
    ∀ s : Str, containsStr (d :: ds) s = false →
      containsStr (d :: ds) (HTMLEscapeString s) = false
  | [], _ => by simp [containsStr]
  | c :: cs, h => by
      simp only [containsStr, Bool.or_eq_false_iff] at h
      have ih := containsStr_escape d ds hw hd0 cs h.2
      have hd := hw d (List.mem_cons_self _ _)
      by_cases hc : special c = true
      · rw [HTMLEscapeString_cons, containsStr_append_heads d ds _ _ ?_]
        · exact ih
        · intro a ha
          rintro rfl
          exact hd0 (escapeChar_special c hc a ha)
      · simp only [Bool.not_eq_true] at hc
        have hp := hasPrefix_escape (d :: ds) hw (c :: cs)
        rw [HTMLEscapeString_cons, escapeChar_plain c hc] at hp ⊢
        simp only [List.singleton_append] at hp ⊢
        simp only [containsStr, Bool.or_eq_false_iff]
        exact ⟨by rw [hp]; exact h.1, ih⟩

theorem noUrl_escape (s : Str) (h : noUrl s) : noUrl (HTMLEscapeString s) := by
  refine ⟨?_, ?_⟩
  · have := containsStr_escape 'h' "ttp://".toList (by decide) (by decide) s (by simpa using h.1)
    simpa using this
  · have := containsStr_escape 'h' "ttps://".toList (by decide) (by decide) s (by simpa using h.2)
    simpa using this

/-! ## Where the fixed patterns cannot match -/

theorem run_seq_lit (n : Nat) (w : Str) (X : Re) (caps : Caps) (t : Str) :
    run n (.seq (lit w) X) (caps, t) =
      if hasPrefix t w then run n X (caps, t.drop w.length) else [] := by
  rw [run_seq, run_lit]
  split_ifs <;> simp

theorem run_seq_chr (n : Nat) (c : Char) (X : Re) (caps : Caps) (t : Str) :
    run n (.seq (chr c) X) (caps, t) =
      if hasPrefix t [c] then run n X (caps, t.drop 1) else [] := by
  rw [run_seq, run_chr]
  split_ifs <;> simp

theorem run_bold_nil (n : Nat) (caps : Caps) (t : Str) (h : t.head? ≠ some '*') :
    run n boldRe (caps, t) = [] := by
  rw [boldRe, run_seq_lit]
  have : hasPrefix t "**".toList = false := by
    simpa using hasPrefix_head_ne '*' ['*'] t h
  rw [this]
  rfl

theorem run_italic_nil (n : Nat) (caps : Caps) (t : Str) (h : t.head? ≠ some '*') :
    run n italicRe (caps, t) = [] := by
  rw [italicRe, run_seq_chr, hasPrefix_head_ne '*' [] t h]
  rfl

theorem run_link_nil (n : Nat) (caps : Caps) (t : Str)
    (h1 : hasPrefix t "http://".toList = false) (h2 : hasPrefix t "https://".toList = false) :
    run n linkRe (caps, t) = [] := by
  rw [linkRe, run_seq_lit]
  split_ifs with h
  · obtain ⟨r, rfl⟩ := (hasPrefix_iff _ _).1 h
    simp only [String.toList, List.cons_append, List.nil_append, hasPrefix_cons_cons, beq_self_eq_true,
      Bool.true_and] at h1 h2
    rw [run_seq, opt, run_alt, List.flatMap_append, run_chr]
    have e1 : List.drop ("http".toList).length ("http".toList ++ r) = r := by simp
    rw [e1]
    simp only [run_eps, List.flatMap_cons, List.flatMap_nil, List.append_nil]
    rw [run_seq_lit]
    simp only [String.toList, h1]
    cases r with
    | nil => rfl
    | cons a r =>
      by_cases ha : a = 's'
      · subst ha
        simp only [hasPrefix_cons_cons, beq_self_eq_true, Bool.true_and] at h2
        simp only [hasPrefix_cons_cons, hasPrefix_nil, beq_self_eq_true, Bool.and_self, if_true,
          List.drop_succ_cons, List.drop_zero, List.flatMap_cons, List.flatMap_nil,
          List.append_nil, run_seq_lit, h2, Bool.false_eq_true, if_false]
      · simp only [hasPrefix_cons_cons, beq_eq_false_iff_ne.2 ha, Bool.false_and,
          Bool.false_eq_true, if_false, List.flatMap_nil, List.append_nil]
  · rfl

theorem run_oldCode_nil (n : Nat) (caps : Caps) (t : Str)
    (h1 : t.length = n → hasPrefix t "    ".toList = false) (h2 : t.head? ≠ some '\n') :
    run n oldCodeRe (caps, t) = [] := by
  rw [oldCodeRe, run_seq, run_alt, List.flatMap_append, run_chr]
  rw [hasPrefix_head_ne '\n' [] t h2]
  simp only [run_bol, Bool.false_eq_true, if_false, List.flatMap_nil, List.append_nil]
  split_ifs with h
  · simp only [List.flatMap_cons, List.flatMap_nil, List.append_nil]
    rw [run_seq_lit, h1 h]
    rfl
  · rfl

theorem run_code_nil (n : Nat) (caps : Caps) (t : Str)
    (h1 : t.length = n → hasPrefix t "```".toList = false)
    (h2 : hasPrefix t "\n```".toList = false) :
    run n codeRe (caps, t) = [] := by
  rw [codeRe, run_seq, run_alt, List.flatMap_append, run_chr]
  have e2 : (if hasPrefix t ['\n'] = true then [(caps, List.drop 1 t)] else []).flatMap
      (run n (.seq (lit "```".toList) (.seq (.star notNl) (.seq (chr '\n')
        (.seq (.grp 1 (plus anyCh)) (.seq (lit "\n```".toList) (.alt .eol (chr '\n')))))))) = [] := by
    split_ifs with h
    · obtain ⟨r, rfl⟩ := (hasPrefix_iff _ _).1 h
      simp only [String.toList, List.cons_append, List.nil_append, hasPrefix_cons_cons,
        beq_self_eq_true, Bool.true_and] at h2
      simp only [List.flatMap_cons, List.flatMap_nil, List.append_nil]
      rw [run_seq_lit]
      simp only [String.toList, List.singleton_append, List.drop_succ_cons, List.drop_zero, h2,
        Bool.false_eq_true, if_false]
    · rfl
  rw [e2, List.append_nil, run_bol]
  split_ifs with h
  · simp only [List.flatMap_cons, List.flatMap_nil, List.append_nil]
    rw [run_seq_lit, h1 h]
    rfl
  · rfl

/-! ## Passes that leave a text unchanged -/

theorem bold_id (tpl : List TItem) (s : Str) (h : '*' ∉ s) :
    replaceAllString boldRe tpl s = s :=
  replaceAllString_id _ _ _ (fun t ht => run_bold_nil _ _ t (head_ne_of_not_mem '*' s t h ht))

theorem italic_id (tpl : List TItem) (s : Str) (h : '*' ∉ s) :
    replaceAllString italicRe tpl s = s :=
  replaceAllString_id _ _ _ (fun t ht => run_italic_nil _ _ t (head_ne_of_not_mem '*' s t h ht))

theorem link_id (tpl : List TItem) (s : Str) (h : noUrl s) :
    replaceAllString linkRe tpl s = s :=
  replaceAllString_id _ _ _ (fun t ht =>
    run_link_nil _ _ t ((containsStr_false _ s).1 h.1 t ht) ((containsStr_false _ s).1 h.2 t ht))

theorem oldCode_id (tpl : List TItem) (s : Str) (h1 : hasPrefix s "    ".toList = false)
    (h2 : '\n' ∉ s) : replaceAllString oldCodeRe tpl s = s :=
  replaceAllString_id _ _ _ (fun t ht =>
    run_oldCode_nil _ _ t (fun hl => by rw [ht.eq_of_length hl]; exact h1)
      (head_ne_of_not_mem '\n' s t h2 ht))

theorem code_id (tpl : List TItem) (s : Str) (h : containsStr "```".toList s = false) :
    replaceAllString codeRe tpl s = s := by
  apply replaceAllString_id
  intro t ht
  apply run_code_nil
  · intro _
    exact (containsStr_false _ s).1 h t ht
  · cases t with
    | nil => rfl
    | cons a t =>
      have := (containsStr_false _ s).1 h t (List.IsSuffix.trans (List.suffix_cons a t) ht)
      simp only [String.toList] at this ⊢
      simp [this]

theorem censor_initial {R : Type} (lib : RegexpLib R) (content : Str) :
    censor lib [] (CensorCache.initial R) content = (some content, CensorCache.initial R) := by
  simp [censor, censorApply, CensorCache.initial]

/-- The rendering of a text without markup, before the outer steps are named. -/
theorem formatted_plain (raw : Str) (hcr : '\r' ∉ raw) (hnl : '\n' ∉ raw) (hst : '*' ∉ raw)
    (hbt : Char.ofNat 96 ∉ raw) (hurl : noUrl raw) (hsp : hasPrefix raw "    ".toList = false) :
    formatted raw = "<p>".toList ++ HTMLEscapeString raw ++ "</p>".toList := by
  have e0 : stripCR raw = raw := stringsReplace_id _ _ _ (containsStr_of_not_mem _ _ _ hcr)
  have hnl2 : '\n' ∉ HTMLEscapeString raw := not_mem_escape _ (by decide) _ hnl
  have hst2 : '*' ∉ HTMLEscapeString raw := not_mem_escape _ (by decide) _ hst
  have hbt2 : Char.ofNat 96 ∉ HTMLEscapeString raw := not_mem_escape _ (by decide) _ hbt
  have hlt : '<' ∉ HTMLEscapeString raw := lt_not_mem_escape raw
  have hsp2 : hasPrefix (HTMLEscapeString raw) "    ".toList = false := by
    rw [hasPrefix_escape _ (by decide)]; exact hsp
  have e1 : codeBlocks (HTMLEscapeString raw) = HTMLEscapeString raw := by
    unfold codeBlocks
    have : containsStr "```".toList (HTMLEscapeString raw) = false :=
      containsStr_of_not_mem _ _ _ hbt2
    rw [this]
    simp only [Bool.false_eq_true, if_false]
    rw [oldCode_id _ _ hsp2 hnl2]
    exact stringsReplace_id _ _ _ (containsStr_of_not_mem _ _ _ hlt)
  have e2 : stringsReplace (HTMLEscapeString raw) "\n\n".toList "</p><p>".toList =
      HTMLEscapeString raw :=
    stringsReplace_id _ _ _ (containsStr_of_not_mem '\n' ['\n'] _ hnl2)
  have e3 : stringsReplace (HTMLEscapeString raw) "\n".toList "<br>".toList =
      HTMLEscapeString raw :=
    stringsReplace_id _ _ _ (containsStr_of_not_mem '\n' [] _ hnl2)
  unfold formatted lineBreaks
  simp only [e0, e1, e2, e3]
  rw [bold_id _ _ hst2, italic_id _ _ hst2, link_id _ _ (noUrl_escape raw hurl)]

/-- C1: a raw text with no carriage return, newline, asterisk or backtick, with
neither `http://` nor `https://`, and not beginning with four spaces, is rendered
(empty censor word list, censor cache in its initial state) as its escaped text
inside one paragraph tag; the censor cache stays in its initial state. -/
theorem C1_plain_text_is_escaped_paragraph {R : Type} (lib : RegexpLib R) (raw : Str)
    (hcr : '\r' ∉ raw) (hnl : '\n' ∉ raw) (hst : '*' ∉ raw) (hbt : Char.ofNat 96 ∉ raw)
    (hurl : noUrl raw) (hsp : hasPrefix raw "    ".toList = false) :
    formatComment lib [] (CensorCache.initial R) raw =
      (some ("<p>".toList ++ HTMLEscapeString raw ++ "</p>".toList), CensorCache.initial R) := by
  rw [formatComment, formatted_plain raw hcr hnl hst hbt hurl hsp, censor_initial]

/-- C1 at the raw text `a < b & c`. -/
theorem C1_plain_text_witness :
    formatComment panicLib [] (CensorCache.initial Unit)
        "a < b & c".toList =
      (some ("<p>a &lt; b &amp; c</p>".toList), CensorCache.initial Unit) :=
  C1_plain_text_is_escaped_paragraph _ "a < b & c".toList (by decide) (by decide) (by decide)
    (by decide) (by decide) (by decide)

/-! ## Texts in which every `<` starts a tag -/

theorem hasPrefix_append_right : ∀ (s w y : Str), hasPrefix s w = true → hasPrefix (s ++ y) w = true
  | s, [], y, _ => by simp
  | [], d :: ds, y, h => by simp at h
  | c :: cs, d :: ds, y, h => by
      simp only [hasPrefix_cons_cons, Bool.and_eq_true, List.cons_append] at h ⊢
      exact ⟨h.1, hasPrefix_append_right cs ds y h.2⟩

theorem tagAt_append_right (tags : List Str) (s y : Str) (h : tagAt tags s = true) :
    tagAt tags (s ++ y) = true := by
  simp only [tagAt, List.any_eq_true] at h ⊢
  obtain ⟨tag, h1, h2⟩ := h
  exact ⟨tag, h1, hasPrefix_append_right s tag y h2⟩

theorem wellTagged_append (tags : List Str) (y : Str) (hy : wellTagged tags y = true) :
    ∀ x : Str, wellTagged tags x = true → wellTagged tags (x ++ y) = true
  | [], _ => hy
  | c :: x, h => by
      simp only [wellTagged, Bool.and_eq_true, Bool.or_eq_true, List.cons_append] at h ⊢
      refine ⟨?_, wellTagged_append tags y hy x h.2⟩
      rcases h.1 with h1 | h1
      · exact Or.inl h1
      · exact Or.inr (tagAt_append_right tags (c :: x) y h1)

theorem wellTagged_suffix (tags : List Str) (y : Str) :
    ∀ x : Str, wellTagged tags (x ++ y) = true → wellTagged tags y = true
  | [], h => h
  | c :: x, h => by
      simp only [wellTagged, Bool.and_eq_true, List.cons_append] at h
      exact wellTagged_suffix tags y x h.2

theorem wellTagged_of_noLt (tags : List Str) : ∀ x : Str, '<' ∉ x → wellTagged tags x = true
  | [], _ => rfl
  | c :: x, h => by
      simp only [List.mem_cons, not_or] at h
      simp only [wellTagged, Bool.and_eq_true, Bool.or_eq_true, bne_iff_ne, ne_eq]
      exact ⟨Or.inl (fun e => h.1 e.symm), wellTagged_of_noLt tags x h.2⟩

theorem wellTagged_cons (tags : List Str) (c : Char) (x : Str) (hc : c ≠ '<')
    (h : wellTagged tags x = true) : wellTagged tags (c :: x) = true := by
  simp only [wellTagged, Bool.and_eq_true, Bool.or_eq_true, bne_iff_ne, ne_eq]
  exact ⟨Or.inl hc, h⟩

theorem wellTagged_mono (tags tags2 : List Str) (hsub : ∀ t ∈ tags, t ∈ tags2) :
    ∀ x : Str, wellTagged tags x = true → wellTagged tags2 x = true
  | [], _ => rfl
  | c :: x, h => by
      simp only [wellTagged, Bool.and_eq_true, Bool.or_eq_true] at h ⊢
      refine ⟨?_, wellTagged_mono tags tags2 hsub x h.2⟩
      rcases h.1 with h1 | h1
      · exact Or.inl h1
      · right
        simp only [tagAt, List.any_eq_true] at h1 ⊢
        obtain ⟨tag, h2, h3⟩ := h1
        exact ⟨tag, hsub tag h2, h3⟩

/-- A beginning of `u ++ c :: z` that is a word in which `c` occurs at most as
first character is a beginning of `u`, when `u` is not empty. -/
theorem hasPrefix_cut (c : Char) (z : Str) : ∀ (u w : Str), u ≠ [] → c ∉ w.tail →
    hasPrefix (u ++ c :: z) w = true → hasPrefix u w = true
  | [], _, h, _, _ => absurd rfl h
  | _ :: _, [], _, _, _ => by simp
  | a :: u, d :: ds, _, hc, h => by
      simp only [List.tail_cons] at hc
      simp only [hasPrefix_cons_cons, Bool.and_eq_true, List.cons_append] at h ⊢
      refine ⟨h.1, ?_⟩
      cases u with
      | nil =>
        cases ds with
        | nil => simp
        | cons e ds =>
          simp only [List.nil_append, hasPrefix_cons_cons, Bool.and_eq_true, beq_iff_eq] at h
          exact absurd (by simp [h.2.1]) hc
      | cons b u =>
        cases ds with
        | nil => simp
        | cons e ds =>
          have hc2 : c ∉ (e :: ds).tail := fun hm => hc (List.mem_cons_of_mem _ (by simpa using hm))
          exact hasPrefix_cut c z (b :: u) (e :: ds) (by simp) hc2 h.2

/-- A well-tagged text cut in front of a character that no tag has past its
first character stays well-tagged. -/
theorem wellTagged_cut (tags : List Str) (c : Char) (z : Str)
    (hc : ∀ tag ∈ tags, c ∉ tag.tail) :
    ∀ x : Str, wellTagged tags (x ++ c :: z) = true → wellTagged tags x = true
  | [], _ => rfl
  | a :: x, h => by
      simp only [wellTagged, Bool.and_eq_true, Bool.or_eq_true, List.cons_append] at h ⊢
      refine ⟨?_, wellTagged_cut tags c z hc x h.2⟩
      rcases h.1 with h1 | h1
      · exact Or.inl h1
      · right
        simp only [tagAt, List.any_eq_true] at h1 ⊢
        obtain ⟨tag, h2, h3⟩ := h1
        exact ⟨tag, h2, hasPrefix_cut c z (a :: x) tag (by simp) (hc tag h2) h3⟩

/-- A rewriting pass keeps a text well-tagged when its matches start at a
character that no tag has past its first character and its replacements are
well-tagged. -/
theorem rewriteAux_wellTagged (tags tags2 : List Str) (st : Char → Bool)
    (htags : ∀ tag ∈ tags, tag ≠ [] ∧ (∀ c ∈ tag.tail, st c = false) ∧
      wellTagged tags2 tag = true)
    (m : Str → Option (Str × Nat))
    (hm : ∀ t e k, wellTagged tags t = true → m t = some (e, k) →
      ∃ c x r, t = c :: x ++ r ∧ k = x.length + 1 ∧ st c = true ∧ wellTagged tags2 e = true) :
    ∀ (len : Nat) (s : Str), s.length ≤ len → wellTagged tags s = true →
      ∀ am, wellTagged tags2 (rewriteAux m s 0 am) = true := by
  intro len
  induction len with
  | zero =>
    intro s hs hw am
    have : s = [] := List.length_eq_zero.1 (Nat.le_zero.1 hs)
    subst this
    cases hm0 : m [] with
    | none => simp [rewriteAux, hm0, wellTagged]
    | some p =>
      obtain ⟨e, k⟩ := p
      obtain ⟨c, x, r, heq, _⟩ := hm [] e k hw hm0
      simp at heq
  | succ len ih =>
    intro s hs hw am
    cases s with
    | nil =>
      cases hm0 : m [] with
      | none => simp [rewriteAux, hm0, wellTagged]
      | some p =>
        obtain ⟨e, k⟩ := p
        obtain ⟨c, x, r, heq, _⟩ := hm [] e k hw hm0
        simp at heq
    | cons c cs =>
      cases hmc : m (c :: cs) with
      | some p =>
        obtain ⟨e, k⟩ := p
        obtain ⟨c2, x, r, heq, hk, _, hwe⟩ := hm _ e k hw hmc
        have hm2 : m ((c2 :: x) ++ r) = some (e, (c2 :: x).length) := by
          rw [← heq, hmc, hk]
          rfl
        have hlen : r.length ≤ len := by
          have := congrArg List.length heq
          simp only [List.length_cons, List.length_append] at this hs
          omega
        have hwr : wellTagged tags r = true := by
          rw [heq] at hw
          exact wellTagged_suffix tags r _ hw
        rw [heq, rewriteAux_match m (c2 :: x) r e am (by simp) hm2]
        exact wellTagged_append tags2 _ (ih r hlen hwr true) _ hwe
      | none =>
        by_cases hc : c = '<'
        · have hw1 := hw
          simp only [wellTagged, Bool.and_eq_true, Bool.or_eq_true, bne_iff_ne, ne_eq] at hw1
          have hta : tagAt tags (c :: cs) = true := by
            rcases hw1.1 with h | h
            · exact absurd hc h
            · exact h
          simp only [tagAt, List.any_eq_true] at hta
          obtain ⟨tag, htag, hpre⟩ := hta
          obtain ⟨t2, ht2⟩ := (hasPrefix_iff _ _).1 hpre
          obtain ⟨hne, htail, hwtag⟩ := htags tag htag
          have hcopy : ∀ y z, tag = y ++ z → z ≠ [] → m (z ++ t2) = none := by
            intro y z hyz hz
            cases y with
            | nil =>
              simp only [List.nil_append] at hyz
              rw [← hyz, ← ht2]
              exact hmc
            | cons a y =>
              cases hmz : m (z ++ t2) with
              | none => rfl
              | some q =>
                obtain ⟨e, k⟩ := q
                have hwz : wellTagged tags (z ++ t2) = true := by
                  rw [ht2, hyz, List.append_assoc] at hw
                  exact wellTagged_suffix tags _ _ hw
                obtain ⟨c2, x, r, heq, _, hst, _⟩ := hm _ e k hwz hmz
                cases z with
                | nil => exact absurd rfl hz
                | cons d z =>
                  simp only [List.cons_append, List.cons.injEq] at heq
                  have hd : d ∈ tag.tail := by
                    rw [hyz]
                    simp
                  rw [← heq.1, htail d hd] at hst
                  exact Bool.noConfusion hst
          have hlen : t2.length ≤ len := by
            have := congrArg List.length ht2
            have h0 : tag.length ≠ 0 := fun h => hne (List.length_eq_zero.1 h)
            simp only [List.length_cons, List.length_append] at this hs
            omega
          have hwt2 : wellTagged tags t2 = true := by
            rw [ht2] at hw
            exact wellTagged_suffix tags _ _ hw
          rw [ht2, rewriteAux_copy m t2 tag am hne hcopy]
          exact wellTagged_append tags2 _ (ih t2 hlen hwt2 false) _ hwtag
        · rw [rewriteAux_cons m c cs am hmc]
          have hw1 := hw
          simp only [wellTagged, Bool.and_eq_true] at hw1
          exact wellTagged_cons tags2 c _ hc
            (ih cs (by simpa using hs) hw1.2 false)

/-! ## What every match consumes and captures -/

theorem mem_starRun (p : Char → Bool) (caps : Caps) :
    ∀ (s : Str) (r : MState), r ∈ starRun p caps s →
      r.1 = caps ∧ ∃ x, s = x ++ r.2 ∧ ∀ c ∈ x, p c = true
  | [], r, h => by
      simp only [starRun, List.mem_singleton] at h
      subst h
      exact ⟨rfl, [], rfl, by simp⟩
  | c :: cs, r, h => by
      unfold starRun at h
      split_ifs at h with hp
      · rcases List.mem_append.1 h with h1 | h1
        · obtain ⟨e1, x, e2, hx⟩ := mem_starRun p caps cs r h1
          refine ⟨e1, c :: x, by rw [e2]; rfl, ?_⟩
          intro d hd
          rcases List.mem_cons.1 hd with rfl | hd
          · exact hp
          · exact hx d hd
        · simp only [List.mem_singleton] at h1
          subst h1
          exact ⟨rfl, [], rfl, by simp⟩
      · simp only [List.mem_singleton] at h
        subst h
        exact ⟨rfl, [], rfl, by simp⟩

/-- A match consumes a beginning of the text, made of characters of the
pattern's classes. -/
theorem run_consumed (n : Nat) (q : Char → Prop) : ∀ (re : Re), Re.within q re →
    ∀ (st r : MState), r ∈ run n re st → ∃ x, st.2 = x ++ r.2 ∧ ∀ c ∈ x, q c
  | .eps, _, st, r, h => by
      simp only [run_eps, List.mem_singleton] at h
      subst h
      exact ⟨[], rfl, by simp⟩
  | .bol, _, st, r, h => by
      simp only [run_bol] at h
      split_ifs at h
      · simp only [List.mem_singleton] at h
        subst h
        exact ⟨[], rfl, by simp⟩
      · simp at h
  | .eol, _, st, r, h => by
      simp only [run_eol] at h
      split_ifs at h
      · simp only [List.mem_singleton] at h
        subst h
        exact ⟨[], rfl, by simp⟩
      · simp at h
  | .cls p, hq, (caps, []), r, h => by simp at h
  | .cls p, hq, (caps, c :: cs), r, h => by
      simp only [run_cls_cons] at h
      split_ifs at h with hp
      · simp only [List.mem_singleton] at h
        subst h
        exact ⟨[c], rfl, by simpa using hq c hp⟩
      · simp at h
  | .star p, hq, st, r, h => by
      obtain ⟨_, x, e, hx⟩ := mem_starRun p st.1 st.2 r h
      exact ⟨x, e, fun c hc => hq c (hx c hc)⟩
  | .seq a b, hq, st, r, h => by
      simp only [run_seq, List.mem_flatMap] at h
      obtain ⟨m, hm, hr⟩ := h
      obtain ⟨x, e1, hx⟩ := run_consumed n q a hq.1 st m hm
      obtain ⟨y, e2, hy⟩ := run_consumed n q b hq.2 m r hr
      refine ⟨x ++ y, by rw [e1, e2, List.append_assoc], ?_⟩
      intro c hc
      rcases List.mem_append.1 hc with h1 | h1
      · exact hx c h1
      · exact hy c h1
  | .alt a b, hq, st, r, h => by
      simp only [run_alt, List.mem_append] at h
      rcases h with h | h
      · exact run_consumed n q a hq.1 st r h
      · exact run_consumed n q b hq.2 st r h
  | .grp i a, hq, st, r, h => by
      simp only [run_grp, List.mem_map] at h
      obtain ⟨m, hm, rfl⟩ := h
      exact run_consumed n q a hq st m hm

theorem within_true : ∀ re : Re, Re.within (fun _ => True) re
  | .eps => trivial
  | .bol => trivial
  | .eol => trivial
  | .cls _ => fun _ _ => trivial
  | .star _ => fun _ _ => trivial
  | .seq a b => ⟨within_true a, within_true b⟩
  | .alt a b => ⟨within_true a, within_true b⟩
  | .grp _ a => within_true a

/-- The rest of a match is an end of the text. -/
theorem run_rest (n : Nat) (re : Re) (st r : MState) (h : r ∈ run n re st) :
    ∃ x, st.2 = x ++ r.2 := by
  obtain ⟨x, e, _⟩ := run_consumed n (fun _ => True) re (within_true re) st r h
  exact ⟨x, e⟩

/-- When the text and the captures so far are made of characters in `q`, so are
the captures and the rest of every match. -/
theorem run_chars (n : Nat) (q : Char → Prop) : ∀ (re : Re) (st r : MState),
    (∀ p ∈ st.1, ∀ c ∈ p.2, q c) → (∀ c ∈ st.2, q c) → r ∈ run n re st →
      (∀ p ∈ r.1, ∀ c ∈ p.2, q c) ∧ (∀ c ∈ r.2, q c)
  | .seq a b, st, r, h1, h2, h => by
      simp only [run_seq, List.mem_flatMap] at h
      obtain ⟨m, hm, hr⟩ := h
      obtain ⟨k1, k2⟩ := run_chars n q a st m h1 h2 hm
      exact run_chars n q b m r k1 k2 hr
  | .alt a b, st, r, h1, h2, h => by
      simp only [run_alt, List.mem_append] at h
      rcases h with h | h
      · exact run_chars n q a st r h1 h2 h
      · exact run_chars n q b st r h1 h2 h
  | .grp i a, st, r, h1, h2, h => by
      simp only [run_grp, List.mem_map] at h
      obtain ⟨m, hm, rfl⟩ := h
      obtain ⟨k1, k2⟩ := run_chars n q a st m h1 h2 hm
      refine ⟨?_, k2⟩
      intro p hp c hc
      rcases List.mem_cons.1 hp with rfl | hp
      · exact h2 c (List.mem_of_mem_take hc)
      · exact k1 p hp c hc
  | .eps, st, r, h1, h2, h => by
      obtain ⟨x, e, _⟩ := run_consumed n (fun _ => True) .eps trivial st r h
      simp only [run_eps, List.mem_singleton] at h
      subst h
      exact ⟨h1, h2⟩
  | .bol, st, r, h1, h2, h => by
      simp only [run_bol] at h
      split_ifs at h
      · simp only [List.mem_singleton] at h
        subst h
        exact ⟨h1, h2⟩
      · simp at h
  | .eol, st, r, h1, h2, h => by
      simp only [run_eol] at h
      split_ifs at h
      · simp only [List.mem_singleton] at h
        subst h
        exact ⟨h1, h2⟩
      · simp at h
  | .cls p, (caps, []), r, h1, h2, h => by simp at h
  | .cls p, (caps, c :: cs), r, h1, h2, h => by
      simp only [run_cls_cons] at h
      split_ifs at h with hp
      · simp only [List.mem_singleton] at h
        subst h
        exact ⟨h1, fun d hd => h2 d (List.mem_cons_of_mem _ hd)⟩
      · simp at h
  | .star p, st, r, h1, h2, h => by
      obtain ⟨e1, x, e, _⟩ := mem_starRun p st.1 st.2 r h
      refine ⟨by rw [e1]; exact h1, ?_⟩
      intro c hc
      exact h2 c (by rw [e]; exact List.mem_append_right _ hc)

/-! ## Greedy runs that end at a delimiter -/

/-- When what follows a greedy run cannot start with a character of the run,
only the longest run leads to a match. -/
theorem starRun_flatMap_stop {β : Type} (p : Char → Bool) (caps : Caps) (f : MState → List β)
    (hf : ∀ d ds, p d = true → f (caps, d :: ds) = []) :
    ∀ s : Str, (starRun p caps s).flatMap f = f (caps, s.dropWhile p)
  | [] => by simp [starRun]
  | c :: cs => by
      by_cases hp : p c = true
      · simp [starRun, hp, List.flatMap_append, starRun_flatMap_stop p caps f hf cs, hf c cs hp]
      · simp [starRun, hp]

/-- The longest run comes first. -/
theorem starRun_head (p : Char → Bool) (caps : Caps) :
    ∀ s : Str, ∃ l, starRun p caps s = (caps, s.dropWhile p) :: l
  | [] => ⟨[], rfl⟩
  | c :: cs => by
      by_cases hp : p c = true
      · obtain ⟨l, hl⟩ := starRun_head p caps cs
        exact ⟨l ++ [(caps, c :: cs)], by simp [starRun, hp, hl]⟩
      · exact ⟨[], by simp [starRun, hp]⟩

theorem take_length_sub_dropWhile (p : Char → Bool) (s : Str) :
    s.take (s.length - (s.dropWhile p).length) = s.takeWhile p := by
  have h := List.takeWhile_append_dropWhile p s
  have hl := congrArg List.length h
  simp only [List.length_append] at hl
  have e : s.length - (s.dropWhile p).length = (s.takeWhile p).length := by omega
  have := @List.take_left _ (s.takeWhile p) (s.dropWhile p)
  rw [h] at this
  rw [e, this]

theorem run_grp_plus_stop (n i : Nat) (p : Char → Bool) (X : Re)
    (hX : ∀ caps d ds, p d = true → run n X (caps, d :: ds) = []) (caps : Caps) (t : Str) :
    run n (.seq (.grp i (plus p)) X) (caps, t) =
      if t.takeWhile p = [] then []
      else run n X ((i, t.takeWhile p) :: caps, t.dropWhile p) := by
  cases t with
  | nil => simp [plus]
  | cons c cs =>
    by_cases hp : p c = true
    · simp only [run_seq, run_grp, plus, run_cls_cons, hp, if_true, List.flatMap_cons,
        List.flatMap_nil, List.append_nil, run_star, List.flatMap_map]
      rw [starRun_flatMap_stop p caps _ ?_ cs]
      · simp only [List.takeWhile_cons, hp, List.dropWhile_cons, if_true]
        have := take_length_sub_dropWhile p (c :: cs)
        simp only [List.takeWhile_cons, hp, List.dropWhile_cons, if_true, List.length_cons] at this
        simp only [List.length_cons, this, List.cons_ne_nil, if_false]
      · intro d ds hd
        exact hX _ d ds hd
    · simp [plus, hp]

/-- The matches of the bold pattern. -/
theorem run_bold (n : Nat) (caps : Caps) (t : Str) :
    run n boldRe (caps, t) =
      if hasPrefix t "**".toList = true ∧ (t.drop 2).takeWhile notStarNl ≠ [] ∧
          hasPrefix ((t.drop 2).dropWhile notStarNl) "**".toList = true then
        [((1, (t.drop 2).takeWhile notStarNl) :: caps, ((t.drop 2).dropWhile notStarNl).drop 2)]
      else [] := by
  have hX : ∀ (caps : Caps) (d : Char) (ds : Str), notStarNl d = true →
      run n (lit "**".toList) (caps, d :: ds) = [] := by
    intro caps d ds hd
    rw [run_lit]
    have : d ≠ '*' := by
      rintro rfl
      simp [notStarNl] at hd
    simp [this]
  rw [boldRe, run_seq_lit, run_grp_plus_stop n 1 notStarNl _ hX, run_lit]
  have e2 : ("**".toList).length = 2 := rfl
  rw [e2]
  split_ifs <;> first | rfl | (exfalso; tauto)

/-- The matches of the italic pattern. -/
theorem run_italic (n : Nat) (caps : Caps) (t : Str) :
    run n italicRe (caps, t) =
      if hasPrefix t ['*'] = true ∧ (t.drop 1).takeWhile notStarNl ≠ [] ∧
          hasPrefix ((t.drop 1).dropWhile notStarNl) ['*'] = true then
        [((1, (t.drop 1).takeWhile notStarNl) :: caps, ((t.drop 1).dropWhile notStarNl).drop 1)]
      else [] := by
  have hX : ∀ (caps : Caps) (d : Char) (ds : Str), notStarNl d = true →
      run n (chr '*') (caps, d :: ds) = [] := by
    intro caps d ds hd
    rw [run_chr]
    have : d ≠ '*' := by
      rintro rfl
      simp [notStarNl] at hd
    simp [this]
  rw [italicRe, run_seq_chr, run_grp_plus_stop n 1 notStarNl _ hX, run_chr]
  split_ifs <;> first | rfl | (exfalso; tauto)

theorem takeWhile_append_stop (p : Char → Bool) (y : Str) (hy : ∀ c ∈ y.head?, p c = false) :
    ∀ x : Str, (∀ c ∈ x, p c = true) →
      (x ++ y).takeWhile p = x ∧ (x ++ y).dropWhile p = y
  | [], _ => by
      cases y with
      | nil => simp
      | cons a y =>
        have : p a = false := hy a (by simp)
        simp [this]
  | c :: x, h => by
      have hc : p c = true := h c (List.mem_cons_self _ _)
      obtain ⟨h1, h2⟩ := takeWhile_append_stop p y hy x (fun d hd => h d (List.mem_cons_of_mem _ hd))
      simp [hc, h1, h2]

/-- A bold match at `t`: the text between the markers and what follows. -/
theorem matchAt_bold (tpl : List TItem) (n : Nat) (t e : Str) (k : Nat)
    (h : matchAt boldRe tpl n t = some (e, k)) :
    ∃ x rest, x ≠ [] ∧ (∀ c ∈ x, notStarNl c = true) ∧
      t = "**".toList ++ x ++ "**".toList ++ rest ∧ k = x.length + 4 ∧
      e = expand ("**".toList ++ x ++ "**".toList) [(1, x)] tpl := by
  unfold matchAt at h
  rw [run_bold] at h
  split_ifs at h with hc
  · obtain ⟨h1, h2, h3⟩ := hc
    obtain ⟨r1, hr1⟩ := (hasPrefix_iff _ _).1 h1
    have hd : t.drop 2 = r1 := by rw [hr1]; rfl
    rw [hd] at h h2 h3
    obtain ⟨r2, hr2⟩ := (hasPrefix_iff _ _).1 h3
    have hsplit := List.takeWhile_append_dropWhile notStarNl r1
    have ht : t = "**".toList ++ r1.takeWhile notStarNl ++ "**".toList ++ r2 := by
      rw [hr1, List.append_assoc, List.append_assoc, ← hr2, hsplit]
    have hd2 : (r1.dropWhile notStarNl).drop 2 = r2 := by rw [hr2]; rfl
    simp only [List.head?_cons, Option.some.injEq, hd2] at h
    have hk : t.length - r2.length = (r1.takeWhile notStarNl).length + 4 := by
      rw [ht]
      simp only [String.toList, List.length_append, List.length_cons, List.length_nil]
      omega
    refine ⟨r1.takeWhile notStarNl, r2, h2, ?_, ht, ?_, ?_⟩
    · intro c hc
      exact (List.mem_takeWhile_imp hc)
    · rw [← hk]
      exact (congrArg Prod.snd h).symm
    · have he := (congrArg Prod.fst h).symm
      simp only at he
      rw [he, hk]
      congr 1
      conv_lhs => rw [ht]
      have : (r1.takeWhile notStarNl).length + 4 =
          ("**".toList ++ r1.takeWhile notStarNl ++ "**".toList).length := by
        simp only [String.toList, List.length_append, List.length_cons, List.length_nil]
        omega
      rw [this, List.take_left]
  · simp at h

theorem matchAt_bold_intro (tpl : List TItem) (n : Nat) (x rest : Str) (hx : x ≠ [])
    (hp : ∀ c ∈ x, notStarNl c = true) :
    matchAt boldRe tpl n ("**".toList ++ x ++ "**".toList ++ rest) =
      some (expand ("**".toList ++ x ++ "**".toList) [(1, x)] tpl,
        ("**".toList ++ x ++ "**".toList).length) := by
  have hs := takeWhile_append_stop notStarNl ("**".toList ++ rest) (by simp [notStarNl]) x hp
  have hd : ("**".toList ++ x ++ "**".toList ++ rest).drop 2 = x ++ ("**".toList ++ rest) := by
    simp
  unfold matchAt
  rw [run_bold, hd, hs.1, hs.2, if_pos]
  · have hl : ("**".toList ++ x ++ "**".toList ++ rest).length -
        (("**".toList ++ rest).drop 2).length = ("**".toList ++ x ++ "**".toList).length := by
      simp only [String.toList, List.length_append, List.length_cons, List.length_nil,
        List.drop_succ_cons, List.cons_append, List.nil_append, List.drop_zero]
      omega
    simp only [List.head?_cons, hl]
    rw [List.take_left]
  · refine ⟨?_, hx, ?_⟩
    · simp
    · simp

/-! ## The shape of a match -/

theorem run_length_le (n : Nat) (re : Re) (st r : MState) (h : r ∈ run n re st) :
    r.2.length ≤ st.2.length := by
  obtain ⟨x, e⟩ := run_rest n re st r h
  rw [e]
  simp

/-- A pattern that cannot match the empty string consumes at least a character. -/
theorem run_progress (n : Nat) : ∀ (re : Re), Re.nonEmpty re = true →
    ∀ (st r : MState), r ∈ run n re st → r.2.length < st.2.length
  | .cls p, _, (caps, []), r, h => by simp at h
  | .cls p, _, (caps, c :: cs), r, h => by
      simp only [run_cls_cons] at h
      split_ifs at h
      · simp only [List.mem_singleton] at h
        subst h
        simp
      · simp at h
  | .seq a b, hne, st, r, h => by
      simp only [run_seq, List.mem_flatMap] at h
      obtain ⟨m, hm, hr⟩ := h
      have l1 := run_length_le n a st m hm
      have l2 := run_length_le n b m r hr
      simp only [Re.nonEmpty, Bool.or_eq_true] at hne
      rcases hne with hne | hne
      · have := run_progress n a hne st m hm
        omega
      · have := run_progress n b hne m r hr
        omega
  | .alt a b, hne, st, r, h => by
      simp only [Re.nonEmpty, Bool.and_eq_true] at hne
      simp only [run_alt, List.mem_append] at h
      rcases h with h | h
      · exact run_progress n a hne.1 st r h
      · exact run_progress n b hne.2 st r h
  | .grp i a, hne, st, r, h => by
      simp only [run_grp, List.mem_map] at h
      obtain ⟨m, hm, rfl⟩ := h
      exact run_progress n a hne st m hm

/-- A match of such a pattern spans a non-empty beginning of the text. -/
theorem matchAt_shape (re : Re) (hne : Re.nonEmpty re = true) (tpl : List TItem) (n : Nat)
    (t e : Str) (k : Nat) (h : matchAt re tpl n t = some (e, k)) :
    ∃ c x r caps, t = c :: x ++ r ∧ k = x.length + 1 ∧ e = expand (c :: x) caps tpl ∧
      (caps, r) ∈ run n re ([], t) := by
  unfold matchAt at h
  cases hh : (run n re ([], t)).head? with
  | none => simp [hh] at h
  | some r0 =>
    have hmem : r0 ∈ run n re ([], t) := List.mem_of_mem_head? hh
    obtain ⟨w, hw⟩ := run_rest n re _ _ hmem
    have hlt := run_progress n re hne _ _ hmem
    simp only at hw hlt
    simp only [hh, Option.some.injEq, Prod.mk.injEq] at h
    have hl : t.length - r0.2.length = w.length := by
      rw [hw]
      simp
    cases w with
    | nil =>
      simp only [List.nil_append] at hw
      rw [hw] at hlt
      exact absurd hlt (lt_irrefl _)
    | cons c x =>
      refine ⟨c, x, r0.2, r0.1, hw, ?_, ?_, hmem⟩
      · rw [← h.2, hl]
        rfl
      · rw [← h.1, hl]
        congr 1
        conv_lhs => rw [hw]
        exact List.take_left _ _

theorem getCap_chars (q : Char → Prop) (caps : Caps) (i : Nat)
    (h : ∀ p ∈ caps, ∀ c ∈ p.2, q c) : ∀ c ∈ getCap caps i, q c := by
  unfold getCap
  cases hl : caps.lookup i with
  | none => simp
  | some w =>
    intro c hc
    simp only [Option.getD_some] at hc
    induction caps with
    | nil => simp at hl
    | cons p caps ih =>
      obtain ⟨j, v⟩ := p
      by_cases hij : i = j
      · subst hij
        simp only [List.lookup_cons, beq_self_eq_true, Option.some.injEq] at hl
        subst hl
        exact h (i, v) (List.mem_cons_self _ _) c hc
      · have : (i == j) = false := beq_eq_false_iff_ne.2 hij
        simp only [List.lookup_cons, this] at hl
        exact ih (fun p hp => h p (List.mem_cons_of_mem _ hp)) hl

/-- An italic match at `t`: the text between the markers and what follows. -/
theorem matchAt_italic (tpl : List TItem) (n : Nat) (t e : Str) (k : Nat)
    (h : matchAt italicRe tpl n t = some (e, k)) :
    ∃ x rest, x ≠ [] ∧ (∀ c ∈ x, notStarNl c = true) ∧
      t = '*' :: x ++ '*' :: rest ∧ k = x.length + 2 ∧
      e = expand ('*' :: x ++ ['*']) [(1, x)] tpl := by
  unfold matchAt at h
  rw [run_italic] at h
  split_ifs at h with hc
  · obtain ⟨h1, h2, h3⟩ := hc
    obtain ⟨r1, hr1⟩ := (hasPrefix_iff _ _).1 h1
    have hd : t.drop 1 = r1 := by rw [hr1]; rfl
    rw [hd] at h h2 h3
    obtain ⟨r2, hr2⟩ := (hasPrefix_iff _ _).1 h3
    have hsplit := List.takeWhile_append_dropWhile notStarNl r1
    have e2 : r1 = r1.takeWhile notStarNl ++ ['*'] ++ r2 := by
      rw [List.append_assoc, ← hr2, hsplit]
    have ht : t = '*' :: r1.takeWhile notStarNl ++ '*' :: r2 := by
      rw [hr1]
      conv_lhs => rw [e2]
      simp
    have hd2 : (r1.dropWhile notStarNl).drop 1 = r2 := by rw [hr2]; rfl
    simp only [List.head?_cons, Option.some.injEq, hd2] at h
    have hk : t.length - r2.length = (r1.takeWhile notStarNl).length + 2 := by
      rw [ht]
      simp only [List.length_append, List.length_cons, List.length_nil]
      omega
    refine ⟨r1.takeWhile notStarNl, r2, h2, ?_, ht, ?_, ?_⟩
    · intro c hc
      exact (List.mem_takeWhile_imp hc)
    · rw [← hk]
      exact (congrArg Prod.snd h).symm
    · have he := (congrArg Prod.fst h).symm
      simp only at he
      rw [he, hk]
      congr 1
      conv_lhs => rw [ht]
      have e1 : '*' :: r1.takeWhile notStarNl ++ '*' :: r2 =
          ('*' :: r1.takeWhile notStarNl ++ ['*']) ++ r2 := by simp
      have : (r1.takeWhile notStarNl).length + 2 =
          ('*' :: r1.takeWhile notStarNl ++ ['*']).length := by
        simp only [List.length_append, List.length_cons, List.length_nil]
      rw [e1, this, List.take_left]
  · simp at h

/-! ## Every pass keeps the text well-tagged -/

theorem wellTagged_nil_iff : ∀ s : Str, wellTagged [] s = true ↔ '<' ∉ s
  | [] => by simp [wellTagged]
  | c :: cs => by
      simp only [wellTagged, tagAt, List.any_nil, Bool.or_false, Bool.and_eq_true, bne_iff_ne,
        ne_eq, wellTagged_nil_iff cs, List.mem_cons, not_or]
      constructor
      · rintro ⟨h1, h2⟩
        exact ⟨fun e => h1 e.symm, h2⟩
      · rintro ⟨h1, h2⟩
        exact ⟨fun e => h1 e.symm, h2⟩

theorem stringsReplace_wellTagged (tags tags2 : List Str) (c : Char) (x new : Str)
    (htags : ∀ tag ∈ tags, tag ≠ [] ∧ (∀ d ∈ tag.tail, (d == c) = false) ∧
      wellTagged tags2 tag = true)
    (hnew : wellTagged tags2 new = true) (s : Str) (hs : wellTagged tags s = true) :
    wellTagged tags2 (stringsReplace s (c :: x) new) = true := by
  refine rewriteAux_wellTagged tags tags2 (fun d => d == c) htags _ ?_ s.length s le_rfl hs false
  intro t e k _ hm
  split_ifs at hm with hp
  · obtain ⟨r, hr⟩ := (hasPrefix_iff _ _).1 hp
    simp only [Option.some.injEq, Prod.mk.injEq] at hm
    exact ⟨c, x, r, hr, by rw [← hm.2]; rfl, by simp, by rw [← hm.1]; exact hnew⟩

/-- A pass with the template "<pre>$1</pre>" over a text without `<`. -/
theorem pre_wellTagged (re : Re) (hne : Re.nonEmpty re = true) (s : Str) (hs : '<' ∉ s) :
    wellTagged blockTags (replaceAllString re preTpl s) = true := by
  refine rewriteAux_wellTagged [] blockTags (fun _ => true) (by simp) _ ?_ s.length s le_rfl
    ((wellTagged_nil_iff s).2 hs) false
  intro t e k ht hm
  obtain ⟨c, x, r, caps, h1, h2, h3, h4⟩ := matchAt_shape re hne _ _ _ _ _ hm
  refine ⟨c, x, r, h1, h2, rfl, ?_⟩
  have hq := (run_chars s.length (fun c => c ≠ '<') re ([], t) (caps, r) (by simp)
    (fun c hc => by
      have := (wellTagged_nil_iff t).1 ht
      rintro rfl
      exact this hc) h4).1
  have hcap : '<' ∉ getCap caps 1 := fun hm => getCap_chars _ caps 1 hq _ hm rfl
  rw [h3]
  simp only [preTpl, expand, List.append_nil]
  exact wellTagged_append _ _ (wellTagged_append _ _ (by decide) _
    (wellTagged_of_noLt _ _ hcap)) _ (by decide)

theorem codeBlocks_wellTagged (s : Str) (hs : '<' ∉ s) :
    wellTagged blockTags (codeBlocks s) = true := by
  unfold codeBlocks
  split_ifs
  · exact pre_wellTagged codeRe rfl s hs
  · exact stringsReplace_wellTagged blockTags blockTags '<' "/pre><pre>".toList _ (by decide)
      (by decide) _ (pre_wellTagged oldCodeRe rfl s hs)

theorem bold_wellTagged (s : Str) (hs : wellTagged blockTags s = true) :
    wellTagged blockTags (replaceAllString boldRe boldTpl s) = true := by
  refine rewriteAux_wellTagged blockTags blockTags (fun d => d == '*') (by decide) _ ?_
    s.length s le_rfl hs false
  intro t e k ht hm
  obtain ⟨x, rest, _, _, h3, h4, h5⟩ := matchAt_bold _ _ _ _ _ hm
  refine ⟨'*', '*' :: x ++ "**".toList, rest, ?_, ?_, rfl, ?_⟩
  · rw [h3]; simp
  · rw [h4]; simp
  · have hx : wellTagged blockTags x = true := by
      rw [h3] at ht
      have e1 : "**".toList ++ x ++ "**".toList ++ rest = "**".toList ++ (x ++ '*' :: '*' :: rest) := by
        simp
      rw [e1] at ht
      exact wellTagged_cut blockTags '*' _ (by decide) x (wellTagged_suffix _ _ _ ht)
    rw [h5]
    simp only [boldTpl, expand, getCap, List.lookup_cons, beq_self_eq_true, Option.getD_some,
      List.append_nil]
    exact wellTagged_append _ _ (wellTagged_append _ _ (by decide) _ hx) _ (by decide)

theorem italic_wellTagged (s : Str) (hs : wellTagged blockTags s = true) :
    wellTagged blockTags (replaceAllString italicRe italicTpl s) = true := by
  refine rewriteAux_wellTagged blockTags blockTags (fun d => d == '*') (by decide) _ ?_
    s.length s le_rfl hs false
  intro t e k ht hm
  obtain ⟨x, rest, _, _, h3, h4, h5⟩ := matchAt_italic _ _ _ _ _ hm
  refine ⟨'*', x ++ "*".toList, rest, ?_, ?_, rfl, ?_⟩
  · rw [h3]; simp
  · rw [h4]; simp
  · have hx : wellTagged blockTags x = true := by
      rw [h3] at ht
      exact wellTagged_cut blockTags '*' _ (by decide) x
        (wellTagged_suffix _ _ ['*'] ht)
    rw [h5]
    simp only [italicTpl, expand, getCap, List.lookup_cons, beq_self_eq_true, Option.getD_some,
      List.append_nil]
    exact wellTagged_append _ _ (wellTagged_append _ _ (by decide) _ hx) _ (by decide)

theorem linkRe_within : Re.within (fun c => c ≠ '<') linkRe := by
  simp only [linkRe, lit, chr, opt, plus, Re.within, String.toList]
  repeat' constructor
  all_goals first
    | trivial
    | (intro c h; rintro rfl; revert h; decide)

theorem link_wellTagged (s : Str) (hs : wellTagged blockTags s = true) :
    wellTagged pipelineTags (replaceAllString linkRe linkTpl s) = true := by
  refine rewriteAux_wellTagged blockTags pipelineTags (fun d => d == 'h') (by decide) _ ?_
    s.length s le_rfl hs false
  intro t e k ht hm
  obtain ⟨c, x, r, caps, h1, h2, h3, h4⟩ := matchAt_shape linkRe rfl _ _ _ _ _ hm
  have hc : c = 'h' := by
    by_contra hne
    have hp1 : hasPrefix t "http://".toList = false := by
      rw [h1]; simp [hne]
    have hp2 : hasPrefix t "https://".toList = false := by
      rw [h1]; simp [hne]
    rw [run_link_nil _ _ t hp1 hp2] at h4
    simp at h4
  obtain ⟨w, hw1, hw2⟩ := run_consumed s.length _ linkRe linkRe_within _ _ h4
  simp only at hw1
  have hw : w = c :: x := by
    rw [h1] at hw1
    exact (List.append_cancel_right hw1).symm
  have hlt : '<' ∉ c :: x := by
    rw [← hw]
    intro hm
    exact hw2 _ hm rfl
  refine ⟨c, x, r, h1, h2, by simp [hc], ?_⟩
  rw [h3]
  simp only [linkTpl, expand, List.append_nil]
  have hwx := wellTagged_of_noLt pipelineTags _ hlt
  exact wellTagged_append _ _ (wellTagged_append _ _ (wellTagged_append _ _
    (wellTagged_append _ _ (by decide) _ hwx) _ (by decide)) _ hwx) _ (by decide)

/-- Every `<` of the text handed to `censor` starts a tag of the pipeline. -/
theorem formatted_wellTagged (raw : Str) : wellTagged pipelineTags (formatted raw) = true := by
  unfold formatted lineBreaks
  have h0 := codeBlocks_wellTagged _ (lt_not_mem_escape (stripCR raw))
  have h1 := stringsReplace_wellTagged blockTags blockTags '\n' ['\n'] "</p><p>".toList
    (by decide) (by decide) _ h0
  have h2 := stringsReplace_wellTagged blockTags blockTags '\n' [] "<br>".toList
    (by decide) (by decide) _ h1
  have h3 := link_wellTagged _ (italic_wellTagged _ (bold_wellTagged _ h2))
  exact wellTagged_append _ _ (by decide) _ (wellTagged_append _ _ h3 _ (by decide))

theorem wellTagged_split (tags : List Str) : ∀ (s x y : Str), wellTagged tags s = true →
    s = x ++ '<' :: y → tagAt tags ('<' :: y) = true
  | [], x, y, _, h => by simp at h
  | c :: cs, [], y, hw, h => by
      simp only [List.nil_append] at h
      rw [h] at hw
      simp only [wellTagged, Bool.and_eq_true, Bool.or_eq_true, bne_iff_ne, ne_eq,
        not_true_eq_false, false_or] at hw
      exact hw.1
  | c :: cs, a :: x, y, hw, h => by
      simp only [List.cons_append, List.cons.injEq] at h
      simp only [wellTagged, Bool.and_eq_true] at hw
      exact wellTagged_split tags cs x y hw.2 h.2

theorem no_script_tag : ∀ tag ∈ pipelineTags, ∀ r : Str, hasPrefix ('<' :: 's' :: r) tag = false := by
  intro tag ht r
  simp only [pipelineTags, blockTags, String.toList, List.cons_append, List.nil_append,
    List.mem_cons, List.mem_singleton, List.not_mem_nil, or_false] at ht
  rcases ht with h | h | h | h | h | h | h | h | h | h | h <;> subst h <;> simp

/-- C2: for every raw text (empty censor word list, censor cache in its initial
state) every `<` of the rendered text is the first character of one of the tags
`<p>`, `</p>`, `<pre>`, `</pre>`, `<br>`, `<b>`, `</b>`, `<em>`, `</em>`,
`<a href="` or `</a>`; in particular the rendered text never contains `<script`. -/
theorem C2_every_angle_bracket_starts_a_pipeline_tag {R : Type} (lib : RegexpLib R) (raw : Str) :
    ∃ out, formatComment lib [] (CensorCache.initial R) raw = (some out, CensorCache.initial R) ∧
      (∀ x y, out = x ++ '<' :: y → ∃ tag ∈ pipelineTags, ∃ z, '<' :: y = tag ++ z) ∧
      containsStr "<script".toList out = false := by
  refine ⟨formatted raw, censor_initial lib _, ?_, ?_⟩
  · intro x y h
    have := wellTagged_split _ _ x y (formatted_wellTagged raw) h
    simp only [tagAt, List.any_eq_true] at this
    obtain ⟨tag, h1, h2⟩ := this
    exact ⟨tag, h1, (hasPrefix_iff _ _).1 h2⟩
  · rw [containsStr_false]
    intro t ht
    by_contra hc
    simp only [Bool.not_eq_false] at hc
    obtain ⟨r, hr⟩ := (hasPrefix_iff _ _).1 hc
    obtain ⟨x, hx⟩ := ht
    have h1 : formatted raw = x ++ '<' :: ("script".toList ++ r) := by
      rw [← hx, hr]; rfl
    have := wellTagged_split _ _ x _ (formatted_wellTagged raw) h1
    simp only [tagAt, List.any_eq_true] at this
    obtain ⟨tag, h2, h3⟩ := this
    have h4 := no_script_tag tag h2 ("cript".toList ++ r)
    have e : '<' :: ("script".toList ++ r) = '<' :: 's' :: ("cript".toList ++ r) := rfl
    rw [e, h4] at h3
    exact Bool.noConfusion h3

/-! ## Greedy runs followed by a delimiter that may occur inside the run -/

theorem starRun_last (p : Char → Bool) (caps : Caps) :
    ∀ s : Str, ∃ l, starRun p caps s = l ++ [(caps, s)] ∧
      ∀ r ∈ l, r.1 = caps ∧ ∃ u, u ≠ [] ∧ s = u ++ r.2
  | [] => ⟨[], rfl, by simp⟩
  | c :: cs => by
      by_cases hp : p c = true
      · obtain ⟨l, hl, hl2⟩ := starRun_last p caps cs
        refine ⟨l ++ [(caps, cs)], by simp [starRun, hp, hl], ?_⟩
        intro r hr
        rcases List.mem_append.1 hr with h | h
        · obtain ⟨h1, u, _, hu⟩ := hl2 r h
          exact ⟨h1, c :: u, by simp, by rw [hu]; rfl⟩
        · simp only [List.mem_singleton] at h
          subst h
          exact ⟨rfl, [c], by simp, rfl⟩
      · exact ⟨[], by simp [starRun, hp], by simp⟩

/-- The greedy run backs off to the first place, from the end, where the rest
of the pattern matches: if it matches at `y`, and at no proper end of `y`, the
first match is the one at `y`. -/
theorem starRun_flatMap_head {β : Type} (p : Char → Bool) (caps : Caps) (f : MState → List β)
    (y : Str) (v : β) (l : List β) (hy : f (caps, y) = v :: l)
    (hz : ∀ u z, y = u ++ z → u ≠ [] → f (caps, z) = []) :
    ∀ x : Str, (∀ c ∈ x, p c = true) → ((starRun p caps (x ++ y)).flatMap f).head? = some v
  | [], _ => by
      obtain ⟨l0, hl0, hl1⟩ := starRun_last p caps y
      have : l0.flatMap f = [] := by
        rw [List.flatMap_eq_nil_iff]
        intro r hr
        obtain ⟨h1, u, hu, h2⟩ := hl1 r hr
        have := hz u r.2 h2 hu
        rw [← h1] at this
        exact this
      simp [hl0, List.flatMap_append, this, hy]
  | c :: x, h => by
      have hc : p c = true := h c (List.mem_cons_self _ _)
      have ih := starRun_flatMap_head p caps f y v l hy hz x
        (fun d hd => h d (List.mem_cons_of_mem _ hd))
      simp only [List.cons_append, starRun, hc, if_true, List.flatMap_append]
      cases hA : (starRun p caps (x ++ y)).flatMap f with
      | nil => simp [hA] at ih
      | cons a A =>
        rw [hA] at ih
        simpa using ih

/-! ## The fenced-code pattern -/

/-- The closing fence of `codeRe`. -/
theorem run_codeClose (n : Nat) (caps : Caps) (z : Str) :
    run n (.seq (lit "\n```".toList) (.alt .eol (chr '\n'))) (caps, z) =
      if hasPrefix z "\n```".toList = true then
        (if (z.drop 4).isEmpty then [(caps, z.drop 4)] else []) ++
        (if hasPrefix (z.drop 4) ['\n'] = true then [(caps, (z.drop 4).drop 1)] else [])
      else [] := by
  rw [run_seq_lit]
  by_cases h1 : hasPrefix z "\n```".toList = true
  · rw [if_pos h1, if_pos h1, run_alt, run_eol, run_chr]
    rfl
  · rw [if_neg h1, if_neg h1]

theorem run_codeBody (n : Nat) (caps : Caps) (body tail : Str) (hb : body ≠ [])
    (hy : containsStr "\n```".toList ("```".toList ++ tail) = false)
    (htail : tail = [] ∨ ∃ t2, tail = '\n' :: t2) :
    (run n (.seq (.grp 1 (plus anyCh)) (.seq (lit "\n```".toList) (.alt .eol (chr '\n'))))
      (caps, body ++ ("\n```".toList ++ tail))).head? = some ((1, body) :: caps, tail.drop 1) := by
  cases body with
  | nil => exact absurd rfl hb
  | cons c x =>
    have e : run n (plus anyCh) (caps, c :: x ++ ("\n```".toList ++ tail)) =
        starRun anyCh caps (x ++ ("\n```".toList ++ tail)) := by
      simp [plus, anyCh]
    rw [run_seq, run_grp, e, List.flatMap_map]
    refine starRun_flatMap_head anyCh caps _ ("\n```".toList ++ tail)
      ((1, c :: x) :: caps, tail.drop 1) [] ?_ ?_ x (fun _ _ => rfl)
    · simp only
      rw [run_codeClose]
      have e1 : (c :: x ++ ("\n```".toList ++ tail)).length - ("\n```".toList ++ tail).length =
          (c :: x).length := by
        simp only [List.length_append, List.length_cons]
        omega
      have e2 : List.take (c :: x).length (c :: x ++ ("\n```".toList ++ tail)) = c :: x := by
        rw [List.take_left]
      rw [e1, e2]
      rcases htail with h | ⟨t2, h⟩ <;> subst h <;> simp
    · intro u z huz hu
      simp only
      rw [run_codeClose]
      have hz : hasPrefix z "\n```".toList = false := by
        rw [containsStr_false] at hy
        apply hy
        cases u with
        | nil => exact absurd rfl hu
        | cons a u =>
          simp only [String.toList, List.cons_append, List.nil_append, List.cons.injEq] at huz ⊢
          exact ⟨u, huz.2.symm⟩
      rw [if_neg (by rw [hz]; exact Bool.false_ne_true)]

/-- The first match of `codeRe` at the start of a text that opens with a fence. -/
theorem run_code_head (l body tail : Str) (hl : '\n' ∉ l) (hb : body ≠ [])
    (hy : containsStr "\n```".toList ("```".toList ++ tail) = false)
    (htail : tail = [] ∨ ∃ t2, tail = '\n' :: t2) :
    (run ("```".toList ++ (l ++ '\n' :: (body ++ ("\n```".toList ++ tail)))).length codeRe
      ([], "```".toList ++ (l ++ '\n' :: (body ++ ("\n```".toList ++ tail))))).head? =
      some ([(1, body)], tail.drop 1) := by
  have hstop := takeWhile_append_stop notNl ('\n' :: (body ++ ("\n```".toList ++ tail)))
    (by simp [notNl]) l (fun c hc => by
      simp only [notNl, bne_iff_ne, ne_eq]
      rintro rfl
      exact hl hc)
  rw [codeRe, run_seq, run_alt, run_chr]
  have e0 : hasPrefix ("```".toList ++ (l ++ '\n' :: (body ++ ("\n```".toList ++ tail)))) ['\n']
      = false := by simp
  rw [e0]
  simp only [run_bol, if_true, Bool.false_eq_true, if_false, List.append_nil, List.flatMap_cons,
    List.flatMap_nil]
  rw [run_seq_lit, hasPrefix_append_self, if_pos rfl, List.drop_left, run_seq, run_star]
  simp only
  rw [starRun_flatMap_stop notNl [] _ ?_, hstop.2, run_seq_chr]
  · simp only [hasPrefix_cons_cons, beq_self_eq_true, hasPrefix_nil, Bool.and_self, if_true,
      List.drop_succ_cons, List.drop_zero]
    exact run_codeBody _ [] body tail hb hy htail
  · intro d ds hd
    rw [run_seq_chr]
    have : d ≠ '\n' := by
      rintro rfl
      simp [notNl] at hd
    simp [this]

/-! ## Rewriting inside a context -/

theorem hasPrefix_append_disjoint (v : Str) : ∀ (z old : Str), old ≠ [] → (∀ c ∈ old, c ∉ v) →
    hasPrefix (z ++ v) old = hasPrefix z old
  | _, [], h, _ => absurd rfl h
  | [], d :: ds, _, h => by
      cases v with
      | nil => rfl
      | cons a v =>
        have : a ≠ d := by
          rintro rfl
          exact h a (List.mem_cons_self _ _) (List.mem_cons_self _ _)
        simp [this]
  | a :: z, d :: ds, _, h => by
      cases ds with
      | nil => simp
      | cons e ds =>
        have ih := hasPrefix_append_disjoint v z (e :: ds) (by simp)
          (fun c hc => h c (List.mem_cons_of_mem _ hc))
        simp only [List.cons_append, hasPrefix_cons_cons] at ih ⊢
        rw [ih]

theorem rewriteAux_append_right (m : Str → Option (Str × Nat)) (v : Str)
    (h1 : ∀ z, m (z ++ v) = m z) (h2 : ∀ t, t <:+ v → m t = none)
    (h3 : ∀ z e k, m z = some (e, k) → k ≤ z.length) :
    ∀ (B : Str) (skip : Nat) (am : Bool), skip ≤ B.length →
      rewriteAux m (B ++ v) skip am = rewriteAux m B skip am ++ v
  | [], 0, am, _ => by
      have e0 : m [] = none := by
        have := h1 []
        rw [List.nil_append, h2 v (List.suffix_refl _)] at this
        exact this.symm
      rw [List.nil_append, rewriteAux_id m v am h2]
      simp [rewriteAux, e0]
  | [], k + 1, am, h => by simp at h
  | c :: cs, k + 1, am, h => by
      have ih := rewriteAux_append_right m v h1 h2 h3 cs k true (by simpa using h)
      simpa [rewriteAux] using ih
  | c :: cs, 0, am, _ => by
      have e1 := h1 (c :: cs)
      have ih := rewriteAux_append_right m v h1 h2 h3 cs 0 false (Nat.zero_le _)
      cases hm : m (c :: cs) with
      | none =>
        rw [hm] at e1
        rw [List.cons_append] at e1 ⊢
        rw [rewriteAux, e1, rewriteAux, hm, ih]
        rfl
      | some p =>
        obtain ⟨e, k⟩ := p
        rw [hm] at e1
        rw [List.cons_append] at e1 ⊢
        cases k with
        | zero =>
          rw [rewriteAux, e1, rewriteAux, hm, ih]
          simp
        | succ k =>
          have hk := h3 _ _ _ hm
          have ih2 := rewriteAux_append_right m v h1 h2 h3 cs k true (by simpa using hk)
          rw [rewriteAux, e1, rewriteAux, hm]
          simp only [ih2, List.append_assoc]

/-- `strings.Replace` works on the middle of a text whose ends hold no character
of the searched word. -/
theorem stringsReplace_context (u B v : Str) (d : Char) (ds new : Str) (hu : d ∉ u)
    (hv : ∀ c ∈ d :: ds, c ∉ v) :
    stringsReplace (u ++ (B ++ v)) (d :: ds) new = u ++ (stringsReplace B (d :: ds) new ++ v) := by
  unfold stringsReplace
  have hr := rewriteAux_append_right
    (fun t => if hasPrefix t (d :: ds) = true then some (new, (d :: ds).length) else none) v
    (fun z => by
      simp only
      rw [hasPrefix_append_disjoint v z (d :: ds) (by simp) hv])
    (fun t ht => by
      have : hasPrefix t (d :: ds) = false := by
        apply hasPrefix_head_ne
        exact head_ne_of_not_mem d v t (hv d (List.mem_cons_self _ _)) ht
      simp [this])
    (fun z e k hz => by
      simp only at hz
      split_ifs at hz with hp
      obtain ⟨r, hr⟩ := (hasPrefix_iff _ _).1 hp
      simp only [Option.some.injEq, Prod.mk.injEq] at hz
      rw [← hz.2, hr]
      simp)
    B 0 false (Nat.zero_le _)
  cases u with
  | nil => simpa using hr
  | cons a u =>
    rw [rewriteAux_copy _ (B ++ v) (a :: u) false (by simp) ?_, hr]
    intro y z hyz hz
    have : hasPrefix (z ++ (B ++ v)) (d :: ds) = false := by
      apply hasPrefix_head_ne
      cases z with
      | nil => exact absurd rfl hz
      | cons b z =>
        simp only [List.cons_append, List.head?_cons, ne_eq, Option.some.injEq]
        rintro rfl
        apply hu
        rw [hyz]
        simp
    simp [this]

/-! ## Rewriting creates no occurrence of a word without `<` -/

theorem rewriteAux_nil_of_shape (m : Str → Option (Str × Nat))
    (hm : ∀ t e k, m t = some (e, k) → ∃ c x r, t = c :: x ++ r ∧ k = x.length + 1)
    (am : Bool) : rewriteAux m [] 0 am = [] := by
  cases h : m [] with
  | none => simp [rewriteAux, h]
  | some p =>
    obtain ⟨e, k⟩ := p
    obtain ⟨c, x, r, h1, _⟩ := hm _ _ _ h
    simp at h1

theorem rewriteAux_match_shape (m : Str → Option (Str × Nat)) (t e : Str) (k : Nat) (am : Bool)
    (c : Char) (x r : Str) (h1 : t = c :: x ++ r) (h2 : k = x.length + 1)
    (hm : m t = some (e, k)) : rewriteAux m t 0 am = e ++ rewriteAux m r 0 true := by
  subst h1
  exact rewriteAux_match m (c :: x) r e am (by simp) (by rw [hm, h2]; rfl)

/-- A word without `<` that begins the rewritten text begins the text. -/
theorem hasPrefix_of_rewriteAux (m : Str → Option (Str × Nat))
    (hm : ∀ t e k, m t = some (e, k) →
      ∃ c x r, t = c :: x ++ r ∧ k = x.length + 1 ∧ e.head? = some '<') :
    ∀ (w t : Str) (am : Bool), '<' ∉ w → hasPrefix (rewriteAux m t 0 am) w = true →
      hasPrefix t w = true
  | [], _, _, _, _ => by simp
  | a :: w, [], am, _, h => by
      rw [rewriteAux_nil_of_shape m (fun t e k h => by
        obtain ⟨c, x, r, h1, h2, _⟩ := hm t e k h
        exact ⟨c, x, r, h1, h2⟩)] at h
      simp at h
  | a :: w, c :: cs, am, hw, h => by
      cases hmc : m (c :: cs) with
      | none =>
        rw [rewriteAux_cons m c cs am hmc] at h
        simp only [hasPrefix_cons_cons, Bool.and_eq_true] at h ⊢
        exact ⟨h.1, hasPrefix_of_rewriteAux m hm w cs false
          (fun hh => hw (List.mem_cons_of_mem _ hh)) h.2⟩
      | some p =>
        obtain ⟨e, k⟩ := p
        obtain ⟨c2, x, r, h1, h2, h3⟩ := hm _ _ _ hmc
        rw [rewriteAux_match_shape m _ e k am c2 x r h1 h2 hmc] at h
        cases e with
        | nil => simp at h3
        | cons b e =>
          simp only [List.head?_cons, Option.some.injEq] at h3
          subst h3
          simp only [List.cons_append, hasPrefix_cons_cons, Bool.and_eq_true, beq_iff_eq] at h
          exact absurd (by rw [← h.1]; exact List.mem_cons_self _ _) hw

theorem rewriteAux_containsStr (m : Str → Option (Str × Nat)) (d : Char) (ds : Str)
    (hw : '<' ∉ d :: ds)
    (hm : ∀ t e k, m t = some (e, k) →
      ∃ c x r, t = c :: x ++ r ∧ k = x.length + 1 ∧ e.head? = some '<' ∧ ∀ a ∈ e, a ≠ d) :
    ∀ (len : Nat) (s : Str), s.length ≤ len → containsStr (d :: ds) s = false →
      ∀ am, containsStr (d :: ds) (rewriteAux m s 0 am) = false := by
  have hm1 : ∀ t e k, m t = some (e, k) → ∃ c x r, t = c :: x ++ r ∧ k = x.length + 1 := by
    intro t e k h
    obtain ⟨c, x, r, h1, h2, _⟩ := hm t e k h
    exact ⟨c, x, r, h1, h2⟩
  have hm2 : ∀ t e k, m t = some (e, k) →
      ∃ c x r, t = c :: x ++ r ∧ k = x.length + 1 ∧ e.head? = some '<' := by
    intro t e k h
    obtain ⟨c, x, r, h1, h2, h3, _⟩ := hm t e k h
    exact ⟨c, x, r, h1, h2, h3⟩
  intro len
  induction len with
  | zero =>
    intro s hs _ am
    have : s = [] := List.length_eq_zero.1 (Nat.le_zero.1 hs)
    subst this
    rw [rewriteAux_nil_of_shape m hm1]
    rfl
  | succ len ih =>
    intro s hs hc am
    cases s with
    | nil =>
      rw [rewriteAux_nil_of_shape m hm1]
      rfl
    | cons c cs =>
      have hc0 := hc
      simp only [containsStr, Bool.or_eq_false_iff] at hc0
      cases hmc : m (c :: cs) with
      | none =>
        rw [rewriteAux_cons m c cs am hmc]
        simp only [containsStr, Bool.or_eq_false_iff]
        refine ⟨?_, ih cs (by simpa using hs) hc0.2 false⟩
        by_contra hp
        simp only [Bool.not_eq_false, hasPrefix_cons_cons, Bool.and_eq_true] at hp
        have := hasPrefix_of_rewriteAux m hm2 ds cs false
          (fun hh => hw (List.mem_cons_of_mem _ hh)) hp.2
        have h0 := hc0.1
        simp only [hasPrefix_cons_cons, hp.1, this, Bool.and_self] at h0
        exact Bool.noConfusion h0
      | some p =>
        obtain ⟨e, k⟩ := p
        obtain ⟨c2, x, r, h1, h2, _, h4⟩ := hm _ _ _ hmc
        rw [rewriteAux_match_shape m _ e k am c2 x r h1 h2 hmc,
          containsStr_append_heads d ds _ e h4]
        have hr : containsStr (d :: ds) r = false := by
          rw [containsStr_false] at hc ⊢
          intro t ht
          exact hc t (ht.trans ⟨c2 :: x, h1.symm⟩)
        have hl : r.length ≤ len := by
          have := congrArg List.length h1
          simp only [List.length_cons, List.length_append] at this hs
          omega
        exact ih r hl hr true

/-- Appending a text that starts with a character outside the word creates no
occurrence of the word across the seam. -/
theorem containsStr_append_seam (w v : Str) (hv : containsStr w v = false)
    (hh : ∀ c ∈ v.head?, c ∉ w) :
    ∀ Y : Str, containsStr w Y = false → containsStr w (Y ++ v) = false
  | [], _ => hv
  | a :: Y, h => by
      simp only [containsStr, Bool.or_eq_false_iff, List.cons_append] at h ⊢
      refine ⟨?_, containsStr_append_seam w v hv hh Y h.2⟩
      cases v with
      | nil => simpa using h.1
      | cons c v =>
        by_contra hp
        simp only [Bool.not_eq_false] at hp
        have hcw : c ∉ w := hh c (by simp)
        have := hasPrefix_cut c v (a :: Y) w (by simp)
          (fun hm => hcw (List.mem_of_mem_tail hm)) hp
        rw [h.1] at this
        exact Bool.noConfusion this

theorem mem_rewriteAux (m : Str → Option (Str × Nat)) (a : Char) :
    ∀ (s : Str) (skip : Nat) (am : Bool), a ∈ rewriteAux m s skip am →
      a ∈ s ∨ ∃ t e k, m t = some (e, k) ∧ a ∈ e
  | [], 0, am, h => by
      cases hm : m [] with
      | none => simp [rewriteAux, hm] at h
      | some p =>
        obtain ⟨e, k⟩ := p
        simp only [rewriteAux, hm] at h
        split_ifs at h
        · simp at h
        · exact Or.inr ⟨[], e, k, hm, h⟩
  | [], k + 1, am, h => by simp [rewriteAux] at h
  | c :: cs, k + 1, am, h => by
      simp only [rewriteAux] at h
      rcases mem_rewriteAux m a cs k true h with h1 | h1
      · exact Or.inl (List.mem_cons_of_mem _ h1)
      · exact Or.inr h1
  | c :: cs, 0, am, h => by
      cases hm : m (c :: cs) with
      | none =>
        simp only [rewriteAux, hm, List.mem_cons] at h
        rcases h with h | h
        · exact Or.inl (by simp [h])
        · rcases mem_rewriteAux m a cs 0 false h with h1 | h1
          · exact Or.inl (List.mem_cons_of_mem _ h1)
          · exact Or.inr h1
      | some p =>
        obtain ⟨e, k⟩ := p
        cases k with
        | zero =>
          simp only [rewriteAux, hm, List.mem_append, List.mem_cons] at h
          rcases h with h | h | h
          · split_ifs at h
            · simp at h
            · exact Or.inr ⟨_, e, 0, hm, h⟩
          · exact Or.inl (by simp [h])
          · rcases mem_rewriteAux m a cs 0 false h with h1 | h1
            · exact Or.inl (List.mem_cons_of_mem _ h1)
            · exact Or.inr h1
        | succ k =>
          simp only [rewriteAux, hm, List.mem_append] at h
          rcases h with h | h
          · exact Or.inr ⟨_, e, k + 1, hm, h⟩
          · rcases mem_rewriteAux m a cs k true h with h1 | h1
            · exact Or.inl (List.mem_cons_of_mem _ h1)
            · exact Or.inr h1

theorem mem_stringsReplace (a : Char) (s old new : Str) (h : a ∈ stringsReplace s old new) :
    a ∈ s ∨ a ∈ new := by
  rcases mem_rewriteAux _ a s 0 false h with h1 | ⟨t, e, k, h1, h2⟩
  · exact Or.inl h1
  · split_ifs at h1
    simp only [Option.some.injEq, Prod.mk.injEq] at h1
    rw [← h1.1] at h2
    exact Or.inr h2

theorem stringsReplace_containsStr (d : Char) (ds : Str) (hw : '<' ∉ d :: ds) (c : Char)
    (x new : Str) (h1 : new.head? = some '<') (h2 : ∀ a ∈ new, a ≠ d) (s : Str)
    (hs : containsStr (d :: ds) s = false) :
    containsStr (d :: ds) (stringsReplace s (c :: x) new) = false := by
  refine rewriteAux_containsStr _ d ds hw ?_ s.length s le_rfl hs false
  intro t e k hm
  simp only at hm
  split_ifs at hm with hp
  obtain ⟨r, hr⟩ := (hasPrefix_iff _ _).1 hp
  simp only [Option.some.injEq, Prod.mk.injEq] at hm
  exact ⟨c, x, r, hr, by rw [← hm.2]; rfl, by rw [← hm.1]; exact h1, by rw [← hm.1]; exact h2⟩

theorem noUrl_lineBreaks (s : Str) (h : noUrl s) : noUrl (lineBreaks s) := by
  unfold lineBreaks
  constructor
  · exact stringsReplace_containsStr 'h' "ttp://".toList (by decide) '\n' [] "<br>".toList rfl
      (by decide) _
      (stringsReplace_containsStr 'h' "ttp://".toList (by decide) '\n' ['\n'] "</p><p>".toList rfl
        (by decide) _ h.1)
  · exact stringsReplace_containsStr 'h' "ttps://".toList (by decide) '\n' [] "<br>".toList rfl
      (by decide) _
      (stringsReplace_containsStr 'h' "ttps://".toList (by decide) '\n' ['\n'] "</p><p>".toList rfl
        (by decide) _ h.2)

theorem mem_lineBreaks (a : Char) (s : Str) (h : a ∈ lineBreaks s) :
    a ∈ s ∨ a ∈ "</p><br>".toList := by
  unfold lineBreaks at h
  rcases mem_stringsReplace a _ _ _ h with h1 | h1
  · rcases mem_stringsReplace a _ _ _ h1 with h2 | h2
    · exact Or.inl h2
    · have : ∀ b ∈ "</p><p>".toList, b ∈ "</p><br>".toList := by decide
      exact Or.inr (this a h2)
  · have : ∀ b ∈ "<br>".toList, b ∈ "</p><br>".toList := by decide
    exact Or.inr (this a h1)

theorem star_not_mem_lineBreaks (s : Str) (h : '*' ∉ s) : '*' ∉ lineBreaks s := by
  intro hm
  rcases mem_lineBreaks _ s hm with h1 | h1
  · exact h h1
  · exact absurd h1 (by decide)

/-- The line-break step works on the middle of a text whose ends hold no newline. -/
theorem lineBreaks_context (u B v : Str) (hu : '\n' ∉ u) (hv : '\n' ∉ v) :
    lineBreaks (u ++ (B ++ v)) = u ++ (lineBreaks B ++ v) := by
  unfold lineBreaks
  have e1 := stringsReplace_context u B v '\n' ['\n'] "</p><p>".toList hu (by
    intro c hc
    simp only [List.mem_cons, List.mem_singleton, List.not_mem_nil, or_false, or_self] at hc
    rw [hc]; exact hv)
  have e2 := stringsReplace_context u (stringsReplace B "\n\n".toList "</p><p>".toList) v '\n' []
    "<br>".toList hu (by
    intro c hc
    simp only [List.mem_singleton] at hc
    rw [hc]; exact hv)
  exact (congrArg (fun t => stringsReplace t "\n".toList "<br>".toList) e1).trans e2

/-- Wrapping a text between two pieces without `h`, the second starting with `<`,
creates no URL scheme. -/
theorem noUrl_wrap (u v Y : Str) (hu : 'h' ∉ u) (hv : 'h' ∉ v) (hh : ∀ c ∈ v.head?, c = '<')
    (hY : noUrl Y) : noUrl (u ++ (Y ++ v)) := by
  constructor
  · have := containsStr_append_heads 'h' "ttp://".toList (Y ++ v) u
      (fun a ha => by rintro rfl; exact hu ha)
    refine this.trans ?_
    exact containsStr_append_seam _ v (containsStr_of_not_mem 'h' _ v hv)
      (fun c hc => by rw [hh c hc]; decide) Y hY.1
  · have := containsStr_append_heads 'h' "ttps://".toList (Y ++ v) u
      (fun a ha => by rintro rfl; exact hu ha)
    refine this.trans ?_
    exact containsStr_append_seam _ v (containsStr_of_not_mem 'h' _ v hv)
      (fun c hc => by rw [hh c hc]; decide) Y hY.2

theorem HTMLEscapeString_ne_nil (s : Str) (h : s ≠ []) : HTMLEscapeString s ≠ [] := by
  cases s with
  | nil => exact absurd rfl h
  | cons c cs =>
    rw [HTMLEscapeString_cons]
    intro hn
    exact escapeChar_ne_nil c (List.append_eq_nil.1 hn).1

/-- The three in-line passes leave a text without asterisk and URL scheme as it is. -/
theorem inline_id (s : Str) (hst : '*' ∉ s) (hurl : noUrl s) :
    replaceAllString linkRe linkTpl
      (replaceAllString italicRe italicTpl (replaceAllString boldRe boldTpl s)) = s := by
  rw [bold_id _ _ hst, italic_id _ _ hst, link_id _ _ hurl]

/-! ## Fenced code blocks -/

/-- One fenced block that spans the whole text is replaced as a whole. -/
theorem code_whole (tpl : List TItem) (l B : Str) (hl : '\n' ∉ l) (hB : B ≠ []) :
    replaceAllString codeRe tpl ("```".toList ++ (l ++ '\n' :: (B ++ "\n```".toList))) =
      expand ("```".toList ++ (l ++ '\n' :: (B ++ "\n```".toList))) [(1, B)] tpl := by
  have hh := run_code_head l B [] hl hB (by decide) (Or.inl rfl)
  simp only [List.append_nil, List.drop_nil] at hh
  unfold replaceAllString
  have hm : matchAt codeRe tpl ("```".toList ++ (l ++ '\n' :: (B ++ "\n```".toList))).length
      ("```".toList ++ (l ++ '\n' :: (B ++ "\n```".toList))) =
      some (expand ("```".toList ++ (l ++ '\n' :: (B ++ "\n```".toList))) [(1, B)] tpl,
        ("```".toList ++ (l ++ '\n' :: (B ++ "\n```".toList))).length) := by
    unfold matchAt
    rw [hh]
    simp only [List.length_nil, Nat.sub_zero, List.take_length]
  have := rewriteAux_match _ ("```".toList ++ (l ++ '\n' :: (B ++ "\n```".toList))) [] _ false
    (by simp) (by rw [List.append_nil]; exact hm)
  rw [List.append_nil] at this
  rw [this, rewriteAux_id _ [] true ?_, List.append_nil]
  intro t ht
  have : t = [] := List.eq_nil_of_suffix_nil ht
  subst this
  unfold matchAt
  rw [run_code_nil _ _ [] (fun _ => rfl) rfl]
  rfl

/-- The rendering of one fenced block, before `censor`. -/
theorem formatted_fenced (body : Str) (hne : body ≠ []) (hcr : '\r' ∉ body) (hst : '*' ∉ body)
    (hurl : noUrl body) :
    formatted ("```\n".toList ++ body ++ "\n```".toList) =
      "<p><pre>".toList ++ lineBreaks (HTMLEscapeString body) ++ "</pre></p>".toList := by
  have hcr2 : '\r' ∉ "```\n".toList ++ body ++ "\n```".toList := by
    simp only [List.mem_append, not_or]
    exact ⟨⟨by decide, hcr⟩, by decide⟩
  have e0 : stripCR ("```\n".toList ++ body ++ "\n```".toList) =
      "```\n".toList ++ body ++ "\n```".toList :=
    stringsReplace_id _ _ _ (containsStr_of_not_mem _ _ _ hcr2)
  have e1 : HTMLEscapeString ("```\n".toList ++ body ++ "\n```".toList) =
      "```".toList ++ ([] ++ '\n' :: (HTMLEscapeString body ++ "\n```".toList)) := by
    rw [HTMLEscapeString_append, HTMLEscapeString_append]
    have a1 : HTMLEscapeString "```\n".toList = "```\n".toList := by decide
    have a2 : HTMLEscapeString "\n```".toList = "\n```".toList := by decide
    rw [a1, a2]
    simp
  have e2 : codeBlocks ("```".toList ++ ([] ++ '\n' :: (HTMLEscapeString body ++ "\n```".toList))) =
      "<pre>".toList ++ (HTMLEscapeString body ++ "</pre>".toList) := by
    unfold codeBlocks
    rw [if_pos (by simp [containsStr]), code_whole _ [] _ (by simp) (HTMLEscapeString_ne_nil _ hne)]
    simp [preTpl, expand, getCap]
  have hB1 : '*' ∉ HTMLEscapeString body := not_mem_escape _ (by decide) _ hst
  have e3 := lineBreaks_context "<pre>".toList (HTMLEscapeString body) "</pre>".toList
    (by decide) (by decide)
  have hst3 : '*' ∉ "<pre>".toList ++ (lineBreaks (HTMLEscapeString body) ++ "</pre>".toList) := by
    simp only [List.mem_append, not_or]
    exact ⟨by decide, star_not_mem_lineBreaks _ hB1, by decide⟩
  have hurl3 := noUrl_wrap "<pre>".toList "</pre>".toList _ (by decide) (by decide) (by decide)
    (noUrl_lineBreaks _ (noUrl_escape _ hurl))
  unfold formatted
  simp only [e0, e1, e2, e3]
  rw [inline_id _ hst3 hurl3]
  simp

/-- C3 (amended): with the empty word list and the censor cache in its initial
state, a fenced block whose body is not empty and has no carriage return,
asterisk or URL scheme (so also one without backtick) is rendered as one `<pre>`
region inside the outer paragraph, holding the escaped body after the line-break
step: each double newline of the body has become `</p><p>` and each remaining
newline `<br>`. -/
theorem C3_fenced_block_with_line_breaks {R : Type} (lib : RegexpLib R) (body : Str)
    (hne : body ≠ []) (hcr : '\r' ∉ body) (hst : '*' ∉ body) (hurl : noUrl body) :
    formatComment lib [] (CensorCache.initial R) ("```\n".toList ++ body ++ "\n```".toList) =
      (some ("<p><pre>".toList ++ lineBreaks (HTMLEscapeString body) ++ "</pre></p>".toList),
        CensorCache.initial R) := by
  rw [formatComment, formatted_fenced body hne hcr hst hurl, censor_initial]

/-- C3 (amended) at the body of the claim's example. -/
theorem C3_fenced_block_witness :
    formatComment panicLib [] (CensorCache.initial Unit) "```\nhello\nworld\n```".toList =
      (some ("<p><pre>hello<br>world</pre></p>".toList), CensorCache.initial Unit) :=
  C3_fenced_block_with_line_breaks panicLib "hello\nworld".toList (by decide) (by decide)
    (by decide) (by decide)

set_option maxRecDepth 100000 in
/-- C3 as stated fails on its own example: the newline between `hello` and
`world` is not kept inside the `<pre>` region, it is rendered as `<br>`.  It fails
for the body of one empty line, which `codeRe` does not match.  And under the
empty word list it fails, also with `<br>` in the place of the newline, in the
state of the cache that a call of `censor` under the word list `foo` leaves: the
rendered text has four asterisks in front of every character and at the end. -/
theorem C3_counterexample :
    formatComment panicLib [] (CensorCache.initial Unit) "```\nhello\nworld\n```".toList ≠
      (some ("<p><pre>".toList ++ HTMLEscapeString "hello\nworld".toList ++ "</pre></p>".toList),
        CensorCache.initial Unit) ∧
    formatComment panicLib [] (CensorCache.initial Unit) "```\n\n```".toList =
      (some "<p>```</p><p>```</p>".toList, CensorCache.initial Unit) ∧
    Reachable (goRegexp (fun _ => none))
      (censor (goRegexp (fun _ => none)) "foo".toList (CensorCache.initial Re) "x".toList).2 ∧
    (formatComment (goRegexp (fun _ => none)) []
      (censor (goRegexp (fun _ => none)) "foo".toList (CensorCache.initial Re) "x".toList).2
      "```\nhello\nworld\n```".toList).1 =
      some "****<****p****>****<****p****r****e****>****h****e****l****l****o****<****b****r****>****w****o****r****l****d****<****/****p****r****e****>****<****/****p****>****".toList := by
  refine ⟨by decide, by decide, Reachable.call _ _ _ Reachable.start, rfl⟩

/-- C4 at the failing input: two fenced blocks `a` and `b` with the line `m`
between them are rendered as a single `<pre>` region that runs from the first
opening fence to the last closing fence and holds `m` and the two inner fence
lines. -/
theorem C4_fence_runs_to_last_closing_fence :
    formatComment panicLib [] (CensorCache.initial Unit)
        "```\na\n```\nm\n```\nb\n```".toList =
      (some ("<p><pre>a<br>```<br>m<br>```<br>b</pre></p>".toList), CensorCache.initial Unit) := by
  decide

/-! ## Indented code lines -/

theorem run_indent_body (n : Nat) (caps : Caps) (B rest : Str) (hB : B ≠ []) (hnl : '\n' ∉ B)
    (hrest : ∀ c ∈ rest.head?, c = '\n') :
    (run n (.seq (lit "    ".toList) (.grp 1 (plus notNl)))
      (caps, "    ".toList ++ (B ++ rest))).head? = some ((1, B) :: caps, rest) := by
  cases B with
  | nil => exact absurd rfl hB
  | cons c x =>
    have hc : notNl c = true := by
      simp only [notNl, bne_iff_ne, ne_eq]
      rintro rfl
      exact hnl (List.mem_cons_self _ _)
    have hstop := takeWhile_append_stop notNl rest
      (fun a ha => by rw [hrest a ha]; rfl) x (fun a ha => by
        simp only [notNl, bne_iff_ne, ne_eq]
        rintro rfl
        exact hnl (List.mem_cons_of_mem _ ha))
    obtain ⟨l, hl⟩ := starRun_head notNl caps (x ++ rest)
    rw [run_seq_lit, hasPrefix_append_self, if_pos rfl, List.drop_left, run_grp]
    have e : run n (plus notNl) (caps, c :: x ++ rest) = starRun notNl caps (x ++ rest) := by
      simp [plus, hc]
    rw [e, hl, hstop.2]
    simp only [List.map_cons, List.head?_cons, Option.some.injEq, Prod.mk.injEq, and_true,
      List.cons.injEq]
    have e1 : (c :: x ++ rest).length - rest.length = (c :: x).length := by
      simp only [List.length_append, List.length_cons]
      omega
    rw [e1, List.take_left]
    exact ⟨trivial, rfl⟩

/-- The first match of `oldCodeRe` at an indented line, at the start of the text
or after a newline. -/
theorem run_oldCode_head (n : Nat) (pre B rest : Str)
    (hpre : (pre = [] ∧ ("    ".toList ++ (B ++ rest)).length = n) ∨ pre = ['\n'])
    (hB : B ≠ []) (hnl : '\n' ∉ B) (hrest : ∀ c ∈ rest.head?, c = '\n') :
    (run n oldCodeRe ([], pre ++ ("    ".toList ++ (B ++ rest)))).head? =
      some ([(1, B)], rest) := by
  have hb := run_indent_body n [] B rest hB hnl hrest
  rcases hpre with ⟨rfl, hn⟩ | rfl
  · rw [oldCodeRe, run_seq, run_alt, run_bol, run_chr]
    simp only [List.nil_append, hn, if_true]
    have e0 : hasPrefix ("    ".toList ++ (B ++ rest)) ['\n'] = false := by simp
    rw [e0]
    simp only [Bool.false_eq_true, if_false, List.append_nil, List.flatMap_cons,
      List.flatMap_nil]
    exact hb
  · rw [oldCodeRe, run_seq, run_alt, List.flatMap_append, run_chr]
    have e0 : (run n Re.bol ([], ['\n'] ++ ("    ".toList ++ (B ++ rest)))).flatMap
        (run n (.seq (lit "    ".toList) (.grp 1 (plus notNl)))) = [] := by
      rw [run_bol]
      split_ifs
      · simp only [List.flatMap_cons, List.flatMap_nil, List.append_nil]
        rw [run_seq_lit]
        simp
      · rfl
    rw [e0]
    simp only [List.singleton_append, hasPrefix_cons_cons, beq_self_eq_true, hasPrefix_nil,
      Bool.and_self, if_true, List.drop_succ_cons, List.drop_zero, List.nil_append,
      List.flatMap_cons, List.flatMap_nil, List.append_nil]
    exact hb

theorem matchAt_oldCode (n : Nat) (pre B rest : Str)
    (hpre : (pre = [] ∧ ("    ".toList ++ (B ++ rest)).length = n) ∨ pre = ['\n'])
    (hB : B ≠ []) (hnl : '\n' ∉ B) (hrest : ∀ c ∈ rest.head?, c = '\n') :
    matchAt oldCodeRe preTpl n ((pre ++ ("    ".toList ++ B)) ++ rest) =
      some ("<pre>".toList ++ (B ++ "</pre>".toList), (pre ++ ("    ".toList ++ B)).length) := by
  have h := run_oldCode_head n pre B rest hpre hB hnl hrest
  have e : (pre ++ ("    ".toList ++ B)) ++ rest = pre ++ ("    ".toList ++ (B ++ rest)) := by
    simp
  unfold matchAt
  rw [e, h]
  simp only [preTpl, expand, getCap, List.lookup_cons, beq_self_eq_true, Option.getD_some,
    List.append_nil, Option.some.injEq, Prod.mk.injEq]
  refine ⟨trivial, ?_⟩
  simp only [List.length_append]
  omega

theorem head_flatMap_lines (sep : Str) (d : Char) (hs : sep.head? = some d) :
    ∀ rest : List Str, ∀ c ∈ (rest.flatMap (fun E => sep ++ E)).head?, c = d
  | [], c, h => by simp at h
  | E :: rest, c, h => by
      cases sep with
      | nil => simp at hs
      | cons a sep =>
        simp only [List.head?_cons, Option.some.injEq] at hs
        simp only [List.flatMap_cons, List.cons_append, List.head?_cons, Option.mem_def,
          Option.some.injEq] at h
        rw [← h, hs]

/-- The indented lines after the first are replaced one by one. -/
theorem oldCode_lines (n : Nat) : ∀ (rest : List Str) (am : Bool),
    (∀ E ∈ rest, E ≠ [] ∧ '\n' ∉ E) →
    rewriteAux (matchAt oldCodeRe preTpl n) (rest.flatMap (fun E => "\n    ".toList ++ E)) 0 am =
      rest.flatMap (fun E => "<pre>".toList ++ (E ++ "</pre>".toList))
  | [], am, _ => by
      apply rewriteAux_id
      intro t ht
      have : t = [] := List.eq_nil_of_suffix_nil ht
      subst this
      unfold matchAt
      rw [run_oldCode_nil _ _ [] (fun _ => rfl) (by simp)]
      rfl
  | E :: rest, am, h => by
      have hE := h E (List.mem_cons_self _ _)
      have ih := oldCode_lines n rest true (fun F hF => h F (List.mem_cons_of_mem _ hF))
      have hm := matchAt_oldCode n ['\n'] E (rest.flatMap (fun E => "\n    ".toList ++ E))
        (Or.inr rfl) hE.1 hE.2 (head_flatMap_lines "\n    ".toList '\n' rfl rest)
      have e : (E :: rest).flatMap (fun E => "\n    ".toList ++ E) =
          (['\n'] ++ ("    ".toList ++ E)) ++ rest.flatMap (fun E => "\n    ".toList ++ E) := by
        simp
      rw [e, rewriteAux_match _ _ _ _ am (by simp) hm, ih]
      simp

/-- The pass of `oldCodeRe` over a text made of indented lines. -/
theorem oldCode_text (E : Str) (rest : List Str) (hE : E ≠ [] ∧ '\n' ∉ E)
    (h : ∀ F ∈ rest, F ≠ [] ∧ '\n' ∉ F) :
    replaceAllString oldCodeRe preTpl
        (("    ".toList ++ E) ++ rest.flatMap (fun E => "\n    ".toList ++ E)) =
      "<pre>".toList ++ (E ++ "</pre>".toList) ++
        rest.flatMap (fun E => "<pre>".toList ++ (E ++ "</pre>".toList)) := by
  unfold replaceAllString
  have hm := matchAt_oldCode
    (("    ".toList ++ E) ++ rest.flatMap (fun E => "\n    ".toList ++ E)).length [] E
    (rest.flatMap (fun E => "\n    ".toList ++ E))
    (Or.inl ⟨rfl, by simp⟩) hE.1 hE.2 (head_flatMap_lines "\n    ".toList '\n' rfl rest)
  rw [List.nil_append] at hm
  rw [rewriteAux_match _ _ _ _ false (by simp) hm, oldCode_lines _ rest true h]

/-- `strings.Replace` on pieces without the first character of the searched
word, joined by that word and followed by a text without the word. -/
theorem stringsReplace_join (d : Char) (ds new v : Str)
    (hv : containsStr (d :: ds) v = false) :
    ∀ (rest : List Str) (E : Str) (am : Bool), d ∉ E → (∀ F ∈ rest, d ∉ F) →
      rewriteAux (fun t => if hasPrefix t (d :: ds) = true then some (new, (d :: ds).length) else none)
        (E ++ (rest.flatMap (fun F => (d :: ds) ++ F) ++ v)) 0 am =
      E ++ (rest.flatMap (fun F => new ++ F) ++ v)
  | [], E, am, hE, _ => by
      apply rewriteAux_id
      intro t ht
      have : containsStr (d :: ds) (E ++ ([].flatMap (fun F => (d :: ds) ++ F) ++ v)) = false := by
        rw [containsStr_append_heads d ds _ E (fun a ha => by rintro rfl; exact hE ha)]
        exact hv
      rw [containsStr_false] at this
      simp [this t ht]
  | F :: rest, E, am, hE, h => by
      have ih := stringsReplace_join d ds new v hv rest F true (h F (List.mem_cons_self _ _))
        (fun G hG => h G (List.mem_cons_of_mem _ hG))
      have e : E ++ ((F :: rest).flatMap (fun F => (d :: ds) ++ F) ++ v) =
          E ++ ((d :: ds) ++ (F ++ (rest.flatMap (fun F => (d :: ds) ++ F) ++ v))) := by
        simp
      have hm : (fun t => if hasPrefix t (d :: ds) = true then some (new, (d :: ds).length) else none)
          ((d :: ds) ++ (F ++ (rest.flatMap (fun F => (d :: ds) ++ F) ++ v))) =
          some (new, (d :: ds).length) := by
        simp only
        rw [hasPrefix_append_self, if_pos rfl]
      have step := rewriteAux_match
        (fun t => if hasPrefix t (d :: ds) = true then some (new, (d :: ds).length) else none)
        (d :: ds) (F ++ (rest.flatMap (fun F => (d :: ds) ++ F) ++ v)) new
      rw [e]
      cases E with
      | nil =>
        rw [List.nil_append, step am (by simp) hm, ih]
        simp
      | cons a E =>
        rw [rewriteAux_copy _ _ (a :: E) am (by simp) ?_, step false (by simp) hm, ih]
        · simp
        · intro y z hyz hz
          have : hasPrefix (z ++ ((d :: ds) ++ (F ++ (rest.flatMap (fun F => (d :: ds) ++ F) ++ v))))
              (d :: ds) = false := by
            apply hasPrefix_head_ne
            cases z with
            | nil => exact absurd rfl hz
            | cons b z =>
              simp only [List.cons_append, List.head?_cons, ne_eq, Option.some.injEq]
              rintro rfl
              apply hE
              rw [hyz]
              simp
          simp only [this, Bool.false_eq_true, if_false]

/-! ## Texts made of joined pieces -/

theorem intercalate_cons (sep x : Str) (xs : List Str) :
    sep.intercalate (x :: xs) = x ++ xs.flatMap (fun y => sep ++ y) := by
  induction xs generalizing x with
  | nil => simp [List.intercalate]
  | cons y ys ih =>
    have := ih y
    simp only [List.intercalate, List.intersperse_cons_cons, List.flatten_cons,
      List.flatMap_cons] at this ⊢
    rw [this]
    simp

theorem flatMap_map_lines {α : Type} (sep : Str) (f : α → Str) (xs : List α) :
    (xs.map f).flatMap (fun y => sep ++ y) = xs.flatMap (fun x => sep ++ f x) := by
  induction xs with
  | nil => rfl
  | cons x xs ih => simp [ih]

theorem escape_flatMap_lines (sep : Str) (hsep : HTMLEscapeString sep = sep) (xs : List Str) :
    HTMLEscapeString (xs.flatMap (fun x => sep ++ x)) =
      (xs.map HTMLEscapeString).flatMap (fun E => sep ++ E) := by
  induction xs with
  | nil => rfl
  | cons x xs ih => simp [ih, hsep]

/-- No occurrence of a word in pieces joined by a separator that shares no
first character with it. -/
theorem containsStr_joined (d : Char) (ds : Str) (s0 : Char) (sep : Str)
    (h0 : s0 ∉ d :: ds) (h1 : ∀ a ∈ s0 :: sep, a ≠ d) :
    ∀ (rest : List Str) (E : Str), containsStr (d :: ds) E = false →
      (∀ F ∈ rest, containsStr (d :: ds) F = false) →
      containsStr (d :: ds) (E ++ rest.flatMap (fun F => (s0 :: sep) ++ F)) = false
  | [], E, hE, _ => by simpa using hE
  | F :: rest, E, hE, h => by
      have ih := containsStr_joined d ds s0 sep h0 h1 rest F (h F (List.mem_cons_self _ _))
        (fun G hG => h G (List.mem_cons_of_mem _ hG))
      have hv : containsStr (d :: ds)
          ((s0 :: sep) ++ (F ++ rest.flatMap (fun F => (s0 :: sep) ++ F))) = false := by
        rw [containsStr_append_heads d ds _ (s0 :: sep) h1]
        exact ih
      have := containsStr_append_seam (d :: ds) _ hv (fun c hc => by
        simp only [List.cons_append, List.head?_cons, Option.mem_def, Option.some.injEq] at hc
        rw [← hc]
        exact h0) E hE
      simpa using this

theorem not_mem_joined (a : Char) (sep : Str) (ha : a ∉ sep) :
    ∀ (rest : List Str) (E : Str), a ∉ E → (∀ F ∈ rest, a ∉ F) →
      a ∉ E ++ rest.flatMap (fun F => sep ++ F) := by
  intro rest E hE h hm
  simp only [List.mem_append, List.mem_flatMap] at hm
  rcases hm with hm | ⟨F, hF, hm | hm⟩
  · exact hE hm
  · exact ha hm
  · exact h F hF hm

theorem no_double_newline : ∀ (rest : List Str) (E : Str), '\n' ∉ E →
    (∀ F ∈ rest, F ≠ [] ∧ '\n' ∉ F) →
    containsStr "\n\n".toList (E ++ rest.flatMap (fun F => "\n".toList ++ F)) = false
  | [], E, hE, _ => by
      simpa using containsStr_of_not_mem '\n' ['\n'] E hE
  | F :: rest, E, hE, h => by
      obtain ⟨hF1, hF2⟩ := h F (List.mem_cons_self _ _)
      have ih := no_double_newline rest F hF2 (fun G hG => h G (List.mem_cons_of_mem _ hG))
      have := containsStr_append_heads '\n' ['\n']
        ((F :: rest).flatMap (fun F => "\n".toList ++ F)) E (fun a ha => by rintro rfl; exact hE ha)
      refine this.trans ?_
      cases F with
      | nil => exact absurd rfl hF1
      | cons f F =>
        have hf : f ≠ '\n' := by
          rintro rfl
          exact hF2 (List.mem_cons_self _ _)
        have e : ((f :: F) :: rest).flatMap (fun F => "\n".toList ++ F) =
            '\n' :: ((f :: F) ++ rest.flatMap (fun F => "\n".toList ++ F)) := by
          simp
        have hp : hasPrefix ('\n' :: ((f :: F) ++ rest.flatMap (fun F => "\n".toList ++ F)))
            "\n\n".toList = false := by
          simp [hf]
        rw [e, containsStr]
        show (hasPrefix _ "\n\n".toList || containsStr "\n\n".toList _) = false
        rw [hp, ih]
        rfl

theorem regroup_pre : ∀ (rest : List Str) (E : Str),
    (E ++ "</pre>".toList) ++ rest.flatMap (fun F => "<pre>".toList ++ (F ++ "</pre>".toList)) =
      E ++ (rest.flatMap (fun F => "</pre><pre>".toList ++ F) ++ "</pre>".toList)
  | [], E => by simp
  | F :: rest, E => by
      have ih := regroup_pre rest F
      simp only [List.flatMap_cons, List.append_assoc] at ih ⊢
      rw [ih]
      simp

/-- The code-block step on indented lines: one merged `<pre>` region. -/
theorem codeBlocks_indented (E : Str) (Rs : List Str) (hE : E ≠ [] ∧ '\n' ∉ E ∧ '<' ∉ E)
    (hR : ∀ F ∈ Rs, F ≠ [] ∧ '\n' ∉ F ∧ '<' ∉ F)
    (hbt : containsStr "```".toList
      (("    ".toList ++ E) ++ Rs.flatMap (fun F => "\n    ".toList ++ F)) = false) :
    codeBlocks (("    ".toList ++ E) ++ Rs.flatMap (fun F => "\n    ".toList ++ F)) =
      "<pre>".toList ++ (E ++ (Rs.flatMap (fun F => "\n".toList ++ F) ++ "</pre>".toList)) := by
  unfold codeBlocks
  rw [if_neg (by rw [hbt]; exact Bool.false_ne_true),
    oldCode_text E Rs ⟨hE.1, hE.2.1⟩ (fun F hF => ⟨(hR F hF).1, (hR F hF).2.1⟩)]
  have e : "<pre>".toList ++ (E ++ "</pre>".toList) ++
      Rs.flatMap (fun F => "<pre>".toList ++ (F ++ "</pre>".toList)) =
      "<pre>".toList ++ (E ++ (Rs.flatMap (fun F => "</pre><pre>".toList ++ F) ++ "</pre>".toList)) := by
    rw [List.append_assoc, regroup_pre]
  rw [e]
  unfold stringsReplace
  have hj := stringsReplace_join '<' "/pre><pre>".toList ['\n'] "</pre>".toList (by decide) Rs E
    false hE.2.2 (fun F hF => (hR F hF).2.2)
  rw [rewriteAux_copy _ _ "<pre>".toList false (by simp) ?_]
  · exact congrArg (fun t => "<pre>".toList ++ t) hj
  · intro y z hyz hz
    have : hasPrefix (z ++ (E ++ (Rs.flatMap (fun F => "</pre><pre>".toList ++ F) ++ "</pre>".toList)))
        "</pre><pre>".toList = false := by
      have hy : y.length + z.length = 5 := by
        have := congrArg List.length hyz
        simp only [String.toList, List.length_append, List.length_cons, List.length_nil] at this
        omega
      have hz2 : z = ("<pre>".toList).drop y.length := by
        rw [hyz, List.drop_left]
      have hy5 : y.length < 5 := by
        have : z.length ≠ 0 := fun h => hz (List.length_eq_zero.1 h)
        omega
      rw [hz2]
      interval_cases y.length <;> simp
    simp only [this, Bool.false_eq_true, if_false]

/-- The line-break step on pieces without newline joined by single newlines. -/
theorem lineBreaks_joined (E : Str) (Rs : List Str) (hE : '\n' ∉ E)
    (hR : ∀ F ∈ Rs, F ≠ [] ∧ '\n' ∉ F) :
    lineBreaks (E ++ Rs.flatMap (fun F => "\n".toList ++ F)) =
      E ++ Rs.flatMap (fun F => "<br>".toList ++ F) := by
  unfold lineBreaks
  rw [stringsReplace_id _ _ _ (no_double_newline Rs E hE hR)]
  have hj := stringsReplace_join '\n' [] "<br>".toList [] rfl Rs E false hE
    (fun F hF => (hR F hF).2)
  simp only [List.append_nil] at hj
  exact hj

/-- The rendering of indented lines, before `censor`. -/
theorem formatted_indented (c : Str) (cs : List Str)
    (h : ∀ x ∈ c :: cs, x ≠ [] ∧ '\n' ∉ x ∧ '\r' ∉ x ∧ '*' ∉ x ∧
      containsStr "```".toList x = false ∧ noUrl x) :
    formatted ("\n".toList.intercalate ((c :: cs).map (fun x => "    ".toList ++ x))) =
      "<p><pre>".toList ++ "<br>".toList.intercalate ((c :: cs).map HTMLEscapeString) ++
        "</pre></p>".toList := by
  have hc := h c (List.mem_cons_self _ _)
  have hcs : ∀ x ∈ cs, x ≠ [] ∧ '\n' ∉ x ∧ '\r' ∉ x ∧ '*' ∉ x ∧
      containsStr "```".toList x = false ∧ noUrl x := fun x hx => h x (List.mem_cons_of_mem _ hx)
  have hT : "\n".toList.intercalate ((c :: cs).map (fun x => "    ".toList ++ x)) =
      ("    ".toList ++ c) ++ cs.flatMap (fun x => "\n    ".toList ++ x) := by
    rw [List.map_cons, intercalate_cons, flatMap_map_lines]
    rfl
  have hcr : '\r' ∉ ("    ".toList ++ c) ++ cs.flatMap (fun x => "\n    ".toList ++ x) :=
    not_mem_joined '\r' _ (by decide) cs _
      (by simp only [List.mem_append, not_or]; exact ⟨by decide, hc.2.2.1⟩)
      (fun x hx => (hcs x hx).2.2.1)
  have hbt : containsStr "```".toList
      (("    ".toList ++ c) ++ cs.flatMap (fun x => "\n    ".toList ++ x)) = false :=
    containsStr_joined (Char.ofNat 96) "``".toList '\n' "    ".toList (by decide) (by decide) cs _
      ((containsStr_append_heads (Char.ofNat 96) "``".toList c "    ".toList (by decide)).trans
        hc.2.2.2.2.1)
      (fun x hx => (hcs x hx).2.2.2.2.1)
  have e0 : stripCR (("    ".toList ++ c) ++ cs.flatMap (fun x => "\n    ".toList ++ x)) =
      ("    ".toList ++ c) ++ cs.flatMap (fun x => "\n    ".toList ++ x) :=
    stringsReplace_id _ _ _ (containsStr_of_not_mem _ _ _ hcr)
  have e1 : HTMLEscapeString (("    ".toList ++ c) ++ cs.flatMap (fun x => "\n    ".toList ++ x)) =
      ("    ".toList ++ HTMLEscapeString c) ++
        (cs.map HTMLEscapeString).flatMap (fun F => "\n    ".toList ++ F) := by
    rw [HTMLEscapeString_append, HTMLEscapeString_append,
      escape_flatMap_lines "\n    ".toList (by decide)]
    rfl
  have hbt2 := containsStr_escape (Char.ofNat 96) "``".toList (by decide) (by decide) _ hbt
  rw [e1] at hbt2
  have hE : HTMLEscapeString c ≠ [] ∧ '\n' ∉ HTMLEscapeString c ∧ '<' ∉ HTMLEscapeString c :=
    ⟨HTMLEscapeString_ne_nil _ hc.1, not_mem_escape _ (by decide) _ hc.2.1, lt_not_mem_escape _⟩
  have hR : ∀ F ∈ cs.map HTMLEscapeString, F ≠ [] ∧ '\n' ∉ F ∧ '<' ∉ F := by
    intro F hF
    obtain ⟨x, hx, rfl⟩ := List.mem_map.1 hF
    exact ⟨HTMLEscapeString_ne_nil _ (hcs x hx).1, not_mem_escape _ (by decide) _ (hcs x hx).2.1,
      lt_not_mem_escape _⟩
  have e2 := codeBlocks_indented _ _ hE hR hbt2
  have e3 : lineBreaks ("<pre>".toList ++ (HTMLEscapeString c ++
      ((cs.map HTMLEscapeString).flatMap (fun F => "\n".toList ++ F) ++ "</pre>".toList))) =
      "<pre>".toList ++ ((HTMLEscapeString c ++
        (cs.map HTMLEscapeString).flatMap (fun F => "<br>".toList ++ F)) ++ "</pre>".toList) := by
    rw [← List.append_assoc (HTMLEscapeString c), lineBreaks_context _ _ _ (by decide) (by decide),
      lineBreaks_joined _ _ hE.2.1 (fun F hF => ⟨(hR F hF).1, (hR F hF).2.1⟩)]
  have hst : '*' ∉ "<pre>".toList ++ ((HTMLEscapeString c ++
      (cs.map HTMLEscapeString).flatMap (fun F => "<br>".toList ++ F)) ++ "</pre>".toList) := by
    have := not_mem_joined '*' "<br>".toList (by decide) (cs.map HTMLEscapeString)
      (HTMLEscapeString c) (not_mem_escape _ (by decide) _ hc.2.2.2.1) (by
        intro F hF
        obtain ⟨x, hx, rfl⟩ := List.mem_map.1 hF
        exact not_mem_escape _ (by decide) _ (hcs x hx).2.2.2.1)
    simp only [List.mem_append, not_or] at this ⊢
    exact ⟨by decide, this, by decide⟩
  have hurl : noUrl ("<pre>".toList ++ ((HTMLEscapeString c ++
      (cs.map HTMLEscapeString).flatMap (fun F => "<br>".toList ++ F)) ++ "</pre>".toList)) := by
    apply noUrl_wrap _ _ _ (by decide) (by decide) (by decide)
    have h1 := noUrl_escape c hc.2.2.2.2.2
    have h2 : ∀ F ∈ cs.map HTMLEscapeString, noUrl F := by
      intro F hF
      obtain ⟨x, hx, rfl⟩ := List.mem_map.1 hF
      exact noUrl_escape x (hcs x hx).2.2.2.2.2
    exact ⟨containsStr_joined 'h' "ttp://".toList '<' "br>".toList (by decide) (by decide) _ _
        h1.1 (fun F hF => (h2 F hF).1),
      containsStr_joined 'h' "ttps://".toList '<' "br>".toList (by decide) (by decide) _ _
        h1.2 (fun F hF => (h2 F hF).2)⟩
  rw [hT]
  unfold formatted
  simp only [e0, e1, e2, e3]
  rw [inline_id _ hst hurl, List.map_cons, intercalate_cons, flatMap_map_lines]
  simp [flatMap_map_lines]

/-! ## Counting tags -/

theorem countStr_append_heads (d : Char) (ds y : Str) :
    ∀ x : Str, (∀ a ∈ x, a ≠ d) → countStr (d :: ds) (x ++ y) = countStr (d :: ds) y
  | [], _ => rfl
  | a :: x, h => by
      have ha : a ≠ d := h a (List.mem_cons_self _ _)
      have ih := countStr_append_heads d ds y x (fun b hb => h b (List.mem_cons_of_mem _ hb))
      simp [countStr, ha, ih]

/-- Pieces without `<` joined by `<br>` hold no start of a word that begins
with `<` and is not a beginning of `<br>`. -/
theorem countStr_joined (ds v : Str) (hds : ds.head? ≠ some 'b') (hne : ds ≠ []) :
    ∀ (rest : List Str) (E : Str), '<' ∉ E → (∀ F ∈ rest, '<' ∉ F) →
      countStr ('<' :: ds) (E ++ (rest.flatMap (fun F => "<br>".toList ++ F) ++ v)) =
        countStr ('<' :: ds) v
  | [], E, hE, _ => by
      simpa using countStr_append_heads '<' ds v E (fun a ha => by rintro rfl; exact hE ha)
  | F :: rest, E, hE, h => by
      have ih := countStr_joined ds v hds hne rest F (h F (List.mem_cons_self _ _))
        (fun G hG => h G (List.mem_cons_of_mem _ hG))
      rw [countStr_append_heads '<' ds _ E (fun a ha => by rintro rfl; exact hE ha)]
      have e : (F :: rest).flatMap (fun F => "<br>".toList ++ F) ++ v =
          '<' :: ("br>".toList ++ (F ++ (rest.flatMap (fun F => "<br>".toList ++ F) ++ v))) := by
        simp
      have hp : hasPrefix ('<' :: ("br>".toList ++
          (F ++ (rest.flatMap (fun F => "<br>".toList ++ F) ++ v)))) ('<' :: ds) = false := by
        cases ds with
        | nil => exact absurd rfl hne
        | cons a ds =>
          have : a ≠ 'b' := fun e => hds (by simp [e])
          simp [Ne.symm this]
      rw [e, countStr, hp, countStr_append_heads '<' ds _ "br>".toList (by decide), ih]
      simp

theorem one_pre (E : Str) (Rs : List Str) (hE : '<' ∉ E) (hR : ∀ F ∈ Rs, '<' ∉ F) :
    countStr "<pre>".toList ("<p><pre>".toList ++
        (E ++ Rs.flatMap (fun F => "<br>".toList ++ F)) ++ "</pre></p>".toList) = 1 ∧
    countStr "</pre>".toList ("<p><pre>".toList ++
        (E ++ Rs.flatMap (fun F => "<br>".toList ++ F)) ++ "</pre></p>".toList) = 1 := by
  have h1 := countStr_joined "pre>".toList "</pre></p>".toList (by decide) (by decide) Rs E hE hR
  have h2 := countStr_joined "/pre>".toList "</pre></p>".toList (by decide) (by decide) Rs E hE hR
  have e : "<p><pre>".toList ++ (E ++ Rs.flatMap (fun F => "<br>".toList ++ F)) ++
      "</pre></p>".toList =
      '<' :: ("p>".toList ++ ('<' :: ("pre>".toList ++
        (E ++ (Rs.flatMap (fun F => "<br>".toList ++ F) ++ "</pre></p>".toList))))) := by
    simp
  rw [e]
  constructor
  · have a1 : ∀ Y : Str, hasPrefix ('<' :: ("p>".toList ++ Y)) "<pre>".toList = false := by
      intro Y; simp
    have a2 : ∀ Y : Str, hasPrefix ('<' :: ("pre>".toList ++ Y)) ('<' :: "pre>".toList) = true := by
      intro Y; simp
    have c1 := countStr_append_heads '<' "pre>".toList
    rw [countStr, a1]
    show 0 + countStr ('<' :: "pre>".toList) _ = 1
    rw [c1 _ "p>".toList (by decide), countStr, a2, c1 _ "pre>".toList (by decide), h1]
    decide
  · have a1 : ∀ Y : Str, hasPrefix ('<' :: ("p>".toList ++ Y)) "</pre>".toList = false := by
      intro Y; simp
    have a2 : ∀ Y : Str, hasPrefix ('<' :: ("pre>".toList ++ Y)) ('<' :: "/pre>".toList) = false := by
      intro Y; simp
    have c1 := countStr_append_heads '<' "/pre>".toList
    rw [countStr, a1]
    show 0 + countStr ('<' :: "/pre>".toList) _ = 1
    rw [c1 _ "p>".toList (by decide), countStr, a2, c1 _ "pre>".toList (by decide), h2]
    decide

set_option maxRecDepth 100000 in
/-- C5 as stated fails for the single line `    *x*` and for the single line
`    see http://a.bc now`: the italic and the link step rewrite the content
inside the `<pre>` region, so the escaped content does not occur in the rendered
text.  And under the empty word list it fails in the state of the cache that a
call of `censor` under the word list `foo` leaves: the rendered text of the
claim's example has four asterisks in front of every character and holds
neither `<pre>` nor `</pre>`. -/
theorem C5_counterexample :
    (formatComment panicLib [] (CensorCache.initial Unit) "    *x*".toList =
        (some ("<p><pre><em>x</em></pre></p>".toList), CensorCache.initial Unit) ∧
      containsStr (HTMLEscapeString "*x*".toList) "<p><pre><em>x</em></pre></p>".toList
        = false) ∧
    (formatComment panicLib [] (CensorCache.initial Unit) "    see http://a.bc now".toList =
        (some "<p><pre>see <a href=\"http://a.bc\">http://a.bc</a> now</pre></p>".toList,
          CensorCache.initial Unit) ∧
      containsStr (HTMLEscapeString "see http://a.bc now".toList)
        "<p><pre>see <a href=\"http://a.bc\">http://a.bc</a> now</pre></p>".toList
        = false) ∧
    Reachable (goRegexp (fun _ => none))
      (censor (goRegexp (fun _ => none)) "foo".toList (CensorCache.initial Re) "x".toList).2 ∧
    (formatComment (goRegexp (fun _ => none)) []
      (censor (goRegexp (fun _ => none)) "foo".toList (CensorCache.initial Re) "x".toList).2
      "    a\n    b".toList).1 =
      some "****<****p****>****<****p****r****e****>****a****<****b****r****>****b****<****/****p****r****e****>****<****/****p****>****".toList ∧
    countStr "<pre>".toList
      "****<****p****>****<****p****r****e****>****a****<****b****r****>****b****<****/****p****r****e****>****<****/****p****>****".toList = 0 ∧
    countStr "</pre>".toList
      "****<****p****>****<****p****r****e****>****a****<****b****r****>****b****<****/****p****r****e****>****<****/****p****>****".toList = 0 := by
  refine ⟨by decide, by decide, Reachable.call _ _ _ Reachable.start, rfl, by decide,
    by decide⟩

/-! ## Bold text -/

theorem lineBreaks_id (s : Str) (h : '\n' ∉ s) : lineBreaks s = s := by
  unfold lineBreaks
  have e1 : stringsReplace s "\n\n".toList "</p><p>".toList = s :=
    stringsReplace_id s _ _ (containsStr_of_not_mem '\n' ['\n'] _ h)
  rw [e1]
  exact stringsReplace_id s _ _ (containsStr_of_not_mem '\n' [] _ h)

/-- The code-block step leaves a one-line text without `<` that starts neither
with a fence nor with four spaces unchanged. -/
theorem codeBlocks_id (s : Str) (hnl : '\n' ∉ s) (hlt : '<' ∉ s)
    (h1 : hasPrefix s "```".toList = false) (h2 : hasPrefix s "    ".toList = false) :
    codeBlocks s = s := by
  unfold codeBlocks
  split_ifs
  · apply replaceAllString_id
    intro t ht
    apply run_code_nil
    · intro hl
      rw [ht.eq_of_length hl]
      exact h1
    · exact hasPrefix_head_ne '\n' _ t (head_ne_of_not_mem '\n' s t hnl ht)
  · rw [oldCode_id _ _ h2 hnl]
    exact stringsReplace_id _ _ _ (containsStr_of_not_mem _ _ _ hlt)

theorem bold_whole (E : Str) (hE : E ≠ []) (hp : ∀ c ∈ E, notStarNl c = true) :
    replaceAllString boldRe boldTpl ("**".toList ++ E ++ "**".toList) =
      "<b>".toList ++ E ++ "</b>".toList := by
  unfold replaceAllString
  have hm := matchAt_bold_intro boldTpl ("**".toList ++ E ++ "**".toList).length E [] hE hp
  have step := rewriteAux_match _ ("**".toList ++ E ++ "**".toList) [] _ false (by simp) hm
  rw [List.append_nil] at step
  rw [step, rewriteAux_id _ [] true ?_]
  · simp [boldTpl, expand, getCap]
  · intro t ht
    have : t = [] := List.eq_nil_of_suffix_nil ht
    subst this
    unfold matchAt
    rw [run_bold_nil _ _ [] (by simp)]
    rfl

/-- The rendering of a text between bold markers, before `censor`. -/
theorem formatted_bold (t : Str) (hne : t ≠ []) (hst : '*' ∉ t) (hnl : '\n' ∉ t)
    (hcr : '\r' ∉ t) (hurl : noUrl t) :
    formatted ("**".toList ++ t ++ "**".toList) =
      "<p><b>".toList ++ HTMLEscapeString t ++ "</b></p>".toList := by
  have hcr2 : '\r' ∉ "**".toList ++ t ++ "**".toList := by
    simp only [List.mem_append, not_or]
    exact ⟨⟨by decide, hcr⟩, by decide⟩
  have e0 : stripCR ("**".toList ++ t ++ "**".toList) = "**".toList ++ t ++ "**".toList :=
    stringsReplace_id _ _ _ (containsStr_of_not_mem _ _ _ hcr2)
  have e1 : HTMLEscapeString ("**".toList ++ t ++ "**".toList) =
      "**".toList ++ HTMLEscapeString t ++ "**".toList := by
    rw [HTMLEscapeString_append, HTMLEscapeString_append]
    rfl
  have hE1 : '\n' ∉ HTMLEscapeString t := not_mem_escape _ (by decide) _ hnl
  have hE2 : '*' ∉ HTMLEscapeString t := not_mem_escape _ (by decide) _ hst
  have hE3 : '<' ∉ HTMLEscapeString t := lt_not_mem_escape _
  have hnl2 : '\n' ∉ "**".toList ++ HTMLEscapeString t ++ "**".toList := by
    simp only [List.mem_append, not_or]
    exact ⟨⟨by decide, hE1⟩, by decide⟩
  have hlt2 : '<' ∉ "**".toList ++ HTMLEscapeString t ++ "**".toList := by
    simp only [List.mem_append, not_or]
    exact ⟨⟨by decide, hE3⟩, by decide⟩
  have e2 : codeBlocks ("**".toList ++ HTMLEscapeString t ++ "**".toList) =
      "**".toList ++ HTMLEscapeString t ++ "**".toList :=
    codeBlocks_id _ hnl2 hlt2 (by simp) (by simp)
  have e3 := lineBreaks_id _ hnl2
  have e4 := bold_whole (HTMLEscapeString t) (HTMLEscapeString_ne_nil _ hne) (by
    intro c hc
    simp only [notStarNl, Bool.and_eq_true, bne_iff_ne, ne_eq]
    exact ⟨fun e => hE2 (e ▸ hc), fun e => hE1 (e ▸ hc)⟩)
  have hst3 : '*' ∉ "<b>".toList ++ HTMLEscapeString t ++ "</b>".toList := by
    simp only [List.mem_append, not_or]
    exact ⟨⟨by decide, hE2⟩, by decide⟩
  have hurl3 : noUrl ("<b>".toList ++ HTMLEscapeString t ++ "</b>".toList) := by
    rw [List.append_assoc]
    exact noUrl_wrap _ _ _ (by decide) (by decide) (by decide) (noUrl_escape _ hurl)
  unfold formatted
  simp only [e0, e1, e2, e3, e4]
  rw [italic_id _ _ hst3, link_id _ _ hurl3]
  simp

/-- C6 (amended): with the empty word list and the censor cache in its initial
state, a non-empty text without asterisk, newline, carriage return and URL
scheme, put between two `**` markers, is rendered as the escaped text inside one
`<b>` tag inside the paragraph; the rendered text has no `*` and no `<em>` tag. -/
theorem C6_bold_is_not_consumed_by_italic {R : Type} (lib : RegexpLib R) (t : Str)
    (hne : t ≠ []) (hst : '*' ∉ t) (hnl : '\n' ∉ t) (hcr : '\r' ∉ t) (hurl : noUrl t) :
    ∃ out, formatComment lib [] (CensorCache.initial R) ("**".toList ++ t ++ "**".toList) =
        (some out, CensorCache.initial R) ∧
      out = "<p><b>".toList ++ HTMLEscapeString t ++ "</b></p>".toList ∧
      '*' ∉ out ∧ containsStr "<em>".toList out = false := by
  refine ⟨_, ?_, rfl, ?_, ?_⟩
  · rw [formatComment, formatted_bold t hne hst hnl hcr hurl, censor_initial]
  · simp only [List.mem_append, not_or]
    exact ⟨⟨by decide, not_mem_escape _ (by decide) _ hst⟩, by decide⟩
  · have h2 : containsStr "<em>".toList (HTMLEscapeString t ++ "</b></p>".toList) = false :=
      (containsStr_append_heads '<' "em>".toList _ (HTMLEscapeString t)
        (fun a ha => by rintro rfl; exact lt_not_mem_escape t ha)).trans (by decide)
    have h3 : ∀ Y : Str, containsStr "<em>".toList ("<p><b>".toList ++ Y) =
        containsStr "<em>".toList Y := by
      intro Y
      simp [containsStr]
    rw [List.append_assoc, h3]
    exact h2

/-- C6 (amended) at the claim's example `**bold**`. -/
theorem C6_bold_witness :
    ∃ out, formatComment panicLib [] (CensorCache.initial Unit) "**bold**".toList =
        (some out, CensorCache.initial Unit) ∧
      out = "<p><b>bold</b></p>".toList ∧
      '*' ∉ out ∧ containsStr "<em>".toList out = false :=
  C6_bold_is_not_consumed_by_italic panicLib "bold".toList (by decide) (by decide) (by decide)
    (by decide) (by decide)

set_option maxRecDepth 100000 in
/-- C6 as stated, for every state of the cache under the empty word list, fails
in the state that a call of `censor` under the word list `foo` leaves: the
rendered text of `**bold**` has four asterisks in front of every character and
at the end, so it is not the claimed text and it holds the character `*`. -/
theorem C6_counterexample :
    Reachable (goRegexp (fun _ => none))
      (censor (goRegexp (fun _ => none)) "foo".toList (CensorCache.initial Re) "x".toList).2 ∧
    (formatComment (goRegexp (fun _ => none)) []
      (censor (goRegexp (fun _ => none)) "foo".toList (CensorCache.initial Re) "x".toList).2
      "**bold**".toList).1 =
      some "****<****p****>****<****b****>****b****o****l****d****<****/****b****>****<****/****p****>****".toList ∧
    '*' ∈ "****<****p****>****<****b****>****b****o****l****d****<****/****b****>****<****/****p****>****".toList := by
  refine ⟨Reachable.call _ _ _ Reachable.start, rfl, by decide⟩

/-! ## Matches do not depend on the text that follows them -/

theorem run_seq_assoc (n : Nat) (a b c : Re) (st : MState) :
    run n (.seq a (.seq b c)) st = run n (.seq (.seq a b) c) st := by
  show (run n a st).flatMap (fun m => (run n b m).flatMap (run n c)) =
    ((run n a st).flatMap (run n b)).flatMap (run n c)
  exact (List.flatMap_assoc _ _ _).symm

theorem run_seq_congr (n : Nat) (a b b2 : Re) (h : ∀ st, run n b st = run n b2 st)
    (st : MState) : run n (.seq a b) st = run n (.seq a b2) st := by
  simp only [run_seq]
  congr 1
  funext m
  exact h m

theorem mem_starRun_intro (p : Char → Bool) (caps : Caps) (z : Str) :
    ∀ x : Str, (∀ c ∈ x, p c = true) → (caps, z) ∈ starRun p caps (x ++ z)
  | [], _ => by
      cases z with
      | nil => simp [starRun]
      | cons a z =>
        simp only [List.nil_append, starRun]
        split_ifs <;> simp
  | c :: x, h => by
      have hc : p c = true := h c (List.mem_cons_self _ _)
      have ih := mem_starRun_intro p caps z x (fun d hd => h d (List.mem_cons_of_mem _ hd))
      simp only [List.cons_append, starRun, hc, if_true, List.mem_append]
      exact Or.inl ih

/-- A way in which a pattern without anchors matches a beginning `x` of a text
is also a way in which it matches `x` in front of any other text. -/
theorem run_context (n n2 : Nat) : ∀ (re : Re), Re.anchorFree re = true →
    ∀ (caps caps2 : Caps) (x z z2 : Str), (caps2, z) ∈ run n re (caps, x ++ z) →
      (caps2, z2) ∈ run n2 re (caps, x ++ z2)
  | .eps, _, caps, caps2, x, z, z2, h => by
      simp only [run_eps, List.mem_singleton, Prod.mk.injEq] at h ⊢
      have : x = [] := by
        have := congrArg List.length h.2
        simp only [List.length_append] at this
        exact List.length_eq_zero.1 (by omega)
      subst this
      exact ⟨h.1, rfl⟩
  | .cls p, _, caps, caps2, [], z, z2, h => by
      have := run_progress n (.cls p) rfl _ _ h
      simp at this
  | .cls p, _, caps, caps2, c :: x, z, z2, h => by
      simp only [List.cons_append, run_cls_cons] at h ⊢
      split_ifs at h with hp
      · simp only [List.mem_singleton, Prod.mk.injEq] at h
        have : x = [] := by
          have := congrArg List.length h.2
          simp only [List.length_append] at this
          exact List.length_eq_zero.1 (by omega)
        subst this
        simp [hp, h.1]
      · simp at h
  | .star p, _, caps, caps2, x, z, z2, h => by
      obtain ⟨h1, y, h2, h3⟩ := mem_starRun p caps (x ++ z) _ h
      simp only at h1 h2 h3
      have : y = x := List.append_cancel_right h2.symm
      subst this
      rw [h1]
      exact mem_starRun_intro p caps z2 y h3
  | .seq a b, haf, caps, caps2, x, z, z2, h => by
      simp only [Re.anchorFree, Bool.and_eq_true] at haf
      simp only [run_seq, List.mem_flatMap] at h ⊢
      obtain ⟨⟨mc, ms⟩, hm, hr⟩ := h
      obtain ⟨x1, e1⟩ := run_rest n a _ _ hm
      obtain ⟨x2, e2⟩ := run_rest n b _ _ hr
      simp only at e1 e2
      subst e2
      have ex : x = x1 ++ x2 := by
        rw [← List.append_assoc] at e1
        exact List.append_cancel_right e1
      subst ex
      rw [List.append_assoc] at hm
      refine ⟨(mc, x2 ++ z2), ?_, ?_⟩
      · have := run_context n n2 a haf.1 caps mc x1 (x2 ++ z) (x2 ++ z2) hm
        rw [List.append_assoc]
        exact this
      · exact run_context n n2 b haf.2 mc caps2 x2 z z2 hr
  | .alt a b, haf, caps, caps2, x, z, z2, h => by
      simp only [Re.anchorFree, Bool.and_eq_true] at haf
      simp only [run_alt, List.mem_append] at h ⊢
      rcases h with h | h
      · exact Or.inl (run_context n n2 a haf.1 caps caps2 x z z2 h)
      · exact Or.inr (run_context n n2 b haf.2 caps caps2 x z z2 h)
  | .grp i a, haf, caps, caps2, x, z, z2, h => by
      simp only [run_grp, List.mem_map, Prod.mk.injEq] at h ⊢
      obtain ⟨⟨mc, ms⟩, hm, h1, h2⟩ := h
      simp only at h1 h2
      subst h2
      refine ⟨(mc, z2), run_context n n2 a haf caps mc x ms z2 hm, ?_, rfl⟩
      rw [← h1]
      simp

/-- The first match of a sequence, when every match of the second part that
follows a match of the first ends at the same place. -/
theorem head_flatMap_of_forall {α β : Type} (P : β → Prop) (f : α → List β) :
    ∀ L : List α, (∀ m ∈ L, ∀ v ∈ (f m).head?, P v) → (∃ m ∈ L, f m ≠ []) →
      ∃ v, (L.flatMap f).head? = some v ∧ P v
  | [], _, h => by
      obtain ⟨m, hm, _⟩ := h
      simp at hm
  | a :: L, h1, h2 => by
      cases hfa : f a with
      | nil =>
        have h3 : ∃ m ∈ L, f m ≠ [] := by
          obtain ⟨m, hm, hne⟩ := h2
          rcases List.mem_cons.1 hm with rfl | hm
          · exact absurd hfa hne
          · exact ⟨m, hm, hne⟩
        obtain ⟨v, hv, hP⟩ := head_flatMap_of_forall P f L
          (fun m hm => h1 m (List.mem_cons_of_mem _ hm)) h3
        exact ⟨v, by simpa [hfa] using hv, hP⟩
      | cons v l =>
        refine ⟨v, by simp [hfa], ?_⟩
        exact h1 a (List.mem_cons_self _ _) v (by simp [hfa])

/-! ## The URL pattern -/

theorem run_linkRe_split (n : Nat) (st : MState) :
    run n linkRe st = (run n linkHead st).flatMap (run n linkTail) := by
  rw [← run_seq]
  unfold linkRe linkHead linkTail
  refine (run_seq_congr n _ _ _ (fun st1 => ?_) st).trans (run_seq_assoc n _ _ _ st)
  refine (run_seq_congr n _ _ _ (fun st2 => ?_) st1).trans (run_seq_assoc n _ _ _ st1)
  refine (run_seq_congr n _ _ _ (fun st3 => ?_) st2).trans (run_seq_assoc n _ _ _ st2)
  exact run_seq_assoc n _ _ _ st3

theorem urlCh_of_urlEndCh (c : Char) (h : urlEndCh c = true) : urlCh c = true := by
  simp [urlCh, h]

/-- The greedy run with the first place, from the end, where the rest matches,
when the run is followed by a character outside it. -/
theorem starRun_flatMap_back {β : Type} (p : Char → Bool) (caps : Caps) (f : MState → List β)
    (e : Char) (y : Str) (v : β) (l : List β) (he : p e = true)
    (hy : ∀ c ∈ y.head?, p c = false)
    (hfe : f (caps, e :: y) = v :: l) (hfy : f (caps, y) = []) :
    ∀ x : Str, (∀ c ∈ x, p c = true) →
      ((starRun p caps (x ++ e :: y)).flatMap f).head? = some v
  | [], _ => by
      have hy2 : starRun p caps y = [(caps, y)] := by
        cases y with
        | nil => rfl
        | cons a y =>
          have : p a = false := hy a (by simp)
          simp [starRun, this]
      simp [starRun, he, hy2, hfy, hfe]
  | c :: x, h => by
      have hc : p c = true := h c (List.mem_cons_self _ _)
      have ih := starRun_flatMap_back p caps f e y v l he hy hfe hfy x
        (fun d hd => h d (List.mem_cons_of_mem _ hd))
      simp only [List.cons_append, starRun, hc, if_true, List.flatMap_append]
      cases hA : (starRun p caps (x ++ e :: y)).flatMap f with
      | nil => simp [hA] at ih
      | cons a A =>
        rw [hA] at ih
        simpa using ih

/-- The last two classes of `linkRe` on a run of URL characters that ends with
a character of the last class and is followed by none: the match takes the
whole run, and there is none when the run is empty. -/
theorem run_linkTail_head (n : Nat) (caps : Caps) (r y : Str)
    (hr : ∀ c ∈ r, urlCh c = true) (hlast : ∀ c ∈ r.getLast?, urlEndCh c = true)
    (hy : ∀ c ∈ y.head?, urlCh c = false) :
    (run n linkTail (caps, r ++ y)).head? = if r = [] then none else some (caps, y) := by
  have hfy : run n (.cls urlEndCh) (caps, y) = [] := by
    cases y with
    | nil => rfl
    | cons a y =>
      have h1 : urlCh a = false := hy a (by simp)
      have h2 : urlEndCh a = false := by
        by_contra h
        simp only [Bool.not_eq_false] at h
        rw [urlCh_of_urlEndCh a h] at h1
        exact Bool.noConfusion h1
      simp [h2]
  rw [linkTail, run_seq, run_star]
  rcases List.eq_nil_or_concat r with rfl | ⟨x, e, rfl⟩
  · have hy2 : starRun urlCh caps y = [(caps, y)] := by
      cases y with
      | nil => rfl
      | cons a y =>
        have : urlCh a = false := hy a (by simp)
        simp [starRun, this]
    simp [hy2, hfy]
  · have he : urlEndCh e = true := hlast e (by simp)
    have hx : ∀ c ∈ x, urlCh c = true := fun c hc => hr c (by simp [hc])
    have := starRun_flatMap_back urlCh caps (run n (.cls urlEndCh)) e y (caps, y) []
      (urlCh_of_urlEndCh e he) hy (by simp [he]) hfy x hx
    simp only [List.concat_eq_append, List.append_assoc, List.singleton_append] at this ⊢
    rw [this]
    simp

theorem isAlnum_url (c : Char) (h : isAlnum c = true) : urlCh c = true := by
  simp [urlCh, urlEndCh, h]

theorem hostCh_url (c : Char) (h : hostCh c = true) : urlCh c = true := by
  simp only [hostCh, Bool.or_eq_true, beq_iff_eq] at h
  rcases h with h | h
  · exact isAlnum_url c h
  · subst h; decide

theorem hostDotCh_url (c : Char) (h : hostDotCh c = true) : urlCh c = true := by
  simp only [hostDotCh, Bool.or_eq_true, beq_iff_eq] at h
  rcases h with (h | h) | h
  · exact isAlnum_url c h
  · subst h; decide
  · subst h; decide

theorem isDigit_url (c : Char) (h : isDigit c = true) : urlCh c = true := by
  apply isAlnum_url
  simp only [isDigit] at h
  simp [isAlnum, h]

theorem not_special_of (p : Char → Bool) (hp : ∀ d, special d = true → p d = false) (c : Char)
    (h : p c = true) : special c = false := by
  by_contra hs
  simp only [Bool.not_eq_false] at hs
  rw [hp c hs] at h
  exact Bool.noConfusion h

theorem special_cases (d : Char) (h : special d = true) :
    d = '&' ∨ d = '<' ∨ d = '>' ∨ d = Char.ofNat 34 ∨ d = Char.ofNat 39 ∨ d = Char.ofNat 0 := by
  simp only [special, Bool.or_eq_true, beq_iff_eq] at h
  tauto

theorem hostDotCh_not_special (c : Char) (h : hostDotCh c = true) : special c = false :=
  not_special_of hostDotCh (fun d hd => by
    rcases special_cases d hd with h | h | h | h | h | h <;> subst h <;> decide) c h

theorem hostCh_not_special (c : Char) (h : hostCh c = true) : special c = false :=
  not_special_of hostCh (fun d hd => by
    rcases special_cases d hd with h | h | h | h | h | h <;> subst h <;> decide) c h

theorem isDigit_not_special (c : Char) (h : isDigit c = true) : special c = false :=
  not_special_of isDigit (fun d hd => by
    rcases special_cases d hd with h | h | h | h | h | h <;> subst h <;> decide) c h

theorem linkRe_within_url : Re.within (fun c => urlCh c = true) linkRe := by
  simp only [linkRe, lit, chr, opt, plus, Re.within, String.toList]
  repeat' constructor
  all_goals first
    | trivial
    | exact hostCh_url
    | exact hostDotCh_url
    | exact isDigit_url
    | exact fun _ h => h
    | exact urlCh_of_urlEndCh
    | (intro c h; simp only [beq_iff_eq] at h; subst h; decide)

theorem linkHead_within : Re.within (fun c => special c = false ∧ urlCh c = true) linkHead := by
  simp only [linkHead, lit, chr, opt, plus, Re.within, String.toList]
  repeat' constructor
  all_goals first
    | trivial
    | exact fun c h => ⟨hostCh_not_special c h, hostCh_url c h⟩
    | exact fun c h => ⟨hostDotCh_not_special c h, hostDotCh_url c h⟩
    | exact fun c h => ⟨isDigit_not_special c h, isDigit_url c h⟩
    | (intro c h; simp only [beq_iff_eq] at h; subst h; decide)

theorem escape_id : ∀ x : Str, (∀ c ∈ x, special c = false) → HTMLEscapeString x = x
  | [], _ => rfl
  | c :: x, h => by
      rw [HTMLEscapeString_cons, escapeChar_plain c (h c (List.mem_cons_self _ _)),
        escape_id x (fun d hd => h d (List.mem_cons_of_mem _ hd))]
      rfl

theorem escapeChar_url (c : Char) (h : urlCh c = true) :
    (∀ d ∈ escapeChar c, urlCh d = true) ∧
      (urlEndCh c = true → ∀ d ∈ (escapeChar c).getLast?, urlEndCh d = true) := by
  by_cases hs : special c = true
  · simp only [special, Bool.or_eq_true, beq_iff_eq] at hs
    rcases hs with ((((hs | hs) | hs) | hs) | hs) | hs <;> subst hs
    · exact ⟨by decide, fun _ => by decide⟩
    all_goals exact absurd h (by decide)
  · simp only [Bool.not_eq_true] at hs
    rw [escapeChar_plain c hs]
    refine ⟨?_, ?_⟩
    · intro d hd
      simp only [List.mem_singleton] at hd
      rw [hd]; exact h
    · intro he d hd
      simp only [List.getLast?_singleton, Option.mem_def, Option.some.injEq] at hd
      rw [← hd]; exact he

theorem escape_url (x : Str) (h : ∀ c ∈ x, urlCh c = true) :
    ∀ d ∈ HTMLEscapeString x, urlCh d = true := by
  induction x with
  | nil => simp
  | cons c x ih =>
    intro d hd
    rw [HTMLEscapeString_cons] at hd
    rcases List.mem_append.1 hd with h1 | h1
    · exact (escapeChar_url c (h c (List.mem_cons_self _ _))).1 d h1
    · exact ih (fun e he => h e (List.mem_cons_of_mem _ he)) d h1

theorem escape_concat_last (x : Str) (e : Char) (h1 : urlCh e = true) (h2 : urlEndCh e = true) :
    HTMLEscapeString (x ++ [e]) ≠ [] ∧
      ∀ d ∈ (HTMLEscapeString (x ++ [e])).getLast?, urlEndCh d = true := by
  have hne := escapeChar_ne_nil e
  rw [HTMLEscapeString_append]
  have e1 : HTMLEscapeString [e] = escapeChar e := by simp
  rw [e1]
  refine ⟨fun hn => hne (List.append_eq_nil.1 hn).2, ?_⟩
  intro d hd
  rw [List.getLast?_append_of_ne_nil _ hne] at hd
  exact (escapeChar_url e h1).2 h2 d hd

/-- The parts of a text that `linkRe` matches in full: what scheme, host and
port consume, then URL characters, then a last character of the final class. -/
theorem fullMatch_link_parts (u : Str) (hu : fullMatch linkRe u = true) :
    ∃ x1 x2 e caps1, u = x1 ++ (x2 ++ [e]) ∧
      (∀ c ∈ x1, special c = false ∧ urlCh c = true) ∧ (∀ c ∈ x2, urlCh c = true) ∧
      urlEndCh e = true ∧
      (caps1, x2 ++ [e]) ∈ run u.length linkHead ([], x1 ++ (x2 ++ [e])) := by
  simp only [fullMatch, List.any_eq_true] at hu
  obtain ⟨r, hr, hr2⟩ := hu
  rw [run_linkRe_split, List.mem_flatMap] at hr
  obtain ⟨⟨mc, ms⟩, hm, hr⟩ := hr
  rw [linkTail, run_seq, List.mem_flatMap] at hr
  obtain ⟨⟨sc, ss⟩, hs, hr⟩ := hr
  obtain ⟨h1, x2, h2, h3⟩ := mem_starRun urlCh mc ms _ hs
  simp only at h1 h2 h3
  obtain ⟨x1, h4, h5⟩ := run_consumed u.length _ linkHead linkHead_within _ _ hm
  simp only at h4
  cases ss with
  | nil => simp at hr
  | cons e rest =>
    simp only [run_cls_cons] at hr
    split_ifs at hr with he
    · simp only [List.mem_singleton] at hr
      subst hr
      simp only [List.isEmpty_iff] at hr2
      subst hr2
      subst h2
      refine ⟨x1, x2, e, mc, h4, h5, h3, he, ?_⟩
      rw [← h4]
      exact hm
    · simp at hr

theorem split_at_outside (p : Char → Bool) (c0 : Char) (hc0 : p c0 = false) :
    ∀ (xx m2 U y : Str), (∀ c ∈ xx, p c = true) → (∀ c ∈ U, p c = true) →
      xx ++ m2 = U ++ c0 :: y → ∃ rr, U = xx ++ rr ∧ m2 = rr ++ c0 :: y
  | [], m2, U, y, _, _, h => ⟨U, rfl, by simpa using h⟩
  | a :: xx, m2, [], y, hx, _, h => by
      simp only [List.cons_append, List.nil_append, List.cons.injEq] at h
      have := hx a (List.mem_cons_self _ _)
      rw [h.1, hc0] at this
      exact Bool.noConfusion this
  | a :: xx, m2, b :: U, y, hx, hU, h => by
      simp only [List.cons_append, List.cons.injEq] at h
      obtain ⟨rr, h1, h2⟩ := split_at_outside p c0 hc0 xx m2 U y
        (fun c hc => hx c (List.mem_cons_of_mem _ hc))
        (fun c hc => hU c (List.mem_cons_of_mem _ hc)) h.2
      exact ⟨rr, by rw [h.1, h1]; rfl, h2⟩

/-- The first match of `linkRe` at the escaped form of a text it matches in
full, followed by a character that is no URL character, is that escaped form. -/
theorem link_head (n : Nat) (u : Str) (hu : fullMatch linkRe u = true) (c0 : Char) (y : Str)
    (hc0 : urlCh c0 = false) :
    ∃ caps, (run n linkRe ([], HTMLEscapeString u ++ c0 :: y)).head? = some (caps, c0 :: y) := by
  obtain ⟨x1, x2, e, caps1, hu1, hx1, hx2, he, hmem⟩ := fullMatch_link_parts u hu
  have hUall : ∀ c ∈ HTMLEscapeString u, urlCh c = true := by
    apply escape_url
    intro c hc
    rw [hu1] at hc
    simp only [List.mem_append, List.mem_singleton] at hc
    rcases hc with hc | hc | hc
    · exact (hx1 c hc).2
    · exact hx2 c hc
    · rw [hc]; exact urlCh_of_urlEndCh e he
  have hlast := escape_concat_last x2 e (urlCh_of_urlEndCh e he) he
  have hU : HTMLEscapeString u = x1 ++ HTMLEscapeString (x2 ++ [e]) := by
    rw [hu1, HTMLEscapeString_append, escape_id x1 (fun c hc => (hx1 c hc).1)]
  have hUlast : ∀ d ∈ (HTMLEscapeString u).getLast?, urlEndCh d = true := by
    rw [hU, List.getLast?_append_of_ne_nil _ hlast.1]
    exact hlast.2
  rw [run_linkRe_split]
  have key := head_flatMap_of_forall (fun v : MState => v.2 = c0 :: y) (run n linkTail)
    (run n linkHead ([], HTMLEscapeString u ++ c0 :: y)) ?_ ?_
  · obtain ⟨v, hv1, hv2⟩ := key
    refine ⟨v.1, ?_⟩
    rw [hv1, ← hv2]
  · rintro ⟨mc, ms⟩ hm v hv
    obtain ⟨xx, h1, h2⟩ := run_consumed n _ linkHead linkHead_within _ _ hm
    simp only at h1
    obtain ⟨rr, h3, h4⟩ := split_at_outside urlCh c0 hc0 xx ms _ y (fun c hc => (h2 c hc).2)
      hUall h1.symm
    subst h4
    have hrr : ∀ c ∈ rr, urlCh c = true := fun c hc =>
      hUall c (by rw [h3]; exact List.mem_append_right _ hc)
    have hrl : ∀ c ∈ rr.getLast?, urlEndCh c = true := by
      intro c hc
      by_cases hrn : rr = []
      · subst hrn
        simp at hc
      · apply hUlast
        rw [h3, List.getLast?_append_of_ne_nil _ hrn]
        exact hc
    rw [run_linkTail_head n mc rr (c0 :: y) hrr hrl (by simpa using hc0)] at hv
    split_ifs at hv
    · simp at hv
    · simp only [Option.mem_def, Option.some.injEq] at hv
      rw [← hv]
  · have hctx := run_context u.length n linkHead rfl [] caps1 x1 (x2 ++ [e])
      (HTMLEscapeString (x2 ++ [e]) ++ c0 :: y) hmem
    rw [← List.append_assoc, ← hU] at hctx
    refine ⟨_, hctx, ?_⟩
    have := run_linkTail_head n caps1 (HTMLEscapeString (x2 ++ [e])) (c0 :: y)
      (fun c hc => hUall c (by rw [hU]; exact List.mem_append_right _ hc)) hlast.2
      (by simpa using hc0)
    rw [if_neg hlast.1] at this
    intro hn
    rw [hn] at this
    simp at this

theorem fullMatch_url_chars (u : Str) (hu : fullMatch linkRe u = true) :
    u ≠ [] ∧ ∀ c ∈ u, urlCh c = true := by
  obtain ⟨x1, x2, e, caps1, hu1, hx1, hx2, he, _⟩ := fullMatch_link_parts u hu
  refine ⟨by rw [hu1]; simp, ?_⟩
  intro c hc
  rw [hu1] at hc
  simp only [List.mem_append, List.mem_singleton] at hc
  rcases hc with hc | hc | hc
  · exact (hx1 c hc).2
  · exact hx2 c hc
  · rw [hc]; exact urlCh_of_urlEndCh e he

theorem not_mem_of_url (d : Char) (hd : urlCh d = false) (u : Str)
    (hu : ∀ c ∈ u, urlCh c = true) : d ∉ u := by
  intro hm
  rw [hu d hm] at hd
  exact Bool.noConfusion hd

theorem suffix_snoc (A z : Str) (c : Char) (hz : z ≠ []) (h : z <:+ A ++ [c]) :
    ∃ z2, z = z2 ++ [c] ∧ z2 <:+ A := by
  obtain ⟨y, hy⟩ := h
  rcases List.eq_nil_or_concat z with rfl | ⟨z2, d, rfl⟩
  · exact absurd rfl hz
  · simp only [List.concat_eq_append] at hy ⊢
    rw [← List.append_assoc] at hy
    have h1 := List.append_inj' hy rfl
    simp only [List.cons.injEq, and_true] at h1
    exact ⟨z2, by rw [h1.2], ⟨y, h1.1⟩⟩

/-- The auto-link step on escaped plain text, a space, the escaped form of a
text `linkRe` matches in full, a space, and escaped plain text. -/
theorem link_pass (A B u : Str) (hu : fullMatch linkRe u = true) (hA : noUrl A) (hB : noUrl B) :
    replaceAllString linkRe linkTpl
        ((A ++ [' ']) ++ (HTMLEscapeString u ++ ' ' :: B)) =
      (A ++ [' ']) ++ (expand (HTMLEscapeString u) [] linkTpl ++ ' ' :: B) := by
  unfold replaceAllString
  obtain ⟨caps, hh⟩ := link_head ((A ++ [' ']) ++ (HTMLEscapeString u ++ ' ' :: B)).length u hu ' ' B
    (by decide)
  have hUne : HTMLEscapeString u ≠ [] := HTMLEscapeString_ne_nil _ (fullMatch_url_chars u hu).1
  have hm : matchAt linkRe linkTpl ((A ++ [' ']) ++ (HTMLEscapeString u ++ ' ' :: B)).length
      (HTMLEscapeString u ++ ' ' :: B) =
      some (expand (HTMLEscapeString u) [] linkTpl, (HTMLEscapeString u).length) := by
    unfold matchAt
    rw [hh]
    have hk : (HTMLEscapeString u ++ ' ' :: B).length - (' ' :: B).length =
        (HTMLEscapeString u).length := by
      simp only [List.length_append]
      omega
    simp only [hk, List.take_left]
    rfl
  have hcopy : ∀ y z, A ++ [' '] = y ++ z → z ≠ [] →
      matchAt linkRe linkTpl ((A ++ [' ']) ++ (HTMLEscapeString u ++ ' ' :: B)).length
        (z ++ (HTMLEscapeString u ++ ' ' :: B)) = none := by
    intro y z hyz hz
    obtain ⟨z2, hz2, hz3⟩ := suffix_snoc A z ' ' hz ⟨y, hyz.symm⟩
    have hno : ∀ w : Str, ' ' ∉ w → w.head? = some 'h' → containsStr w A = false →
        hasPrefix (z ++ (HTMLEscapeString u ++ ' ' :: B)) w = false := by
      intro w hw1 hw2 hw3
      rw [hz2, List.append_assoc, List.singleton_append]
      cases z2 with
      | nil =>
        cases w with
        | nil => simp at hw2
        | cons d w =>
          simp only [List.head?_cons, Option.some.injEq] at hw2
          subst hw2
          simp
      | cons a z2 =>
        by_contra hp
        simp only [Bool.not_eq_false] at hp
        have := hasPrefix_cut ' ' _ (a :: z2) w (by simp)
          (fun hm => hw1 (List.mem_of_mem_tail hm)) hp
        rw [(containsStr_false w A).1 hw3 _ hz3] at this
        exact Bool.noConfusion this
    unfold matchAt
    rw [run_link_nil _ _ _ (hno _ (by decide) rfl hA.1) (hno _ (by decide) rfl hA.2)]
    rfl
  have hrest : ∀ t, t <:+ ' ' :: B →
      matchAt linkRe linkTpl ((A ++ [' ']) ++ (HTMLEscapeString u ++ ' ' :: B)).length t = none := by
    intro t ht
    have h1 : hasPrefix t "http://".toList = false ∧ hasPrefix t "https://".toList = false := by
      rcases List.suffix_cons_iff.1 ht with rfl | ht
      · exact ⟨rfl, rfl⟩
      · exact ⟨(containsStr_false _ B).1 hB.1 t ht, (containsStr_false _ B).1 hB.2 t ht⟩
    unfold matchAt
    rw [run_link_nil _ _ _ h1.1 h1.2]
    rfl
  rw [rewriteAux_copy _ _ (A ++ [' ']) false (by simp) hcopy,
    rewriteAux_match _ _ _ _ false hUne hm, rewriteAux_id _ _ true hrest]

/-- The rendering of a URL between two plain texts, before `censor`. -/
theorem formatted_link (a u b : Str) (hu : fullMatch linkRe u = true) (ha : plainText a)
    (hb : plainText b) (ha0 : a.head? ≠ some ' ') :
    formatted (a ++ " ".toList ++ u ++ " ".toList ++ b) =
      "<p>".toList ++ HTMLEscapeString a ++ (" <a href=".toList ++ [Char.ofNat 34]) ++
        HTMLEscapeString u ++ (Char.ofNat 34 :: ">".toList) ++ HTMLEscapeString u ++
        "</a> ".toList ++ HTMLEscapeString b ++ "</p>".toList := by
  obtain ⟨hune, huc⟩ := fullMatch_url_chars u hu
  obtain ⟨ha1, ha2, ha3, ha4, ha5⟩ := ha
  obtain ⟨hb1, hb2, hb3, hb4, hb5⟩ := hb
  have hT : a ++ " ".toList ++ u ++ " ".toList ++ b = (a ++ [' ']) ++ (u ++ ' ' :: b) := by
    simp
  have hmemT : ∀ d : Char, urlCh d = false → d ≠ ' ' → d ∉ a → d ∉ b →
      d ∉ (a ++ [' ']) ++ (u ++ ' ' :: b) := by
    intro d hd hsp h1 h2
    simp only [List.mem_append, List.mem_cons, List.mem_singleton, List.not_mem_nil, or_false,
      not_or]
    exact ⟨⟨h1, hsp⟩, not_mem_of_url d hd u huc, hsp, h2⟩
  have e0 : stripCR ((a ++ [' ']) ++ (u ++ ' ' :: b)) = (a ++ [' ']) ++ (u ++ ' ' :: b) :=
    stringsReplace_id _ _ _ (containsStr_of_not_mem _ _ _
      (hmemT '\r' (by decide) (by decide) ha1 hb1))
  have e1 : HTMLEscapeString ((a ++ [' ']) ++ (u ++ ' ' :: b)) =
      (HTMLEscapeString a ++ [' ']) ++ (HTMLEscapeString u ++ ' ' :: HTMLEscapeString b) := by
    have : ∀ x : Str, HTMLEscapeString (' ' :: x) = ' ' :: HTMLEscapeString x := fun x => rfl
    rw [HTMLEscapeString_append, HTMLEscapeString_append, HTMLEscapeString_append, this]
    rfl
  have hnl : '\n' ∉ HTMLEscapeString ((a ++ [' ']) ++ (u ++ ' ' :: b)) :=
    not_mem_escape _ (by decide) _ (hmemT '\n' (by decide) (by decide) ha2 hb2)
  have hst : '*' ∉ HTMLEscapeString ((a ++ [' ']) ++ (u ++ ' ' :: b)) :=
    not_mem_escape _ (by decide) _ (hmemT '*' (by decide) (by decide) ha3 hb3)
  have hbt : Char.ofNat 96 ∉ HTMLEscapeString ((a ++ [' ']) ++ (u ++ ' ' :: b)) :=
    not_mem_escape _ (by decide) _ (hmemT (Char.ofNat 96) (by decide) (by decide) ha4 hb4)
  have hlt := lt_not_mem_escape ((a ++ [' ']) ++ (u ++ ' ' :: b))
  have hsp : hasPrefix (HTMLEscapeString ((a ++ [' ']) ++ (u ++ ' ' :: b))) "    ".toList =
      false := by
    rw [hasPrefix_escape _ (by decide)]
    cases a with
    | nil =>
      cases u with
      | nil => exact absurd rfl hune
      | cons c u =>
        have : c ≠ ' ' := by
          rintro rfl
          exact absurd (huc ' ' (List.mem_cons_self _ _)) (by decide)
        simp [this]
    | cons c a =>
      have : c ≠ ' ' := fun e => ha0 (by simp [e])
      simp [this]
  have hbt2 : hasPrefix (HTMLEscapeString ((a ++ [' ']) ++ (u ++ ' ' :: b))) "```".toList =
      false :=
    hasPrefix_head_ne _ _ _ (head_ne_of_not_mem _ _ _ hbt (List.suffix_refl _))
  have e2 := codeBlocks_id _ hnl hlt hbt2 hsp
  have e3 := lineBreaks_id _ hnl
  have e4 := link_pass (HTMLEscapeString a) (HTMLEscapeString b) u hu (noUrl_escape a ha5)
    (noUrl_escape b hb5)
  rw [hT]
  unfold formatted
  simp only [e0, e2, e3]
  rw [bold_id _ _ hst, italic_id _ _ hst, e1, e4]
  simp [linkTpl, expand]

/-- C7 (amended): with the empty word list and the censor cache in its initial
state, for every text `u` that `linkRe` matches in full and all plain texts `a`
and `b` (`a` empty or beginning with a character other than the space),
`a + " " + u + " " + b` is rendered as the escaped `a`, a link whose target and
label are both the escaped `u`, and the escaped `b`. -/
theorem C7_link_wraps_exactly_the_url {R : Type} (lib : RegexpLib R) (a u b : Str)
    (hu : fullMatch linkRe u = true) (ha : plainText a) (hb : plainText b)
    (ha0 : a.head? ≠ some ' ') :
    formatComment lib [] (CensorCache.initial R) (a ++ " ".toList ++ u ++ " ".toList ++ b) =
      (some ("<p>".toList ++ HTMLEscapeString a ++ (" <a href=".toList ++ [Char.ofNat 34]) ++
        HTMLEscapeString u ++ (Char.ofNat 34 :: ">".toList) ++ HTMLEscapeString u ++
        "</a> ".toList ++ HTMLEscapeString b ++ "</p>".toList), CensorCache.initial R) := by
  rw [formatComment, formatted_link a u b hu ha hb ha0, censor_initial]

/-- C7 (amended) at the claim's example `see https://example.com/page?q=1 now`. -/
theorem C7_link_witness :
    formatComment panicLib [] (CensorCache.initial Unit)
        "see https://example.com/page?q=1 now".toList =
      (some (("<p>see <a href=".toList ++ [Char.ofNat 34]) ++ "https://example.com/page?q=1".toList
        ++ (Char.ofNat 34 :: ">".toList) ++ "https://example.com/page?q=1</a> now</p>".toList),
        CensorCache.initial Unit) :=
  C7_link_wraps_exactly_the_url panicLib "see".toList "https://example.com/page?q=1".toList
    "now".toList (by decide) (by decide) (by decide) (by decide)

set_option maxRecDepth 100000 in
/-- C7 as stated, for every state of the cache under the empty word list, fails
in the state that a call of `censor` under the word list `foo` leaves: the
rendered text of `a http://a.bc b` has four asterisks in front of every character
and at the end, so it is not the claimed text. -/
theorem C7_counterexample :
    fullMatch linkRe "http://a.bc".toList = true ∧
    Reachable (goRegexp (fun _ => none))
      (censor (goRegexp (fun _ => none)) "foo".toList (CensorCache.initial Re) "x".toList).2 ∧
    (formatComment (goRegexp (fun _ => none)) []
      (censor (goRegexp (fun _ => none)) "foo".toList (CensorCache.initial Re) "x".toList).2
      "a http://a.bc b".toList).1 =
      some "****<****p****>****a**** ****<****a**** ****h****r****e****f****=****\"****h****t****t****p****:****/****/****a****.****b****c****\"****>****h****t****t****p****:****/****/****a****.****b****c****<****/****a****>**** ****b****<****/****p****>****".toList ∧
    "****<****p****>****a**** ****<****a**** ****h****r****e****f****=****\"****h****t****t****p****:****/****/****a****.****b****c****\"****>****h****t****t****p****:****/****/****a****.****b****c****<****/****a****>**** ****b****<****/****p****>****".toList ≠
      "<p>a <a href=\"http://a.bc\">http://a.bc</a> b</p>".toList := by
  refine ⟨by decide, Reachable.call _ _ _ Reachable.start, rfl, by decide⟩

/-! ## The quote pattern -/

theorem head_flatMap_cons {α β : Type} (f : α → List β) (a : α) (L : List α) (v : β)
    (h : (f a).head? = some v) : ((a :: L).flatMap f).head? = some v := by
  cases hfa : f a with
  | nil => simp [hfa] at h
  | cons w l =>
    rw [hfa] at h
    simpa [hfa] using h

theorem head_append_left {β : Type} (A B : List β) (v : β) (h : A.head? = some v) :
    (A ++ B).head? = some v := by
  cases A with
  | nil => simp at h
  | cons a A => simpa using h

theorem dropWhile_replicate_append (p : Char → Bool) (g : Char) (hg : p g = true) (y : Str)
    (hy : ∀ c ∈ y.head?, p c = false) (k : Nat) :
    (List.replicate k g ++ y).dropWhile p = y :=
  (takeWhile_append_stop p y hy (List.replicate k g)
    (fun c hc => by rw [List.eq_of_mem_replicate hc]; exact hg)).2

/-- The part of `quoteRe` after the first group, on the blanks and the content
of a line. -/
theorem run_quoteBody (n : Nat) (caps : Caps) (s : Nat) (d : Char) (c rest : Str)
    (hd : nonSpace d = true) (hc : '\n' ∉ c) (hrest : ∀ a ∈ rest.head?, a = '\n') :
    (run n (.seq (.star (fun c => c == ' ')) (.grp 2 (.seq (.cls nonSpace) (.star notNl))))
      (caps, List.replicate s ' ' ++ (d :: c ++ rest))).head? =
      some ((2, d :: c) :: caps, rest) := by
  have hdsp : d ≠ ' ' := by
    rintro rfl
    exact absurd hd (by decide)
  obtain ⟨l, hl⟩ := starRun_head (fun c => c == ' ') caps
    (List.replicate s ' ' ++ (d :: c ++ rest))
  rw [dropWhile_replicate_append _ ' ' (by simp) _ (by simpa using hdsp)] at hl
  rw [run_seq, run_star]
  simp only
  rw [hl]
  apply head_flatMap_cons
  obtain ⟨l2, hl2⟩ := starRun_head notNl caps (c ++ rest)
  have hstop := takeWhile_append_stop notNl rest (fun a ha => by rw [hrest a ha]; rfl) c
    (fun a ha => by
      simp only [notNl, bne_iff_ne, ne_eq]
      rintro rfl
      exact hc ha)
  rw [hstop.2] at hl2
  rw [run_grp, run_seq]
  simp only [List.cons_append, run_cls_cons, hd, if_true, List.flatMap_cons, List.flatMap_nil,
    List.append_nil, run_star, hl2, List.map_cons, List.head?_cons, Option.some.injEq,
    Prod.mk.injEq, and_true, List.cons.injEq]
  have e1 : (d :: (c ++ rest)).length - rest.length = (d :: c).length := by
    simp only [List.length_cons, List.length_append]
    omega
  rw [e1, ← List.cons_append, List.take_left]
  exact ⟨trivial, rfl⟩

theorem run_quoteBody_nl (n : Nat) (caps : Caps) (t : Str) :
    run n (.seq (.star (fun c => c == ' ')) (.grp 2 (.seq (.cls nonSpace) (.star notNl))))
      (caps, '\n' :: t) = [] := by
  simp [starRun, nonSpace]

/-- The first match of `quoteRe` at a line, at the start of the text or after
a newline. -/
theorem run_quote_head (n : Nat) (pre : Str) (k s : Nat) (d : Char) (c rest : Str)
    (hpre : (pre = [] ∧
      (List.replicate k '>' ++ (List.replicate s ' ' ++ (d :: c ++ rest))).length = n) ∨
      pre = ['\n'])
    (hd : nonSpace d = true) (hd2 : d ≠ '>') (hc : '\n' ∉ c)
    (hrest : ∀ a ∈ rest.head?, a = '\n') :
    (run n quoteRe ([], pre ++ (List.replicate k '>' ++
      (List.replicate s ' ' ++ (d :: c ++ rest))))).head? =
      some ([(2, d :: c), (1, pre ++ List.replicate k '>')], rest) := by
  have hy : ∀ a ∈ (List.replicate s ' ' ++ (d :: c ++ rest)).head?, (a == '>') = false := by
    intro a ha
    cases s with
    | zero =>
      simp only [List.replicate_zero, List.nil_append, List.cons_append, List.head?_cons,
        Option.mem_def, Option.some.injEq] at ha
      rw [← ha]
      exact beq_eq_false_iff_ne.2 hd2
    | succ s =>
      simp only [List.replicate_succ, List.cons_append, List.head?_cons, Option.mem_def,
        Option.some.injEq] at ha
      rw [← ha]
      rfl
  obtain ⟨l, hl⟩ := starRun_head (fun c => c == '>') []
    (List.replicate k '>' ++ (List.replicate s ' ' ++ (d :: c ++ rest)))
  rw [dropWhile_replicate_append _ '>' (by simp) _ hy] at hl
  have hb := run_quoteBody n [(1, pre ++ List.replicate k '>')] s d c rest hd hc hrest
  have hlen : ∀ p : Str, (p ++ (List.replicate k '>' ++ (List.replicate s ' ' ++ (d :: c ++ rest)))).length -
      (List.replicate s ' ' ++ (d :: c ++ rest)).length = (p ++ List.replicate k '>').length := by
    intro p
    simp only [List.length_append]
    omega
  rw [quoteRe, run_seq, run_grp, List.flatMap_map, run_seq, run_alt, List.flatMap_append,
    List.flatMap_append]
  rcases hpre with ⟨rfl, hn⟩ | rfl
  · subst hn
    have e0 : hasPrefix (List.replicate k '>' ++ (List.replicate s ' ' ++ (d :: c ++ rest)))
        ['\n'] = false := by
      apply hasPrefix_head_ne
      cases k with
      | zero =>
        cases s with
        | zero =>
          have : d ≠ '\n' := by
            rintro rfl
            exact absurd hd (by decide)
          simp [this]
        | succ s => simp [List.replicate_succ]
      | succ k => simp [List.replicate_succ]
    rw [run_bol, run_chr]
    simp only [List.nil_append, eq_self_iff_true, if_true, e0, Bool.false_eq_true, if_false,
      List.flatMap_nil, List.append_nil, List.flatMap_cons, run_star, hl]
    apply head_append_left
    have := hlen []
    simp only [List.nil_append] at this hb
    rw [this, List.take_left]
    exact hb
  · have e1 : (run n Re.bol ([], ['\n'] ++ (List.replicate k '>' ++
        (List.replicate s ' ' ++ (d :: c ++ rest))))).flatMap (run n (.star (fun c => c == '>'))) =
        (run n Re.bol ([], ['\n'] ++ (List.replicate k '>' ++
          (List.replicate s ' ' ++ (d :: c ++ rest))))).map (fun st => st) := by
      rw [run_bol]
      split_ifs <;> simp [starRun]
    rw [e1, List.map_id']
    have e2 : (run n Re.bol ([], ['\n'] ++ (List.replicate k '>' ++
        (List.replicate s ' ' ++ (d :: c ++ rest))))).flatMap (fun a =>
          run n (.seq (.star (fun c => c == ' ')) (.grp 2 (.seq (.cls nonSpace) (.star notNl))))
            ((1, List.take ((['\n'] ++ (List.replicate k '>' ++
              (List.replicate s ' ' ++ (d :: c ++ rest)))).length - a.2.length)
              (['\n'] ++ (List.replicate k '>' ++ (List.replicate s ' ' ++ (d :: c ++ rest))))) ::
              a.1, a.2)) = [] := by
      rw [run_bol]
      split_ifs
      · simp only [List.flatMap_cons, List.flatMap_nil, List.append_nil]
        exact run_quoteBody_nl _ _ _
      · rfl
    simp only at e2 ⊢
    rw [e2, List.nil_append, run_chr]
    simp only [List.singleton_append, hasPrefix_cons_cons, beq_self_eq_true, hasPrefix_nil,
      Bool.and_self, if_true, List.drop_succ_cons, List.drop_zero, List.flatMap_cons,
      List.flatMap_nil, List.append_nil, run_star, hl]
    apply head_append_left
    have := hlen ['\n']
    simp only [List.singleton_append] at this hb
    rw [this, ← List.cons_append, List.take_left]
    exact hb

theorem matchAt_nil (re : Re) (hne : Re.nonEmpty re = true) (tpl : List TItem) (n : Nat) :
    matchAt re tpl n [] = none := by
  unfold matchAt
  cases h : (run n re ([], [])).head? with
  | none => rfl
  | some r =>
    have := run_progress n re hne _ _ (List.mem_of_mem_head? h)
    simp at this

theorem matchAt_quote (n : Nat) (pre : Str) (l : Nat × Nat × Str) (rest : Str)
    (hpre : (pre = [] ∧ (quotedLine l ++ rest).length = n) ∨ pre = ['\n'])
    (hl : quotable l.2.2) (hrest : ∀ a ∈ rest.head?, a = '\n') :
    matchAt quoteRe quoteTpl n ((pre ++ quotedLine l) ++ rest) =
      some (pre ++ requotedLine l, (pre ++ quotedLine l).length) := by
  obtain ⟨k, s, c⟩ := l
  obtain ⟨⟨d, hd, hd1, hd2⟩, hnl, _⟩ := hl
  simp only at hd hnl
  cases c with
  | nil => simp at hd
  | cons d2 c =>
    simp only [List.head?_cons, Option.mem_def, Option.some.injEq] at hd
    subst hd
    have hnl2 : '\n' ∉ c := fun h => hnl (List.mem_cons_of_mem _ h)
    have e : (pre ++ quotedLine (k, s, d2 :: c)) ++ rest =
        pre ++ (List.replicate k '>' ++ (List.replicate s ' ' ++ (d2 :: c ++ rest))) := by
      simp [quotedLine]
    have hpre2 : (pre = [] ∧
        (List.replicate k '>' ++ (List.replicate s ' ' ++ (d2 :: c ++ rest))).length = n) ∨
        pre = ['\n'] := by
      rcases hpre with ⟨h1, h2⟩ | h
      · left
        refine ⟨h1, ?_⟩
        rw [← h2]
        simp [quotedLine]
      · exact Or.inr h
    have h := run_quote_head n pre k s d2 c rest hpre2 hd1 hd2 hnl2 hrest
    unfold matchAt
    rw [e, h]
    simp only [quoteTpl, expand, getCap, List.lookup_cons, beq_self_eq_true, Option.getD_some,
      List.append_nil, Option.some.injEq, Prod.mk.injEq]
    constructor
    · have : ((1 : Nat) == 2) = false := rfl
      simp only [this, requotedLine, List.replicate_succ', String.toList]
      simp
    · simp only [List.length_append, quotedLine, List.length_cons]
      omega

/-- The lines after the first are requoted one by one. -/
theorem quote_lines (n : Nat) : ∀ (rest : List (Nat × Nat × Str)) (am : Bool),
    (∀ l ∈ rest, quotable l.2.2) →
    rewriteAux (matchAt quoteRe quoteTpl n) (rest.flatMap (fun l => '\n' :: quotedLine l)) 0 am =
      rest.flatMap (fun l => '\n' :: requotedLine l)
  | [], am, _ => by
      apply rewriteAux_id
      intro t ht
      have : t = [] := List.eq_nil_of_suffix_nil ht
      subst this
      exact matchAt_nil quoteRe rfl _ _
  | l :: rest, am, h => by
      have ih := quote_lines n rest true (fun l2 h2 => h l2 (List.mem_cons_of_mem _ h2))
      have hr : ∀ a ∈ (rest.flatMap (fun l => '\n' :: quotedLine l)).head?, a = '\n' := by
        intro a ha
        cases rest with
        | nil => simp at ha
        | cons l2 rest =>
          simp only [List.flatMap_cons, List.cons_append, List.head?_cons, Option.mem_def,
            Option.some.injEq] at ha
          exact ha.symm
      have hm := matchAt_quote n ['\n'] l (rest.flatMap (fun l => '\n' :: quotedLine l))
        (Or.inr rfl) (h l (List.mem_cons_self _ _)) hr
      have e : (l :: rest).flatMap (fun l => '\n' :: quotedLine l) =
          (['\n'] ++ quotedLine l) ++ rest.flatMap (fun l => '\n' :: quotedLine l) := by
        simp
      rw [e, rewriteAux_match _ _ _ _ am (by simp) hm, ih]
      simp

theorem quotedLine_ne_nil (l : Nat × Nat × Str) (hl : quotable l.2.2) :
    ∃ a t, quotedLine l = a :: t ∧ a ≠ '\n' := by
  obtain ⟨k, s, c⟩ := l
  obtain ⟨⟨d, hd, hd1, _⟩, _, _⟩ := hl
  simp only at hd
  cases c with
  | nil => simp at hd
  | cons d2 c =>
    simp only [List.head?_cons, Option.mem_def, Option.some.injEq] at hd
    subst hd
    have hdn : d2 ≠ '\n' := by
      rintro rfl
      exact absurd hd1 (by decide)
    cases k with
    | zero =>
      cases s with
      | zero => exact ⟨d2, c, by simp [quotedLine], hdn⟩
      | succ s =>
        exact ⟨' ', List.replicate s ' ' ++ d2 :: c, by simp [quotedLine, List.replicate_succ],
          by decide⟩
    | succ k =>
      exact ⟨'>', List.replicate k '>' ++ (List.replicate s ' ' ++ d2 :: c),
        by simp [quotedLine, List.replicate_succ], by decide⟩

/-- The pass of `quoteRe` over a text made of quoted lines. -/
theorem quote_text (l : Nat × Nat × Str) (rest : List (Nat × Nat × Str))
    (h : ∀ l2 ∈ l :: rest, quotable l2.2.2) :
    replaceAllString quoteRe quoteTpl
        (quotedLine l ++ rest.flatMap (fun l => '\n' :: quotedLine l)) =
      requotedLine l ++ rest.flatMap (fun l => '\n' :: requotedLine l) := by
  unfold replaceAllString
  have hr : ∀ a ∈ (rest.flatMap (fun l => '\n' :: quotedLine l)).head?, a = '\n' := by
    intro a ha
    cases rest with
    | nil => simp at ha
    | cons l2 rest =>
      simp only [List.flatMap_cons, List.cons_append, List.head?_cons, Option.mem_def,
        Option.some.injEq] at ha
      exact ha.symm
  have hm := matchAt_quote (quotedLine l ++ rest.flatMap (fun l => '\n' :: quotedLine l)).length
    [] l (rest.flatMap (fun l => '\n' :: quotedLine l)) (Or.inl ⟨rfl, rfl⟩)
    (h l (List.mem_cons_self _ _)) hr
  rw [List.nil_append] at hm
  obtain ⟨a, t, hat, _⟩ := quotedLine_ne_nil l (h l (List.mem_cons_self _ _))
  rw [rewriteAux_match _ _ _ _ false (by rw [hat]; simp) hm,
    quote_lines _ rest true (fun l2 h2 => h l2 (List.mem_cons_of_mem _ h2))]
  simp

theorem cr_not_mem_quotedLine (l : Nat × Nat × Str) (hl : quotable l.2.2) :
    '\r' ∉ quotedLine l := by
  obtain ⟨k, s, c⟩ := l
  have := hl.2.2
  simp only [quotedLine, List.mem_append, List.mem_replicate, not_or]
  exact ⟨fun h => absurd h.2 (by decide), fun h => absurd h.2 (by decide), this⟩

/-- The result of `formatReply` on a text made of quoted lines. -/
theorem formatReply_lines (author : Str) (l : Nat × Nat × Str) (ls : List (Nat × Nat × Str))
    (h : ∀ l2 ∈ l :: ls, quotable l2.2.2)
    (hbt : containsStr "```".toList
      (quotedLine l ++ ls.flatMap (fun l => '\n' :: quotedLine l)) = false) :
    formatReply author (quotedLine l ++ ls.flatMap (fun l => '\n' :: quotedLine l)) =
      some ("```\n".toList ++ author ++ " wrote:\n".toList ++
        (requotedLine l ++ ls.flatMap (fun l => '\n' :: requotedLine l)) ++ "\n```\n".toList) := by
  have hcr := not_mem_joined '\r' ['\n'] (by decide) (ls.map quotedLine) (quotedLine l)
    (cr_not_mem_quotedLine l (h l (List.mem_cons_self _ _))) (by
      intro F hF
      obtain ⟨l2, hl2, rfl⟩ := List.mem_map.1 hF
      exact cr_not_mem_quotedLine l2 (h l2 (List.mem_cons_of_mem _ hl2)))
  rw [flatMap_map_lines] at hcr
  have hcr2 : '\r' ∉ quotedLine l ++ ls.flatMap (fun l => '\n' :: quotedLine l) := hcr
  have e0 : stripCR (quotedLine l ++ ls.flatMap (fun l => '\n' :: quotedLine l)) =
      quotedLine l ++ ls.flatMap (fun l => '\n' :: quotedLine l) :=
    stringsReplace_id _ _ _ (containsStr_of_not_mem _ _ _ hcr2)
  have e1 := code_id unfenceTpl _ hbt
  obtain ⟨a, t, hat, hane⟩ := quotedLine_ne_nil l (h l (List.mem_cons_self _ _))
  have e2 := quote_text l ls h
  unfold formatReply
  simp only [e0, e1]
  rw [hat] at e2 ⊢
  simp only [List.cons_append, if_neg hane]
  rw [← List.cons_append, e2]

/-- C8: for every author name and every original text made of one or more lines
joined by newlines, line `i` being `k_i` characters `>`, then any number of
spaces, then a content that is not empty, starts with a character that is neither
blank nor `>` and has no newline or carriage return, the original holding no
triple backtick: `formatReply` returns the fenced block with the header line
`<author> wrote:` and every line one quote level deeper, `k_i + 1` characters
`>`, one space, the content. -/
theorem C8_reply_quotes_each_line_one_deeper (author : Str) (l : Nat × Nat × Str)
    (ls : List (Nat × Nat × Str)) (h : ∀ l2 ∈ l :: ls, quotable l2.2.2)
    (hbt : containsStr "```".toList ("\n".toList.intercalate ((l :: ls).map quotedLine)) = false) :
    formatReply author ("\n".toList.intercalate ((l :: ls).map quotedLine)) =
      some ("```\n".toList ++ author ++ " wrote:\n".toList ++
        "\n".toList.intercalate ((l :: ls).map requotedLine) ++ "\n```\n".toList) := by
  rw [List.map_cons, intercalate_cons, flatMap_map_lines] at hbt ⊢
  rw [List.map_cons, intercalate_cons, flatMap_map_lines]
  exact formatReply_lines author l ls h hbt

/-- C8 at the claim's example: `formatReply("alice", "hello")`. -/
theorem C8_reply_witness :
    formatReply "alice".toList "hello".toList =
      some "```\nalice wrote:\n> hello\n```\n".toList :=
  C8_reply_quotes_each_line_one_deeper "alice".toList (0, 0, "hello".toList) []
    (by decide) (by decide)

/-- C9 at the failing inputs: for every author name, `formatReply` panics at the
index expression `quoteContent[0]` when the original text is empty, and also
when it is made only of carriage returns, which the first statement removes. -/
theorem C9_formatReply_panics_on_empty_original (author : Str) :
    formatReply author [] = none ∧ formatReply author "\r\r".toList = none :=
  ⟨rfl, rfl⟩

/-! ## Quoting a reply that starts with a quote block -/

theorem quotable_wrote (a : Str) (ha : quotable a) : quotable (a ++ " wrote:".toList) := by
  obtain ⟨⟨d, hd, hd1, hd2⟩, hnl, hcr⟩ := ha
  refine ⟨⟨d, ?_, hd1, hd2⟩, ?_, ?_⟩
  · cases a with
    | nil => simp at hd
    | cons x a => simpa using hd
  · simp only [List.mem_append, not_or]
    exact ⟨hnl, by decide⟩
  · simp only [List.mem_append, not_or]
    exact ⟨hcr, by decide⟩

/-- The fenced block at the start of a text is replaced by its body, and the
text after it, which has no backtick, is kept. -/
theorem code_unfence (body r : Str) (hb : body ≠ []) (hr : Char.ofNat 96 ∉ r) :
    replaceAllString codeRe unfenceTpl
        (("```".toList ++ ([] ++ '\n' :: (body ++ "\n```".toList))) ++ '\n' :: r) =
      '\n' :: (body ++ '\n' :: r) := by
  have hy : containsStr "\n```".toList ("```".toList ++ '\n' :: r) = false := by
    have h1 : containsStr "\n```".toList ('\n' :: r) = false := by
      rw [containsStr]
      have h2 : containsStr "\n```".toList r = false := by
        rw [containsStr_false]
        intro t ht
        cases t with
        | nil => rfl
        | cons x t =>
          cases t with
          | nil => simp
          | cons y t =>
            have : y ≠ Char.ofNat 96 := by
              rintro rfl
              exact hr (ht.subset (by simp))
            simp [this]
      have h3 : hasPrefix ('\n' :: r) "\n```".toList = false := by
        cases r with
        | nil => rfl
        | cons y t =>
          have : y ≠ Char.ofNat 96 := by
            rintro rfl
            exact hr (List.mem_cons_self _ _)
          simp [this]
      rw [h2, h3]
      rfl
    exact (containsStr_append_heads '\n' "```".toList _ "```".toList (by decide)).trans h1
  have hh := run_code_head [] body ('\n' :: r) (by simp) hb hy (Or.inr ⟨r, rfl⟩)
  have e : ("```".toList ++ ([] ++ '\n' :: (body ++ "\n```".toList))) ++ '\n' :: r =
      "```".toList ++ ([] ++ '\n' :: (body ++ ("\n```".toList ++ '\n' :: r))) := by
    simp
  have e2 : "```".toList ++ ([] ++ '\n' :: (body ++ ("\n```".toList ++ '\n' :: r))) =
      ("```".toList ++ '\n' :: (body ++ "\n```\n".toList)) ++ r := by
    simp
  unfold replaceAllString
  rw [e, e2]
  rw [e2] at hh
  have hm : matchAt codeRe unfenceTpl
      (("```".toList ++ '\n' :: (body ++ "\n```\n".toList)) ++ r).length
      (("```".toList ++ '\n' :: (body ++ "\n```\n".toList)) ++ r) =
      some ('\n' :: (body ++ ['\n']), ("```".toList ++ '\n' :: (body ++ "\n```\n".toList)).length) := by
    unfold matchAt
    rw [hh]
    simp only [List.drop_succ_cons, List.drop_zero, unfenceTpl, expand, getCap, List.lookup_cons,
      beq_self_eq_true, Option.getD_some, List.append_nil, Option.some.injEq, Prod.mk.injEq]
    constructor
    · simp
    · simp only [List.length_append]
      omega
  rw [rewriteAux_match _ _ _ _ false (by simp) hm, rewriteAux_id _ r true ?_]
  · simp
  · intro t ht
    unfold matchAt
    have h1 : hasPrefix t "```".toList = false :=
      hasPrefix_head_ne _ _ t (head_ne_of_not_mem _ r t hr ht)
    have h2 : hasPrefix t "\n```".toList = false := by
      cases t with
      | nil => rfl
      | cons x t =>
        cases t with
        | nil => simp
        | cons y t =>
          have : y ≠ Char.ofNat 96 := by
            rintro rfl
            exact hr (ht.subset (by simp))
          simp [this]
    rw [run_code_nil _ _ t (fun _ => h1) h2]
    rfl

/-- C10 (amended): for all author names `a` and `b` and all single-line texts
`h` and `r` (`a`, `h` and `r` not empty, starting with a character that is
neither blank nor `>`, without newline and carriage return; `h` and `r` without
backtick), quoting a reply that starts with the quote block of `formatReply(a, h)`
and goes on with `r` removes the inner fence lines, keeps the inner body and
puts every line one quote level deeper. -/
theorem C10_nested_reply (a b h r : Str) (ha : quotable a) (hh : quotable h) (hr : quotable r)
    (hhb : Char.ofNat 96 ∉ h) (hrb : Char.ofNat 96 ∉ r) :
    ∃ inner, formatReply a h = some inner ∧
      formatReply b (inner ++ r) =
        some ("```\n".toList ++ b ++ " wrote:\n> ".toList ++ a ++ " wrote:\n>> ".toList ++ h ++
          "\n> ".toList ++ r ++ "\n```\n".toList) := by
  have h1 := formatReply_lines a (0, 0, h) [] (by
      intro l hl
      simp only [List.mem_singleton] at hl
      subst hl
      exact hh) (by
      simpa [quotedLine] using containsStr_of_not_mem (Char.ofNat 96) "``".toList h hhb)
  have eq1 : quotedLine (0, 0, h) ++ ([] : List (Nat × Nat × Str)).flatMap
      (fun l => '\n' :: quotedLine l) = h := by
    simp [quotedLine]
  rw [eq1] at h1
  refine ⟨_, h1, ?_⟩
  have hbody : a ++ " wrote:\n> ".toList ++ h ≠ [] := by
    obtain ⟨⟨d, hd, _⟩, _⟩ := hh
    cases h with
    | nil => simp at hd
    | cons x h => simp
  have e : "```\n".toList ++ a ++ " wrote:\n".toList ++
      (requotedLine (0, 0, h) ++ ([] : List (Nat × Nat × Str)).flatMap
        (fun l => '\n' :: requotedLine l)) ++ "\n```\n".toList ++ r =
      ("```".toList ++ ([] ++ '\n' :: ((a ++ " wrote:\n> ".toList ++ h) ++ "\n```".toList))) ++
        '\n' :: r := by
    simp [requotedLine]
  have hcr : '\r' ∉ ("```".toList ++ ([] ++ '\n' :: ((a ++ " wrote:\n> ".toList ++ h) ++
      "\n```".toList))) ++ '\n' :: r := by
    have k1 := ha.2.2
    have k2 := hh.2.2
    have k3 := hr.2.2
    simp [k1, k2, k3]
  have e0 := stringsReplace_id _ ['\r'] [] (containsStr_of_not_mem _ [] _ hcr)
  have e1 := code_unfence (a ++ " wrote:\n> ".toList ++ h) r hbody hrb
  have e2 := quote_text (0, 0, a ++ " wrote:".toList) [(1, 1, h), (0, 0, r)] (by
    intro l hl
    simp only [List.mem_cons, List.mem_singleton, List.not_mem_nil, or_false] at hl
    rcases hl with rfl | rfl | rfl
    · exact quotable_wrote a ha
    · exact hh
    · exact hr)
  have e3 : (a ++ " wrote:\n> ".toList ++ h) ++ '\n' :: r =
      quotedLine (0, 0, a ++ " wrote:".toList) ++
        [(1, 1, h), (0, 0, r)].flatMap (fun l => '\n' :: quotedLine l) := by
    simp [quotedLine]
  rw [e]
  unfold formatReply stripCR
  simp only [e0, e1, if_true]
  rw [e3, e2]
  simp [requotedLine]

/-- C10 (amended) at the names `alice` and `bob`. -/
theorem C10_nested_reply_witness :
    ∃ inner, formatReply "alice".toList "hello".toList = some inner ∧
      formatReply "bob".toList (inner ++ "reply".toList) =
        some "```\nbob wrote:\n> alice wrote:\n>> hello\n> reply\n```\n".toList :=
  C10_nested_reply "alice".toList "bob".toList "hello".toList "reply".toList (by decide)
    (by decide) (by decide) (by decide) (by decide)

/-- C10 as stated fails for the author name `x`, newline, `y`, which starts with
a character that is neither blank nor `>`: the second line of the name is quoted
as a line of its own. -/
theorem C10_counterexample :
    formatReply "x\ny".toList "h".toList = some "```\nx\ny wrote:\n> h\n```\n".toList ∧
      formatReply "b".toList ("```\nx\ny wrote:\n> h\n```\n".toList ++ "r".toList) =
        some "```\nb wrote:\n> x\n> y wrote:\n>> h\n> r\n```\n".toList ∧
      formatReply "b".toList ("```\nx\ny wrote:\n> h\n```\n".toList ++ "r".toList) ≠
        some ("```\n".toList ++ "b".toList ++ " wrote:\n> ".toList ++ "x\ny".toList ++
          " wrote:\n>> ".toList ++ "h".toList ++ "\n> ".toList ++ "r".toList ++ "\n```\n".toList) := by
  decide

/-! ## Compiling the pattern of a word list -/

theorem splitComma_ne_nil : ∀ s : Str, splitComma s ≠ []
  | [] => by simp [splitComma]
  | c :: cs => by
      unfold splitComma
      split
      · simp
      · split_ifs <;> simp

theorem splitBar_ne_nil : ∀ s : Str, splitBar s ≠ []
  | [] => by simp [splitBar]
  | c :: cs => by
      unfold splitBar
      split
      · simp
      · split_ifs <;> simp

theorem splitBar_word : ∀ x : Str, '|' ∉ x → splitBar x = [x]
  | [], _ => rfl
  | c :: x, h => by
      have hc : c ≠ '|' := fun e => h (by simp [e])
      have ih := splitBar_word x (fun hm => h (List.mem_cons_of_mem _ hm))
      simp [splitBar, ih, hc]

theorem splitBar_append (rest : Str) : ∀ x : Str, '|' ∉ x →
    splitBar (x ++ '|' :: rest) = x :: splitBar rest
  | [], _ => by
      have hne := splitBar_ne_nil rest
      cases hr : splitBar rest with
      | nil => exact absurd hr hne
      | cons w ws => simp [splitBar, hr]
  | c :: x, h => by
      have hc : c ≠ '|' := fun e => h (by simp [e])
      have ih := splitBar_append rest x (fun hm => h (List.mem_cons_of_mem _ hm))
      simp [splitBar, ih, hc]

theorem splitBar_joinWords : ∀ ws : List Str, ws ≠ [] → (∀ w ∈ ws, '|' ∉ trimSpace w) →
    splitBar (joinWords ws) = ws.map trimSpace
  | [], h, _ => absurd rfl h
  | [w], _, h => by
      simpa [joinWords] using splitBar_word _ (h w (by simp))
  | w :: w2 :: ws, _, h => by
      have ih := splitBar_joinWords (w2 :: ws) (by simp)
        (fun v hv => h v (List.mem_cons_of_mem _ hv))
      show splitBar (trimSpace w ++ '|' :: joinWords (w2 :: ws)) = _
      rw [splitBar_append _ _ (h w (by simp)), ih]
      rfl

theorem joinWords_chars : ∀ ws : List Str, (∀ w ∈ ws, ∀ c ∈ trimSpace w, isAlnum c = true) →
    ∀ d ∈ joinWords ws, (isAlnum d || d == '|') = true
  | [], _, d, hd => by simp [joinWords] at hd
  | [w], h, d, hd => by
      simp only [joinWords] at hd
      simp [h w (by simp) d hd]
  | w :: w2 :: ws, h, d, hd => by
      simp only [joinWords, List.mem_append, List.mem_cons] at hd
      rcases hd with hd | hd | hd
      · simp [h w (by simp) d hd]
      · simp [hd]
      · exact joinWords_chars (w2 :: ws) (fun v hv => h v (List.mem_cons_of_mem _ hv)) d hd

/-- The pattern built from a word list whose trimmed entries are made of letters
and digits compiles to the alternation of these entries. -/
theorem compileWords_pattern (cWords : Str)
    (h : ∀ w ∈ entries cWords, ∀ c ∈ w, isAlnum c = true) :
    compileWords (censorPattern cWords) = some (wordsRe (entries cWords)) := by
  have h2 : ∀ w ∈ splitComma cWords, ∀ c ∈ trimSpace w, isAlnum c = true :=
    fun w hw => h (trimSpace w) (List.mem_map_of_mem _ hw)
  have hbar : ∀ w ∈ splitComma cWords, '|' ∉ trimSpace w := by
    intro w hw hm
    exact absurd (h2 w hw _ hm) (by decide)
  have e1 : (censorPattern cWords).drop 4 = joinWords (splitComma cWords) ++ [')'] := by
    simp [censorPattern]
  unfold compileWords
  rw [if_pos (by simp [censorPattern]), e1]
  simp only [List.reverse_append, List.reverse_singleton, List.singleton_append,
    List.reverse_reverse, List.all_reverse, true_and]
  rw [if_pos, splitBar_joinWords _ (splitComma_ne_nil _) hbar]
  · rfl
  · rw [List.all_eq_true]
    exact joinWords_chars _ h2

/-! ## The cache of `censor` -/

theorem censor_same {R : Type} (lib : RegexpLib R) (cWords : Str) (cache : CensorCache R)
    (content : Str) (h : cWords = cache.censored) :
    censor lib cWords cache content = censorApply lib cache content := by
  unfold censor
  rw [if_neg (not_not.2 h)]

theorem censor_rebuild {R : Type} (lib : RegexpLib R) (cWords : Str) (cache : CensorCache R)
    (content : Str) (h : cWords ≠ cache.censored) (re : R)
    (hc : lib.mustCompile (censorPattern cWords) = some re) :
    censor lib cWords cache content =
      (some (lib.replaceAllString re content "****".toList), ⟨cWords, some re⟩) := by
  have hl : (splitComma cWords).length > 0 :=
    List.length_pos.2 (splitComma_ne_nil cWords)
  unfold censorPattern at hc
  unfold censor
  simp only [if_pos h, if_pos hl, hc, censorApply]

theorem censor_panic {R : Type} (lib : RegexpLib R) (cWords : Str) (cache : CensorCache R)
    (content : Str) (h : cWords ≠ cache.censored)
    (hc : lib.mustCompile (censorPattern cWords) = none) :
    censor lib cWords cache content = (none, ⟨cWords, cache.censorRe⟩) := by
  have hl : (splitComma cWords).length > 0 :=
    List.length_pos.2 (splitComma_ne_nil cWords)
  unfold censorPattern at hc
  unfold censor
  simp only [if_pos h, if_pos hl, hc]

/-- After every call the cached source string is the live word list. -/
theorem censor_censored {R : Type} (lib : RegexpLib R) (cWords : Str) (cache : CensorCache R)
    (content : Str) : (censor lib cWords cache content).2.censored = cWords := by
  by_cases h : cWords = cache.censored
  · rw [censor_same lib cWords cache content h]
    unfold censorApply
    split <;> exact h.symm
  · cases hc : lib.mustCompile (censorPattern cWords) with
    | none => rw [censor_panic lib cWords cache content h hc]
    | some re => rw [censor_rebuild lib cWords cache content h re hc]

/-- What holds of every state of the package variables that calls of `censor`
produce: it is the state at program start, or the cached matcher is the one
compiled from the cached source string, or compiling that string panics. -/
theorem reachable_inv {R : Type} (lib : RegexpLib R) (cache : CensorCache R)
    (h : Reachable lib cache) :
    (cache.censored = [] ∧ cache.censorRe = none) ∨
      lib.mustCompile (censorPattern cache.censored) = none ∨
      lib.mustCompile (censorPattern cache.censored) = cache.censorRe := by
  induction h with
  | start => exact Or.inl ⟨rfl, rfl⟩
  | call cache cWords content _ ih =>
    by_cases hw : cWords = cache.censored
    · rw [censor_same lib cWords cache content hw]
      have : (censorApply lib cache content).2 = cache := by
        unfold censorApply
        split <;> rfl
      rw [this]
      exact ih
    · cases hc : lib.mustCompile (censorPattern cWords) with
      | none =>
        rw [censor_panic lib cWords cache content hw hc]
        exact Or.inr (Or.inl hc)
      | some re =>
        rw [censor_rebuild lib cWords cache content hw re hc]
        exact Or.inr (Or.inr hc)

theorem alnumList_ne_nil (cWords : Str) (h : alnumList cWords) : cWords ≠ [] := by
  rintro rfl
  exact (h [] (by decide)).1 rfl

theorem goRegexp_compile (other : Str → Option Re) (cWords : Str) (h : alnumList cWords) :
    (goRegexp other).mustCompile (censorPattern cWords) = some (wordsRe (entries cWords)) := by
  show (match compileWords (censorPattern cWords) with
    | some re => some re
    | none => other (censorPattern cWords)) = _
  rw [compileWords_pattern cWords (fun w hw => (h w hw).2)]

/-- Under a word list of letter-and-digit entries `censor` returns, from every
reachable state, the text rewritten by the alternation of the entries. -/
theorem censor_alnum (other : Str → Option Re) (cWords : Str) (h : alnumList cWords)
    (cache : CensorCache Re) (hr : Reachable (goRegexp other) cache) (content : Str) :
    censor (goRegexp other) cWords cache content =
      (some (replaceAllString (wordsRe (entries cWords)) [.text "****".toList] content),
        ⟨cWords, some (wordsRe (entries cWords))⟩) := by
  have hc := goRegexp_compile other cWords h
  by_cases hw : cWords = cache.censored
  · rw [censor_same _ cWords cache content hw]
    rcases reachable_inv _ cache hr with h1 | h1 | h1
    · exact absurd (hw.trans h1.1) (alnumList_ne_nil cWords h)
    · rw [← hw, hc] at h1
      exact Option.noConfusion h1
    · rw [← hw, hc] at h1
      obtain ⟨cs, cr⟩ := cache
      simp only at hw h1
      subst hw
      subst h1
      rfl
  · rw [censor_rebuild _ cWords cache content hw _ hc]
    rfl

/-! ## Case-insensitive occurrences -/

theorem isAlnum_small (a : Char) (h : isAlnum a = true) : a.toNat < 128 := by
  simp only [isAlnum, Bool.or_eq_true, Bool.and_eq_true, decide_eq_true_eq] at h
  have e : ∀ x y : Char, x ≤ y ↔ x.toNat ≤ y.toNat := fun x y => Iff.rfl
  simp only [e] at h
  have h1 : 'Z'.toNat = 90 := rfl
  have h2 : 'z'.toNat = 122 := rfl
  have h3 : '9'.toNat = 57 := rfl
  omega

theorem char_of_small (P : Char → Prop) (h : ∀ n, n < 128 → P (Char.ofNat n)) (a : Char)
    (ha : a.toNat < 128) : P a := by
  have := h a.toNat ha
  rwa [Char.ofNat_toNat] at this

/-- An asterisk is no case variant of a letter or digit. -/
theorem ciCh_star (a : Char) (h : isAlnum a = true) : ciCh a '*' = false :=
  char_of_small (fun a => isAlnum a = true → ciCh a '*' = false) (by decide) a
    (isAlnum_small a h) h

theorem hasPrefixFold_nil (t : Str) : hasPrefixFold t [] = true := by
  cases t <;> rfl

theorem hasPrefixFold_cons_cons (d : Char) (ds : Str) (c : Char) (cs : Str) :
    hasPrefixFold (d :: ds) (c :: cs) = (ciCh c d && hasPrefixFold ds cs) := rfl

theorem hasPrefixFold_iff : ∀ (w t : Str),
    hasPrefixFold t w = true ↔ ∃ y r, t = y ++ r ∧ foldEq w y = true
  | [], t => by
      rw [hasPrefixFold_nil]
      exact ⟨fun _ => ⟨[], t, rfl, rfl⟩, fun _ => rfl⟩
  | c :: cs, [] => by
      constructor
      · intro h
        exact Bool.noConfusion h
      · rintro ⟨y, r, h1, h2⟩
        have : y = [] := (List.append_eq_nil.1 h1.symm).1
        subst this
        exact Bool.noConfusion h2
  | c :: cs, d :: ds => by
      rw [hasPrefixFold_cons_cons, Bool.and_eq_true, hasPrefixFold_iff cs ds]
      constructor
      · rintro ⟨h1, y, r, h2, h3⟩
        refine ⟨d :: y, r, by rw [h2]; rfl, ?_⟩
        simp only [foldEq, h1, h3, Bool.and_self]
      · rintro ⟨y, r, h2, h3⟩
        cases y with
        | nil => exact Bool.noConfusion h3
        | cons b y =>
          simp only [List.cons_append, List.cons.injEq] at h2
          obtain ⟨rfl, rfl⟩ := h2
          simp only [foldEq, Bool.and_eq_true] at h3
          exact ⟨h3.1, y, r, rfl, h3.2⟩

theorem containsFold_head (w t : Str) (h : containsFold w t = false) :
    hasPrefixFold t w = false := by
  cases t with
  | nil => exact h
  | cons c cs =>
    simp only [containsFold, Bool.or_eq_false_iff] at h
    exact h.1

theorem containsFold_append (w : Str) : ∀ (p t : Str), containsFold w (p ++ t) = false →
    hasPrefixFold t w = false
  | [], t, h => containsFold_head w t h
  | a :: p, t, h => by
      simp only [List.cons_append, containsFold, Bool.or_eq_false_iff] at h
      exact containsFold_append w p t h.2

/-- A text without a case-insensitive occurrence of the word has no substring
that is a case variant of the word. -/
theorem containsFold_infix (w s : Str) (h : containsFold w s = false) (y : Str)
    (hy : y <:+: s) : foldEq w y = false := by
  obtain ⟨p, q, e⟩ := hy
  rw [← e, List.append_assoc] at h
  have := containsFold_append w p (y ++ q) h
  by_contra hc
  simp only [Bool.not_eq_false] at hc
  rw [(hasPrefixFold_iff w (y ++ q)).2 ⟨y, q, rfl, hc⟩] at this
  exact Bool.noConfusion this

/-! ## The alternation of the censored words -/

theorem run_ciLit (n : Nat) (caps : Caps) : ∀ (w t : Str),
    run n (ciLit w) (caps, t) = if hasPrefixFold t w = true then [(caps, t.drop w.length)] else []
  | [], t => by
      rw [hasPrefixFold_nil]
      rfl
  | c :: cs, [] => rfl
  | c :: cs, d :: ds => by
      show (run n (.cls (ciCh c)) (caps, d :: ds)).flatMap (run n (ciLit cs)) = _
      rw [run_cls_cons, hasPrefixFold_cons_cons]
      cases h : ciCh c d with
      | false => simp
      | true =>
        simp only [if_true, List.flatMap_cons, List.flatMap_nil, List.append_nil,
          Bool.true_and, List.length_cons, List.drop_succ_cons]
        exact run_ciLit n caps cs ds

theorem ciLit_nonEmpty : ∀ (w : Str), w ≠ [] → Re.nonEmpty (ciLit w) = true
  | [], h => absurd rfl h
  | _ :: _, _ => rfl

theorem wordsRe_nonEmpty : ∀ (ws : List Str), ws ≠ [] → (∀ w ∈ ws, w ≠ []) →
    Re.nonEmpty (wordsRe ws) = true
  | [], h, _ => absurd rfl h
  | [w], _, h => ciLit_nonEmpty w (h w (List.mem_singleton_self w))
  | w :: w2 :: ws, _, h => by
      show (Re.nonEmpty (ciLit w) && Re.nonEmpty (wordsRe (w2 :: ws))) = true
      rw [ciLit_nonEmpty w (h w (List.mem_cons_self _ _)),
        wordsRe_nonEmpty (w2 :: ws) (List.cons_ne_nil _ _)
          (fun x hx => h x (List.mem_cons_of_mem _ hx))]
      rfl

/-- Where a case variant of one of the words begins, the alternation matches. -/
theorem run_wordsRe (n : Nat) (caps : Caps) (t : Str) : ∀ (ws : List Str) (w : Str), w ∈ ws →
    hasPrefixFold t w = true → run n (wordsRe ws) (caps, t) ≠ []
  | [], w, h, _ => by simp at h
  | [w1], w, h, hp => by
      rw [List.mem_singleton] at h
      subst h
      show run n (ciLit w) (caps, t) ≠ []
      rw [run_ciLit, if_pos hp]
      exact List.cons_ne_nil _ _
  | w1 :: w2 :: ws, w, h, hp => by
      show run n (ciLit w1) (caps, t) ++ run n (wordsRe (w2 :: ws)) (caps, t) ≠ []
      rcases List.mem_cons.1 h with h | h
      · subst h
        rw [run_ciLit, if_pos hp]
        exact List.cons_ne_nil _ _
      · intro e
        exact run_wordsRe n caps t (w2 :: ws) w h hp (List.append_eq_nil.1 e).2

theorem matchAt_wordsRe (n : Nat) (t : Str) (ws : List Str) (w : Str) (hw : w ∈ ws)
    (hp : hasPrefixFold t w = true) (tpl : List TItem) : matchAt (wordsRe ws) tpl n t ≠ none := by
  unfold matchAt
  cases h : (run n (wordsRe ws) ([], t)).head? with
  | none =>
    rw [List.head?_eq_none_iff] at h
    exact absurd h (run_wordsRe n [] t ws w hw hp)
  | some r => simp

/-! ## No case variant of a censored word survives the rewriting -/

theorem hasPrefixFold_star (w r : Str) (hne : w ≠ []) (hw : ∀ a ∈ w, isAlnum a = true) :
    hasPrefixFold ('*' :: r) w = false := by
  cases w with
  | nil => exact absurd rfl hne
  | cons a w =>
    rw [hasPrefixFold_cons_cons, ciCh_star a (hw a (List.mem_cons_self _ _))]
    rfl

theorem containsFold_stars (w r : Str) (hne : w ≠ []) (hw : ∀ a ∈ w, isAlnum a = true) :
    containsFold w ("****".toList ++ r) = containsFold w r := by
  show containsFold w ('*' :: '*' :: '*' :: '*' :: r) = _
  simp only [containsFold, hasPrefixFold_star w _ hne hw, Bool.false_or]

/-- A word of letters and digits that begins the rewritten text begins the text. -/
theorem hasPrefixFold_of_rewriteAux (m : Str → Option (Str × Nat))
    (hm : ∀ t e k, m t = some (e, k) →
      ∃ c x r, t = c :: x ++ r ∧ k = x.length + 1 ∧ e = "****".toList) :
    ∀ (w t : Str) (am : Bool), (∀ a ∈ w, isAlnum a = true) →
      hasPrefixFold (rewriteAux m t 0 am) w = true → hasPrefixFold t w = true
  | [], t, _, _, _ => hasPrefixFold_nil t
  | a :: w, [], am, _, h => by
      rw [rewriteAux_nil_of_shape m (fun t e k h => by
        obtain ⟨c, x, r, h1, h2, _⟩ := hm t e k h
        exact ⟨c, x, r, h1, h2⟩)] at h
      exact Bool.noConfusion h
  | a :: w, c :: cs, am, hw, h => by
      cases hmc : m (c :: cs) with
      | none =>
        rw [rewriteAux_cons m c cs am hmc] at h
        simp only [hasPrefixFold_cons_cons, Bool.and_eq_true] at h ⊢
        exact ⟨h.1, hasPrefixFold_of_rewriteAux m hm w cs false
          (fun x hx => hw x (List.mem_cons_of_mem _ hx)) h.2⟩
      | some p =>
        obtain ⟨e, k⟩ := p
        obtain ⟨c2, x, r, h1, h2, h3⟩ := hm _ _ _ hmc
        rw [rewriteAux_match_shape m _ e k am c2 x r h1 h2 hmc, h3] at h
        have := hasPrefixFold_star (a :: w) ("***".toList ++ rewriteAux m r 0 true)
          (List.cons_ne_nil _ _) hw
        rw [show "****".toList ++ rewriteAux m r 0 true
          = '*' :: ("***".toList ++ rewriteAux m r 0 true) from rfl, this] at h
        exact Bool.noConfusion h

theorem rewriteAux_containsFold (m : Str → Option (Str × Nat)) (w : Str) (hne : w ≠ [])
    (hw : ∀ a ∈ w, isAlnum a = true)
    (hm : ∀ t e k, m t = some (e, k) →
      ∃ c x r, t = c :: x ++ r ∧ k = x.length + 1 ∧ e = "****".toList)
    (hc : ∀ t, hasPrefixFold t w = true → m t ≠ none) :
    ∀ (len : Nat) (s : Str), s.length ≤ len → ∀ am,
      containsFold w (rewriteAux m s 0 am) = false := by
  have hm1 : ∀ t e k, m t = some (e, k) → ∃ c x r, t = c :: x ++ r ∧ k = x.length + 1 := by
    intro t e k h
    obtain ⟨c, x, r, h1, h2, _⟩ := hm t e k h
    exact ⟨c, x, r, h1, h2⟩
  have hnil : containsFold w [] = false := by
    cases w with
    | nil => exact absurd rfl hne
    | cons a w => rfl
  intro len
  induction len with
  | zero =>
    intro s hs am
    have : s = [] := List.length_eq_zero.1 (Nat.le_zero.1 hs)
    subst this
    rw [rewriteAux_nil_of_shape m hm1]
    exact hnil
  | succ len ih =>
    intro s hs am
    cases s with
    | nil =>
      rw [rewriteAux_nil_of_shape m hm1]
      exact hnil
    | cons c cs =>
      cases hmc : m (c :: cs) with
      | none =>
        rw [rewriteAux_cons m c cs am hmc]
        simp only [containsFold, Bool.or_eq_false_iff]
        refine ⟨?_, ih cs (by simpa using hs) false⟩
        by_contra hp
        simp only [Bool.not_eq_false] at hp
        have hp2 : hasPrefixFold (rewriteAux m (c :: cs) 0 am) w = true := by
          rw [rewriteAux_cons m c cs am hmc]
          exact hp
        exact hc _ (hasPrefixFold_of_rewriteAux m hm w (c :: cs) am hw hp2) hmc
      | some p =>
        obtain ⟨e, k⟩ := p
        obtain ⟨c2, x, r, h1, h2, h3⟩ := hm _ _ _ hmc
        rw [rewriteAux_match_shape m _ e k am c2 x r h1 h2 hmc, h3,
          containsFold_stars w _ hne hw]
        have hl : r.length ≤ len := by
          have := congrArg List.length h1
          simp only [List.length_cons, List.length_append] at this hs
          omega
        exact ih r hl true

/-- After the rewriting by the alternation of the words no case variant of a
word is left in the text. -/
theorem censored_clean (ws : List Str) (hws : ws ≠ [])
    (h : ∀ w ∈ ws, w ≠ [] ∧ ∀ c ∈ w, isAlnum c = true) (s w : Str) (hw : w ∈ ws) :
    containsFold w (replaceAllString (wordsRe ws) [.text "****".toList] s) = false := by
  unfold replaceAllString
  refine rewriteAux_containsFold _ w (h w hw).1 (h w hw).2 ?_ ?_ s.length s le_rfl false
  · intro t e k hm
    obtain ⟨c, x, r, caps, h1, h2, h3, _⟩ :=
      matchAt_shape (wordsRe ws) (wordsRe_nonEmpty ws hws (fun v hv => (h v hv).1)) _ _ t e k hm
    refine ⟨c, x, r, h1, h2, ?_⟩
    rw [h3]
    simp [expand]
  · intro t hp
    exact matchAt_wordsRe s.length t ws w hw hp _

/-! ## Censoring -/

/-- C11: under a live word list whose trimmed entries are non-empty words of
ASCII letters and digits, from every state of the cache that calls of `censor`
can produce and for every text, `censor` returns a string, namely the text with
the matches of the alternation of the entries replaced by four asterisks, and
no substring of that string is a case variant of an entry. -/
theorem C11_no_case_variant_survives (other : Str → Option Re) (cWords : Str)
    (h : alnumList cWords) (cache : CensorCache Re) (hr : Reachable (goRegexp other) cache)
    (text : Str) :
    ∃ out, (censor (goRegexp other) cWords cache text).1 = some out ∧
      out = replaceAllString (wordsRe (entries cWords)) [.text "****".toList] text ∧
      ∀ w ∈ entries cWords, ∀ y, y <:+: out → foldEq w y = false := by
  refine ⟨_, by rw [censor_alnum other cWords h cache hr text], rfl, ?_⟩
  intro w hw y hy
  have hne : entries cWords ≠ [] := by
    unfold entries
    intro e
    exact splitComma_ne_nil cWords (List.map_eq_nil_iff.1 e)
  exact containsFold_infix w _ (censored_clean (entries cWords) hne h text w hw) y hy

/-- C11 at the word list `foo,bar`: every case variant is replaced, also inside
a longer word. -/
theorem C11_no_case_variant_witness :
    alnumList "foo,bar".toList ∧
    Reachable (goRegexp (fun _ => none)) (CensorCache.initial Re) ∧
    (censor (goRegexp (fun _ => none)) "foo,bar".toList (CensorCache.initial Re)
      "a Foo bAR xfOoy".toList).1 = some "a **** **** x****y".toList ∧
    ∃ out, (censor (goRegexp (fun _ => none)) "foo,bar".toList (CensorCache.initial Re)
        "a Foo bAR xfOoy".toList).1 = some out ∧
      out = replaceAllString (wordsRe (entries "foo,bar".toList)) [.text "****".toList]
        "a Foo bAR xfOoy".toList ∧
      ∀ w ∈ entries "foo,bar".toList, ∀ y, y <:+: out → foldEq w y = false :=
  ⟨by decide, Reachable.start, by decide,
    C11_no_case_variant_survives (fun _ => none) "foo,bar".toList (by decide)
      (CensorCache.initial Re) Reachable.start "a Foo bAR xfOoy".toList⟩

/-- C13: for word lists A and B whose trimmed entries are non-empty words of
ASCII letters and digits (different or not) and every text, starting from the
cache left by a call of `censor` under A, a call under B returns the string that
`censor` returns under B from the initial cache, a following call under A
returns the string that `censor` returns under A from the initial cache, and
after each call the cached source string is the live list of that call. -/
theorem C13_cache_is_never_stale (other : Str → Option Re) (A B : Str)
    (hA : alnumList A) (hB : alnumList B) (c0 : CensorCache Re)
    (h0 : Reachable (goRegexp other) c0) (t0 text : Str) :
    let cA := (censor (goRegexp other) A c0 t0).2
    let rB := censor (goRegexp other) B cA text
    let rA := censor (goRegexp other) A rB.2 text
    cA.censored = A ∧
    rB.1 = (censor (goRegexp other) B (CensorCache.initial Re) text).1 ∧ rB.1 ≠ none ∧
    rB.2.censored = B ∧
    rA.1 = (censor (goRegexp other) A (CensorCache.initial Re) text).1 ∧ rA.1 ≠ none ∧
    rA.2.censored = A := by
  intro cA rB rA
  have hcA : Reachable (goRegexp other) cA := Reachable.call c0 A t0 h0
  have eB : rB = _ := censor_alnum other B hB cA hcA text
  have hcB : Reachable (goRegexp other) rB.2 := Reachable.call cA B text hcA
  have eA : rA = _ := censor_alnum other A hA rB.2 hcB text
  refine ⟨censor_censored _ A c0 t0, ?_, ?_, censor_censored _ B cA text, ?_, ?_,
    censor_censored _ A rB.2 text⟩
  · rw [eB, censor_alnum other B hB _ Reachable.start text]
  · rw [eB]
    exact Option.some_ne_none _
  · rw [eA, censor_alnum other A hA _ Reachable.start text]
  · rw [eA]
    exact Option.some_ne_none _

/-! ## Word lists with an empty entry -/

theorem matchAt_eps (tpl : List TItem) (n : Nat) (t : Str) :
    matchAt .eps tpl n t = some (expand [] [] tpl, 0) := by
  simp [matchAt]

/-- A matcher that matches the empty string everywhere puts the replacement in
front of every character and at the end. -/
theorem rewriteAux_everywhere (m : Str → Option (Str × Nat)) (e : Str)
    (hm : ∀ t, m t = some (e, 0)) : ∀ (s : Str),
    rewriteAux m s 0 false = s.flatMap (fun c => e ++ [c]) ++ e
  | [] => by simp [rewriteAux, hm]
  | c :: cs => by
      have := rewriteAux_everywhere m e hm cs
      simp [rewriteAux, hm, this]

/-- C12 at the failing inputs: once the cache holds a non-empty word list, a
call of `censor` under the empty live list compiles the pattern of the single
empty entry, which matches the empty string everywhere, and returns the text
with four asterisks in front of every character and at the end, not the text. -/
theorem C12_cleared_list_censors_everywhere (other : Str → Option Re)
    (cache : CensorCache Re) (h : cache.censored ≠ []) (text : Str) :
    censor (goRegexp other) [] cache text =
      (some (text.flatMap (fun c => "****".toList ++ [c]) ++ "****".toList),
        ⟨[], some .eps⟩) := by
  rw [censor_rebuild (goRegexp other) [] cache text (fun e => h e.symm) .eps rfl]
  show (some (rewriteAux (matchAt .eps [.text "****".toList] text.length) text 0 false), _) = _
  rw [rewriteAux_everywhere _ "****".toList (fun t => by rw [matchAt_eps]; rfl) text]

/-- C12 at the cache left by a call under the list `foo`: the text `ab` comes
back as `****a****b****`. -/
theorem C12_cleared_list_witness :
    Reachable (goRegexp (fun _ => none))
      (censor (goRegexp (fun _ => none)) "foo".toList (CensorCache.initial Re) "x".toList).2 ∧
    (censor (goRegexp (fun _ => none)) "foo".toList (CensorCache.initial Re)
      "x".toList).2.censored ≠ [] ∧
    censor (goRegexp (fun _ => none)) []
      (censor (goRegexp (fun _ => none)) "foo".toList (CensorCache.initial Re) "x".toList).2
      "ab".toList = (some "****a****b****".toList, ⟨[], some .eps⟩) :=
  ⟨Reachable.call _ _ _ Reachable.start, by decide,
    C12_cleared_list_censors_everywhere (fun _ => none) _ (by decide) "ab".toList⟩

/-- C14 at the failing inputs: an entry that is empty after trimming becomes an
empty alternative of the pattern, which matches the empty string wherever no
earlier alternative matches.  Under `foo,,bar` the text `xbar` keeps `bar` and
gets asterisks at every position, while `foo,bar` censors `bar`; under
`foo,bar,` the text `x`, which holds neither word, is not returned unchanged;
under `foo` followed by a blank entry the text `x foo` differs from the result
under `foo`. -/
theorem C14_empty_entry_matches_everywhere (other : Str → Option Re) :
    (censor (goRegexp other) "foo,,bar".toList (CensorCache.initial Re) "xbar".toList).1
      = some "****x****b****a****r****".toList ∧
    (censor (goRegexp other) "foo,bar".toList (CensorCache.initial Re) "xbar".toList).1
      = some "x****".toList ∧
    (censor (goRegexp other) "foo,bar,".toList (CensorCache.initial Re) "x".toList).1
      = some "****x****".toList ∧
    (censor (goRegexp other) "foo,bar".toList (CensorCache.initial Re) "x".toList).1
      = some "x".toList ∧
    (censor (goRegexp other) "foo, ".toList (CensorCache.initial Re) "x foo".toList).1
      = some "****x**** ****".toList ∧
    (censor (goRegexp other) "foo".toList (CensorCache.initial Re) "x foo".toList).1
      = some "x ****".toList :=
  ⟨rfl, rfl, rfl, rfl, rfl, rfl⟩

/-- C13 at the lists `foo,bar` and `baz`: the call under `baz` censors only
`baz`, the following call under `foo,bar` censors only `foo` and `bar`. -/
theorem C13_cache_witness :
    alnumList "foo,bar".toList ∧ alnumList "baz".toList ∧
    Reachable (goRegexp (fun _ => none)) (CensorCache.initial Re) ∧
    (censor (goRegexp (fun _ => none)) "baz".toList
      (censor (goRegexp (fun _ => none)) "foo,bar".toList (CensorCache.initial Re)
        "x".toList).2 "Foo baz".toList).1 = some "Foo ****".toList ∧
    (let cA := (censor (goRegexp (fun _ => none)) "foo,bar".toList (CensorCache.initial Re)
        "x".toList).2
     let rB := censor (goRegexp (fun _ => none)) "baz".toList cA "Foo baz".toList
     let rA := censor (goRegexp (fun _ => none)) "foo,bar".toList rB.2 "Foo baz".toList
     cA.censored = "foo,bar".toList ∧
     rB.1 = (censor (goRegexp (fun _ => none)) "baz".toList (CensorCache.initial Re)
       "Foo baz".toList).1 ∧ rB.1 ≠ none ∧
     rB.2.censored = "baz".toList ∧
     rA.1 = (censor (goRegexp (fun _ => none)) "foo,bar".toList (CensorCache.initial Re)
       "Foo baz".toList).1 ∧ rA.1 ≠ none ∧
     rA.2.censored = "foo,bar".toList) :=
  ⟨by decide, by decide, Reachable.start, by decide,
    C13_cache_is_never_stale (fun _ => none) "foo,bar".toList "baz".toList (by decide)
      (by decide) (CensorCache.initial Re) Reachable.start "x".toList "Foo baz".toList⟩

/-! ## Entries with pattern metacharacters -/

/-- C15 at the failing inputs: when `regexp.MustCompile` panics on the patterns
built from the word lists `(` and `*`, as it does on every pattern that is not a
regular expression, the call of `censor` that meets the new list panics for
every text, and so does `formatComment`; the cached source string has been
updated before, so that the next call under the same list compiles nothing and
returns the text uncensored. -/
theorem C15_censor_panics_on_metacharacter (other : Str → Option Re)
    (h1 : other "(?i:()".toList = none) (h2 : other "(?i:*)".toList = none) (text : Str) :
    censor (goRegexp other) "(".toList (CensorCache.initial Re) text
      = (none, ⟨"(".toList, none⟩) ∧
    censor (goRegexp other) "*".toList (CensorCache.initial Re) text
      = (none, ⟨"*".toList, none⟩) ∧
    (formatComment (goRegexp other) "(".toList (CensorCache.initial Re) text).1 = none ∧
    censor (goRegexp other) "(".toList ⟨"(".toList, none⟩ text
      = (some text, ⟨"(".toList, none⟩) := by
  have e1 : (goRegexp other).mustCompile (censorPattern "(".toList) = none := h1
  have e2 : (goRegexp other).mustCompile (censorPattern "*".toList) = none := h2
  refine ⟨censor_panic _ _ _ text (by decide) e1, censor_panic _ _ _ text (by decide) e2, ?_,
    ?_⟩
  · show (censor (goRegexp other) "(".toList (CensorCache.initial Re) (formatted text)).1 = none
    rw [censor_panic _ _ _ (formatted text) (by decide) e1]
  · exact (censor_same (goRegexp other) "(".toList ⟨"(".toList, none⟩ text rfl).trans rfl

/-- C15 for a library that rejects every pattern that is not an alternation of
words of letters and digits. -/
theorem C15_censor_panics_witness :
    (fun _ => none : Str → Option Re) "(?i:()".toList = none ∧
    (fun _ => none : Str → Option Re) "(?i:*)".toList = none ∧
    censor (goRegexp (fun _ => none)) "(".toList (CensorCache.initial Re) "hello".toList
      = (none, ⟨"(".toList, none⟩) ∧
    censor (goRegexp (fun _ => none)) "*".toList (CensorCache.initial Re) "hello".toList
      = (none, ⟨"*".toList, none⟩) ∧
    (formatComment (goRegexp (fun _ => none)) "(".toList (CensorCache.initial Re)
      "hello".toList).1 = none ∧
    censor (goRegexp (fun _ => none)) "(".toList ⟨"(".toList, none⟩ "hello".toList
      = (some "hello".toList, ⟨"(".toList, none⟩) :=
  ⟨rfl, rfl, C15_censor_panics_on_metacharacter (fun _ => none) rfl rfl "hello".toList⟩

/-! ## Markers around a line break -/

theorem run_oldCode_nil_of (n : Nat) (caps : Caps) (t : Str)
    (h1 : t.length = n → hasPrefix t "    ".toList = false)
    (h2 : hasPrefix t "\n    ".toList = false) : run n oldCodeRe (caps, t) = [] := by
  cases t with
  | nil => exact run_oldCode_nil n caps [] h1 (by simp)
  | cons c r =>
    by_cases hc : c = '\n'
    · subst hc
      have h3 : hasPrefix r "    ".toList = false := by
        simpa using h2
      have hA : ∀ X : Re, run n (.seq (lit "    ".toList) X) (caps, '\n' :: r) = [] := by
        intro X
        rw [run_seq_lit]
        have : hasPrefix ('\n' :: r) "    ".toList = false := rfl
        rw [this]
        rfl
      have hB : ∀ X : Re, run n (.seq (lit "    ".toList) X) (caps, r) = [] := by
        intro X
        rw [run_seq_lit, h3]
        rfl
      have e1 : hasPrefix ('\n' :: r) ['\n'] = true := by simp
      rw [oldCodeRe, run_seq, run_alt, List.flatMap_append, run_chr, run_bol, e1]
      simp only [if_true, List.drop_succ_cons, List.drop_zero, List.flatMap_cons,
        List.flatMap_nil, List.append_nil, hB]
      split_ifs with h
      · simp only [List.flatMap_cons, List.flatMap_nil, List.append_nil, hA]
      · rfl
    · exact run_oldCode_nil n caps (c :: r) h1 (by simpa using hc)

/-- The code-block step leaves a text as it is that has no backtick and no
`<`, does not begin with four blanks and has no line that does. -/
theorem codeBlocks_id_lines (s : Str) (hbt : Char.ofNat 96 ∉ s) (hlt : '<' ∉ s)
    (h1 : hasPrefix s "    ".toList = false)
    (h2 : containsStr "\n    ".toList s = false) : codeBlocks s = s := by
  unfold codeBlocks
  rw [if_neg (by
    have := containsStr_of_not_mem (Char.ofNat 96) "``".toList s hbt
    intro h
    rw [show "```".toList = Char.ofNat 96 :: "``".toList from rfl, this] at h
    exact Bool.noConfusion h)]
  rw [replaceAllString_id oldCodeRe preTpl s (fun t ht =>
    run_oldCode_nil_of _ _ t (fun hl => by rw [ht.eq_of_length hl]; exact h1)
      ((containsStr_false _ s).1 h2 t ht))]
  exact stringsReplace_id _ _ _ (containsStr_of_not_mem '<' _ s hlt)

/-- The steps of `formatComment` before the bold pass, on two plain lines
between markers of asterisks: the only change is that the line break becomes
the tag `<br>`. -/
theorem lineBreaks_marked (mk a b : Str) (hmk : ∀ c ∈ mk, c = '*') (hmk0 : mk ≠ [])
    (hb : b ≠ []) (hpa : plainText a) (hpb : plainText b)
    (hsp : hasPrefix b "    ".toList = false) :
    lineBreaks (codeBlocks (HTMLEscapeString (stripCR (mk ++ (a ++ '\n' :: (b ++ mk)))))) =
      mk ++ (HTMLEscapeString a ++ ("<br>".toList ++ (HTMLEscapeString b ++ mk))) := by
  obtain ⟨ha1, ha2, ha3, ha4, _⟩ := hpa
  obtain ⟨hb1, hb2, hb3, hb4, _⟩ := hpb
  have hmkc : ∀ d : Char, d ≠ '*' → d ∉ mk := fun d hd hm => hd (hmk d hm)
  have hcr : '\r' ∉ mk ++ (a ++ '\n' :: (b ++ mk)) := by
    simp only [List.mem_append, List.mem_cons, not_or]
    exact ⟨hmkc _ (by decide), ha1, by decide, hb1, hmkc _ (by decide)⟩
  have e0 : stripCR (mk ++ (a ++ '\n' :: (b ++ mk))) = mk ++ (a ++ '\n' :: (b ++ mk)) :=
    stringsReplace_id _ _ _ (containsStr_of_not_mem _ _ _ hcr)
  have emk : HTMLEscapeString mk = mk :=
    escape_id mk (fun c hc => by rw [hmk c hc]; rfl)
  have e1 : HTMLEscapeString (mk ++ (a ++ '\n' :: (b ++ mk))) =
      mk ++ (HTMLEscapeString a ++ '\n' :: (HTMLEscapeString b ++ mk)) := by
    rw [HTMLEscapeString_append, HTMLEscapeString_append, HTMLEscapeString_cons,
      HTMLEscapeString_append, emk]
    rfl
  have hA1 : '\n' ∉ HTMLEscapeString a := not_mem_escape _ (by decide) _ ha2
  have hB1 : '\n' ∉ HTMLEscapeString b := not_mem_escape _ (by decide) _ hb2
  have hA2 : Char.ofNat 96 ∉ HTMLEscapeString a := not_mem_escape _ (by decide) _ ha4
  have hB2 : Char.ofNat 96 ∉ HTMLEscapeString b := not_mem_escape _ (by decide) _ hb4
  have hbt : Char.ofNat 96 ∉ mk ++ (HTMLEscapeString a ++ '\n' :: (HTMLEscapeString b ++ mk)) := by
    simp only [List.mem_append, List.mem_cons, not_or]
    exact ⟨hmkc _ (by decide), hA2, by decide, hB2, hmkc _ (by decide)⟩
  have hlt : '<' ∉ mk ++ (HTMLEscapeString a ++ '\n' :: (HTMLEscapeString b ++ mk)) := by
    simp only [List.mem_append, List.mem_cons, not_or]
    exact ⟨hmkc _ (by decide), lt_not_mem_escape a, by decide, lt_not_mem_escape b,
      hmkc _ (by decide)⟩
  have hp1 : hasPrefix (mk ++ (HTMLEscapeString a ++ '\n' :: (HTMLEscapeString b ++ mk)))
      "    ".toList = false := by
    cases mk with
    | nil => exact absurd rfl hmk0
    | cons c mk =>
      rw [hmk c (List.mem_cons_self _ _)]
      rfl
  have hp2 : hasPrefix (HTMLEscapeString b ++ mk) "    ".toList = false := by
    rw [hasPrefix_append_disjoint mk _ _ (by decide) (fun c hc => hmkc c (by
      revert hc
      revert c
      decide)),
      hasPrefix_escape _ (by decide), hsp]
  have hp3 : containsStr "\n    ".toList
      (mk ++ (HTMLEscapeString a ++ '\n' :: (HTMLEscapeString b ++ mk))) = false := by
    rw [← List.append_assoc]
    rw [show "\n    ".toList = '\n' :: "    ".toList from rfl,
      containsStr_append_heads '\n' "    ".toList _ (mk ++ HTMLEscapeString a) (by
        intro c hc
        rcases List.mem_append.1 hc with h | h
        · rw [hmk c h]; decide
        · rintro rfl
          exact hA1 h)]
    have hrest : '\n' ∉ HTMLEscapeString b ++ mk := by
      simp only [List.mem_append, not_or]
      exact ⟨hB1, hmkc _ (by decide)⟩
    simp only [containsStr, hasPrefix_cons_cons, beq_self_eq_true, Bool.true_and, hp2,
      Bool.false_or]
    cases hh : HTMLEscapeString b ++ mk with
    | nil => rfl
    | cons x y =>
      rw [← hh]
      exact containsStr_of_not_mem '\n' _ _ hrest
  rw [e0, e1, codeBlocks_id_lines _ hbt hlt hp1 hp3]
  have hj := lineBreaks_joined (mk ++ HTMLEscapeString a) [HTMLEscapeString b ++ mk] (by
      simp only [List.mem_append, not_or]
      exact ⟨hmkc _ (by decide), hA1⟩) (by
      intro F hF
      rw [List.mem_singleton] at hF
      subst hF
      refine ⟨?_, ?_⟩
      · intro e
        exact HTMLEscapeString_ne_nil b hb (List.append_eq_nil.1 e).1
      · simp only [List.mem_append, not_or]
        exact ⟨hB1, hmkc _ (by decide)⟩)
  simp only [List.flatMap_cons, List.flatMap_nil, List.append_nil, List.append_assoc] at hj
  exact hj

theorem matchAt_italic_intro (tpl : List TItem) (n : Nat) (x rest : Str) (hx : x ≠ [])
    (hp : ∀ c ∈ x, notStarNl c = true) :
    matchAt italicRe tpl n ('*' :: x ++ '*' :: rest) =
      some (expand ('*' :: x ++ ['*']) [(1, x)] tpl, ('*' :: x ++ ['*']).length) := by
  have hs := takeWhile_append_stop notStarNl ('*' :: rest) (by simp [notStarNl]) x hp
  have hd : ('*' :: x ++ '*' :: rest).drop 1 = x ++ '*' :: rest := rfl
  unfold matchAt
  rw [run_italic, hd, hs.1, hs.2, if_pos]
  · have hl : ('*' :: x ++ '*' :: rest).length - (('*' :: rest).drop 1).length
        = ('*' :: x ++ ['*']).length := by
      simp only [List.length_append, List.length_cons, List.length_nil,
        List.drop_succ_cons, List.cons_append, List.drop_zero]
      omega
    simp only [List.head?_cons, hl]
    have e : '*' :: x ++ '*' :: rest = ('*' :: x ++ ['*']) ++ rest := by simp
    rw [e, List.take_left]
  · refine ⟨?_, hx, ?_⟩
    · simp
    · simp

theorem italic_whole (E : Str) (hE : E ≠ []) (hp : ∀ c ∈ E, notStarNl c = true) :
    replaceAllString italicRe italicTpl ('*' :: E ++ ['*']) =
      "<em>".toList ++ E ++ "</em>".toList := by
  unfold replaceAllString
  have hm := matchAt_italic_intro italicTpl ('*' :: E ++ ['*']).length E [] hE hp
  have step := rewriteAux_match (matchAt italicRe italicTpl ('*' :: E ++ ['*']).length)
    ('*' :: E ++ ['*']) [] _ false (by simp) (by rw [List.append_nil]; exact hm)
  rw [List.append_nil] at step
  rw [step, rewriteAux_id _ [] true ?_]
  · simp [italicTpl, expand, getCap]
  · intro t ht
    have : t = [] := List.eq_nil_of_suffix_nil ht
    subst this
    unfold matchAt
    rw [run_italic_nil _ _ [] (by simp)]
    rfl

theorem no_double_star : ∀ (E : Str), '*' ∉ E → containsStr "**".toList (E ++ ['*']) = false
  | [], _ => rfl
  | c :: E, h => by
      have hc : c ≠ '*' := fun e => h (e ▸ List.mem_cons_self _ _)
      have ih := no_double_star E (fun hm => h (List.mem_cons_of_mem _ hm))
      simp only [List.cons_append, containsStr, Bool.or_eq_false_iff]
      refine ⟨?_, ih⟩
      exact hasPrefix_head_ne '*' ['*'] _ (by simpa using hc)

/-- The bold pass leaves a text between single asterisks as it is. -/
theorem bold_single (tpl : List TItem) (E : Str) (hE : E ≠ []) (h : '*' ∉ E) :
    replaceAllString boldRe tpl ('*' :: E ++ ['*']) = '*' :: E ++ ['*'] := by
  have hc : containsStr "**".toList ('*' :: E ++ ['*']) = false := by
    simp only [List.cons_append, containsStr, Bool.or_eq_false_iff]
    refine ⟨?_, no_double_star E h⟩
    cases E with
    | nil => exact absurd rfl hE
    | cons c E =>
      have hc : c ≠ '*' := fun e => h (e ▸ List.mem_cons_self _ _)
      simp [hc]
  apply replaceAllString_id
  intro t ht
  rw [run_bold, if_neg]
  intro hh
  rw [(containsStr_false _ _).1 hc t ht] at hh
  exact Bool.noConfusion hh.1

/-- Two escaped plain lines joined by `<br>` inside a tag pair hold no URL scheme. -/
theorem noUrl_two_lines (u v a b : Str) (hu : 'h' ∉ u) (hv : 'h' ∉ v)
    (hh : ∀ c ∈ v.head?, c = '<') (ha : noUrl a) (hb : noUrl b) :
    noUrl (u ++ (HTMLEscapeString a ++ ("<br>".toList ++ (HTMLEscapeString b ++ v)))) := by
  have h1 : noUrl ("<br>".toList ++ (HTMLEscapeString b ++ v)) :=
    noUrl_wrap _ _ _ (by decide) hv hh (noUrl_escape b hb)
  have hA := noUrl_escape a ha
  have h2 : noUrl (HTMLEscapeString a ++ ("<br>".toList ++ (HTMLEscapeString b ++ v))) :=
    ⟨containsStr_append_seam _ _ h1.1 (fun c hc => by
        simp only [String.toList, List.cons_append, List.head?_cons, Option.mem_def,
          Option.some.injEq] at hc
        rw [← hc]; decide) _ hA.1,
      containsStr_append_seam _ _ h1.2 (fun c hc => by
        simp only [String.toList, List.cons_append, List.head?_cons, Option.mem_def,
          Option.some.injEq] at hc
        rw [← hc]; decide) _ hA.2⟩
  exact ⟨(containsStr_append_heads 'h' "ttp://".toList _ u
      (fun c hc => by rintro rfl; exact hu hc)).trans h2.1,
    (containsStr_append_heads 'h' "ttps://".toList _ u
      (fun c hc => by rintro rfl; exact hu hc)).trans h2.2⟩

theorem formatted_bold_lines (a b : Str) (ha : a ≠ []) (hb : b ≠ []) (hpa : plainText a)
    (hpb : plainText b) (hsp : hasPrefix b "    ".toList = false) :
    formatted ("**".toList ++ a ++ "\n".toList ++ b ++ "**".toList) =
      "<p><b>".toList ++ HTMLEscapeString a ++ "<br>".toList ++ HTMLEscapeString b ++
        "</b></p>".toList := by
  have e : "**".toList ++ a ++ "\n".toList ++ b ++ "**".toList =
      "**".toList ++ (a ++ '\n' :: (b ++ "**".toList)) := by simp
  have h1 := lineBreaks_marked "**".toList a b (by decide) (by decide) hb hpa hpb hsp
  have hE : ∀ c ∈ HTMLEscapeString a ++ ("<br>".toList ++ HTMLEscapeString b),
      notStarNl c = true := by
    have hlit : ∀ c ∈ "<br>".toList, notStarNl c = true := by decide
    intro c hc
    rcases List.mem_append.1 hc with h | h
    · simp only [notStarNl, Bool.and_eq_true, bne_iff_ne, ne_eq]
      exact ⟨fun e => not_mem_escape _ (by decide) _ hpa.2.2.1 (e ▸ h),
        fun e => not_mem_escape _ (by decide) _ hpa.2.1 (e ▸ h)⟩
    · rcases List.mem_append.1 h with h | h
      · exact hlit c h
      · simp only [notStarNl, Bool.and_eq_true, bne_iff_ne, ne_eq]
        exact ⟨fun e => not_mem_escape _ (by decide) _ hpb.2.2.1 (e ▸ h),
          fun e => not_mem_escape _ (by decide) _ hpb.2.1 (e ▸ h)⟩
  have h2 := bold_whole (HTMLEscapeString a ++ ("<br>".toList ++ HTMLEscapeString b))
    (fun e => HTMLEscapeString_ne_nil a ha (List.append_eq_nil.1 e).1) hE
  have e2 : "**".toList ++ (HTMLEscapeString a ++ ("<br>".toList ++ (HTMLEscapeString b ++
      "**".toList))) = "**".toList ++ (HTMLEscapeString a ++ ("<br>".toList ++
        HTMLEscapeString b)) ++ "**".toList := by simp
  have hst : '*' ∉ "<b>".toList ++ (HTMLEscapeString a ++ ("<br>".toList ++ HTMLEscapeString b))
      ++ "</b>".toList := by
    have hlit : '*' ∉ "<b>".toList ∧ '*' ∉ "</b>".toList := by decide
    have hmid : '*' ∉ HTMLEscapeString a ++ ("<br>".toList ++ HTMLEscapeString b) := by
      intro h
      have := hE '*' h
      simp [notStarNl] at this
    intro h
    rcases List.mem_append.1 h with h | h
    · rcases List.mem_append.1 h with h | h
      · exact hlit.1 h
      · exact hmid h
    · exact hlit.2 h
  have hurl := noUrl_two_lines "<b>".toList "</b>".toList a b (by decide) (by decide)
    (by decide) hpa.2.2.2.2 hpb.2.2.2.2
  have e3 : "<b>".toList ++ (HTMLEscapeString a ++ ("<br>".toList ++ HTMLEscapeString b))
      ++ "</b>".toList = "<b>".toList ++ (HTMLEscapeString a ++ ("<br>".toList ++
        (HTMLEscapeString b ++ "</b>".toList))) := by simp
  show "<p>".toList ++ replaceAllString linkRe linkTpl (replaceAllString italicRe italicTpl
    (replaceAllString boldRe boldTpl (lineBreaks (codeBlocks (HTMLEscapeString (stripCR
      ("**".toList ++ a ++ "\n".toList ++ b ++ "**".toList))))))) ++ "</p>".toList = _
  rw [e, h1, e2, h2, italic_id _ _ hst, e3, link_id _ _ hurl]
  simp

theorem formatted_italic_lines (a b : Str) (ha : a ≠ []) (hb : b ≠ []) (hpa : plainText a)
    (hpb : plainText b) (hsp : hasPrefix b "    ".toList = false) :
    formatted ("*".toList ++ a ++ "\n".toList ++ b ++ "*".toList) =
      "<p><em>".toList ++ HTMLEscapeString a ++ "<br>".toList ++ HTMLEscapeString b ++
        "</em></p>".toList := by
  have e : "*".toList ++ a ++ "\n".toList ++ b ++ "*".toList =
      "*".toList ++ (a ++ '\n' :: (b ++ "*".toList)) := by simp
  have h1 := lineBreaks_marked "*".toList a b (by decide) (by decide) hb hpa hpb hsp
  have hE : ∀ c ∈ HTMLEscapeString a ++ ("<br>".toList ++ HTMLEscapeString b),
      notStarNl c = true := by
    have hlit : ∀ c ∈ "<br>".toList, notStarNl c = true := by decide
    intro c hc
    rcases List.mem_append.1 hc with h | h
    · simp only [notStarNl, Bool.and_eq_true, bne_iff_ne, ne_eq]
      exact ⟨fun e => not_mem_escape _ (by decide) _ hpa.2.2.1 (e ▸ h),
        fun e => not_mem_escape _ (by decide) _ hpa.2.1 (e ▸ h)⟩
    · rcases List.mem_append.1 h with h | h
      · exact hlit c h
      · simp only [notStarNl, Bool.and_eq_true, bne_iff_ne, ne_eq]
        exact ⟨fun e => not_mem_escape _ (by decide) _ hpb.2.2.1 (e ▸ h),
          fun e => not_mem_escape _ (by decide) _ hpb.2.1 (e ▸ h)⟩
  have hne : HTMLEscapeString a ++ ("<br>".toList ++ HTMLEscapeString b) ≠ [] :=
    fun e => HTMLEscapeString_ne_nil a ha (List.append_eq_nil.1 e).1
  have hstE : '*' ∉ HTMLEscapeString a ++ ("<br>".toList ++ HTMLEscapeString b) := by
    intro h
    have := hE '*' h
    simp [notStarNl] at this
  have h2 := bold_single boldTpl _ hne hstE
  have h3 := italic_whole _ hne hE
  have e2 : "*".toList ++ (HTMLEscapeString a ++ ("<br>".toList ++ (HTMLEscapeString b ++
      "*".toList))) = '*' :: (HTMLEscapeString a ++ ("<br>".toList ++
        HTMLEscapeString b)) ++ ['*'] := by simp
  have hurl := noUrl_two_lines "<em>".toList "</em>".toList a b (by decide) (by decide)
    (by decide) hpa.2.2.2.2 hpb.2.2.2.2
  have e3 : "<em>".toList ++ (HTMLEscapeString a ++ ("<br>".toList ++ HTMLEscapeString b))
      ++ "</em>".toList = "<em>".toList ++ (HTMLEscapeString a ++ ("<br>".toList ++
        (HTMLEscapeString b ++ "</em>".toList))) := by simp
  show "<p>".toList ++ replaceAllString linkRe linkTpl (replaceAllString italicRe italicTpl
    (replaceAllString boldRe boldTpl (lineBreaks (codeBlocks (HTMLEscapeString (stripCR
      ("*".toList ++ a ++ "\n".toList ++ b ++ "*".toList))))))) ++ "</p>".toList = _
  rw [e, h1, e2, h2, h3, e3, link_id _ _ hurl]
  simp

/-- C16 at the failing inputs: for all non-empty a and b without asterisk,
newline, carriage return, backtick and URL scheme, b not beginning with four
blanks, the markers around a, a line break and b do pair up.  The line break has
become the tag `<br>` before the bold and italic patterns are applied, so the
text between the markers holds no newline any more: the rendering of the text
between `**` markers is one `<b>` element and that of the text between `*`
markers is one `<em>` element, both spanning the `<br>`. -/
theorem C16_markers_pair_across_line_break {R : Type} (lib : RegexpLib R) (a b : Str)
    (ha : a ≠ []) (hb : b ≠ []) (hpa : plainText a) (hpb : plainText b)
    (hsp : hasPrefix b "    ".toList = false) :
    formatComment lib [] (CensorCache.initial R)
        ("**".toList ++ a ++ "\n".toList ++ b ++ "**".toList) =
      (some ("<p><b>".toList ++ HTMLEscapeString a ++ "<br>".toList ++ HTMLEscapeString b ++
        "</b></p>".toList), CensorCache.initial R) ∧
    formatComment lib [] (CensorCache.initial R)
        ("*".toList ++ a ++ "\n".toList ++ b ++ "*".toList) =
      (some ("<p><em>".toList ++ HTMLEscapeString a ++ "<br>".toList ++ HTMLEscapeString b ++
        "</em></p>".toList), CensorCache.initial R) ∧
    containsStr "<b>".toList ("<p><b>".toList ++ HTMLEscapeString a ++ "<br>".toList ++
      HTMLEscapeString b ++ "</b></p>".toList) = true ∧
    containsStr "<em>".toList ("<p><em>".toList ++ HTMLEscapeString a ++ "<br>".toList ++
      HTMLEscapeString b ++ "</em></p>".toList) = true := by
  refine ⟨?_, ?_, ?_, ?_⟩
  · rw [formatComment, formatted_bold_lines a b ha hb hpa hpb hsp, censor_initial]
  · rw [formatComment, formatted_italic_lines a b ha hb hpa hpb hsp, censor_initial]
  · rw [containsStr_true]
    exact ⟨"<p>".toList, HTMLEscapeString a ++ "<br>".toList ++ HTMLEscapeString b ++
      "</b></p>".toList, by simp⟩
  · rw [containsStr_true]
    exact ⟨"<p>".toList, HTMLEscapeString a ++ "<br>".toList ++ HTMLEscapeString b ++
      "</em></p>".toList, by simp⟩

/-- C16 at a = `a`, b = `b`. -/
theorem C16_markers_witness :
    ("a".toList ≠ [] ∧ "b".toList ≠ [] ∧ plainText "a".toList ∧ plainText "b".toList ∧
      hasPrefix "b".toList "    ".toList = false) ∧
    formatComment panicLib [] (CensorCache.initial Unit) "**a\nb**".toList =
      (some "<p><b>a<br>b</b></p>".toList, CensorCache.initial Unit) ∧
    formatComment panicLib [] (CensorCache.initial Unit) "*a\nb*".toList =
      (some "<p><em>a<br>b</em></p>".toList, CensorCache.initial Unit) ∧
    containsStr "<b>".toList "<p><b>a<br>b</b></p>".toList = true ∧
    containsStr "<em>".toList "<p><em>a<br>b</em></p>".toList = true :=
  ⟨by decide, C16_markers_pair_across_line_break panicLib "a".toList "b".toList (by decide)
    (by decide) (by decide) (by decide) (by decide)⟩

/-! ## Rewriting keeps the number of starts of a tag -/

theorem countStr_nil (w : Str) (hw : w ≠ []) : countStr w [] = 0 := by
  cases w with
  | nil => exact absurd rfl hw
  | cons a w => rfl

/-- The starts of a word in a text that is cut at a character which the word
holds at most as its first are those in front of the cut and those from it on. -/
theorem countStr_cut (w : Str) (hw : w ≠ []) (c : Char) (z : Str) (hc : c ∉ w.tail) :
    ∀ x : Str, countStr w (x ++ c :: z) = countStr w x + countStr w (c :: z)
  | [] => by rw [countStr_nil w hw]; simp
  | a :: x => by
      have ih := countStr_cut w hw c z hc x
      have e : hasPrefix ((a :: x) ++ c :: z) w = hasPrefix (a :: x) w := by
        cases h : hasPrefix (a :: x) w with
        | true => exact hasPrefix_append_right _ _ _ h
        | false =>
          cases h2 : hasPrefix ((a :: x) ++ c :: z) w with
          | false => rfl
          | true =>
            rw [hasPrefix_cut c z (a :: x) w (by simp) hc h2] at h
            exact Bool.noConfusion h
      show (if hasPrefix ((a :: x) ++ c :: z) w = true then 1 else 0) + countStr w (x ++ c :: z) =
        (if hasPrefix (a :: x) w = true then 1 else 0) + countStr w x + countStr w (c :: z)
      rw [e, ih]
      omega

/-- A word that holds no character at which a match can start, and that begins
the text, begins the rewritten text. -/
theorem rewriteAux_keep (m : Str → Option (Str × Nat)) (st : Char → Bool)
    (hst : ∀ t e k, m t = some (e, k) → ∃ c r, t = c :: r ∧ st c = true) :
    ∀ (w t : Str) (am : Bool), (∀ a ∈ w, st a = false) → hasPrefix t w = true →
      hasPrefix (rewriteAux m t 0 am) w = true
  | [], _, _, _, _ => by simp
  | a :: w, [], _, _, h => by simp at h
  | a :: w, c :: cs, am, hw, h => by
      simp only [hasPrefix_cons_cons, Bool.and_eq_true, beq_iff_eq] at h
      obtain ⟨rfl, h2⟩ := h
      have hm : m (c :: cs) = none := by
        cases hmc : m (c :: cs) with
        | none => rfl
        | some p =>
          obtain ⟨e, k⟩ := p
          obtain ⟨c2, r, h1, h3⟩ := hst _ _ _ hmc
          simp only [List.cons.injEq] at h1
          rw [← h1.1, hw c (List.mem_cons_self _ _)] at h3
          exact Bool.noConfusion h3
      rw [rewriteAux_cons m c cs am hm]
      simp only [hasPrefix_cons_cons, beq_self_eq_true, Bool.true_and]
      exact rewriteAux_keep m st hst w cs false (fun a ha => hw a (List.mem_cons_of_mem _ ha)) h2

/-- A rewriting whose matches start at a character outside the tag, whose
replacements start with `<`, and that replaces every match by a text with as
many starts of the tag, keeps the number of starts of the tag. -/
theorem rewriteAux_countStr (ds : Str) (hds : '<' ∉ ds) (st : Char → Bool)
    (hst : ∀ a ∈ '<' :: ds, st a = false) (m : Str → Option (Str × Nat))
    (hm : ∀ t e k, m t = some (e, k) →
      ∃ c x r, t = c :: x ++ r ∧ k = x.length + 1 ∧ st c = true ∧ e.head? = some '<' ∧
        ∀ r2, countStr ('<' :: ds) (e ++ r2) + countStr ('<' :: ds) r =
          countStr ('<' :: ds) r2 + countStr ('<' :: ds) (c :: x ++ r)) :
    ∀ (len : Nat) (s : Str), s.length ≤ len → ∀ am,
      countStr ('<' :: ds) (rewriteAux m s 0 am) = countStr ('<' :: ds) s := by
  have hm1 : ∀ t e k, m t = some (e, k) → ∃ c x r, t = c :: x ++ r ∧ k = x.length + 1 := by
    intro t e k h
    obtain ⟨c, x, r, h1, h2, _⟩ := hm t e k h
    exact ⟨c, x, r, h1, h2⟩
  have hm2 : ∀ t e k, m t = some (e, k) →
      ∃ c x r, t = c :: x ++ r ∧ k = x.length + 1 ∧ e.head? = some '<' := by
    intro t e k h
    obtain ⟨c, x, r, h1, h2, _, h3, _⟩ := hm t e k h
    exact ⟨c, x, r, h1, h2, h3⟩
  have hm3 : ∀ t e k, m t = some (e, k) → ∃ c r, t = c :: r ∧ st c = true := by
    intro t e k h
    obtain ⟨c, x, r, h1, _, h3, _⟩ := hm t e k h
    exact ⟨c, x ++ r, h1, h3⟩
  intro len
  induction len with
  | zero =>
    intro s hs am
    have : s = [] := List.length_eq_zero.1 (Nat.le_zero.1 hs)
    subst this
    rw [rewriteAux_nil_of_shape m hm1]
  | succ len ih =>
    intro s hs am
    cases s with
    | nil => rw [rewriteAux_nil_of_shape m hm1]
    | cons c cs =>
      cases hmc : m (c :: cs) with
      | none =>
        rw [rewriteAux_cons m c cs am hmc]
        have e : hasPrefix (rewriteAux m cs 0 false) ds = hasPrefix cs ds := by
          cases h : hasPrefix cs ds with
          | true =>
            exact rewriteAux_keep m st hm3 ds cs false
              (fun a ha => hst a (List.mem_cons_of_mem _ ha)) h
          | false =>
            cases h2 : hasPrefix (rewriteAux m cs 0 false) ds with
            | false => rfl
            | true =>
              rw [hasPrefix_of_rewriteAux m hm2 ds cs false hds h2] at h
              exact Bool.noConfusion h
        show (if hasPrefix (c :: rewriteAux m cs 0 false) ('<' :: ds) = true then 1 else 0) +
          countStr ('<' :: ds) (rewriteAux m cs 0 false) =
          (if hasPrefix (c :: cs) ('<' :: ds) = true then 1 else 0) + countStr ('<' :: ds) cs
        rw [hasPrefix_cons_cons, hasPrefix_cons_cons, e, ih cs (by simpa using hs) false]
      | some p =>
        obtain ⟨e, k⟩ := p
        obtain ⟨c2, x, r, h1, h2, _, _, h5⟩ := hm _ _ _ hmc
        rw [rewriteAux_match_shape m _ e k am c2 x r h1 h2 hmc]
        have hl : r.length ≤ len := by
          have := congrArg List.length h1
          simp only [List.length_cons, List.length_append] at this hs
          omega
        have h6 := h5 (rewriteAux m r 0 true)
        rw [ih r hl true] at h6
        rw [h1]
        omega

/-! ## The in-line passes keep the `<pre>` region -/

theorem preTag_shape (w : Str) (hw : w = "<pre>".toList ∨ w = "</pre>".toList) :
    ∃ ds, w = '<' :: ds ∧ '<' ∉ ds ∧ '*' ∉ ds ∧ 'h' ∉ ds := by
  rcases hw with rfl | rfl
  · exact ⟨"pre>".toList, rfl, by decide, by decide, by decide⟩
  · exact ⟨"/pre>".toList, rfl, by decide, by decide, by decide⟩

/-- The tags and markers of the in-line passes hold no start of `<pre>` or
`</pre>`, whatever follows them. -/
theorem countStr_tags (w : Str) (hw : w = "<pre>".toList ∨ w = "</pre>".toList) (y : Str) :
    countStr w ("<b>".toList ++ y) = countStr w y ∧
    countStr w ("</b>".toList ++ y) = countStr w y ∧
    countStr w ("<em>".toList ++ y) = countStr w y ∧
    countStr w ("</em>".toList ++ y) = countStr w y ∧
    countStr w ("<a href=".toList ++ [Char.ofNat 34] ++ y) = countStr w y ∧
    countStr w (Char.ofNat 34 :: ">".toList ++ y) = countStr w y ∧
    countStr w ("</a>".toList ++ y) = countStr w y ∧
    countStr w ("<p>".toList ++ y) = countStr w y ∧
    countStr w ("</p>".toList ++ y) = countStr w y ∧
    countStr w ('*' :: y) = countStr w y := by
  rcases hw with rfl | rfl <;> simp [countStr]

theorem bold_countStr (w : Str) (hw : w = "<pre>".toList ∨ w = "</pre>".toList) (s : Str) :
    countStr w (replaceAllString boldRe boldTpl s) = countStr w s := by
  obtain ⟨ds, rfl, h1, h2, _⟩ := preTag_shape w hw
  have hst : '*' ∉ ('<' :: ds).tail := h2
  refine rewriteAux_countStr ds h1 (fun d => d == '*') (by
      intro a ha
      simp only [beq_eq_false_iff_ne, ne_eq]
      rintro rfl
      rcases List.mem_cons.1 ha with h | h
      · exact absurd h (by decide)
      · exact h2 h) _ ?_ s.length s le_rfl false
  intro t e k hm
  obtain ⟨x, rest, _, _, h3, h4, h5⟩ := matchAt_bold _ _ _ _ _ hm
  refine ⟨'*', '*' :: x ++ "**".toList, rest, ?_, ?_, rfl, ?_, ?_⟩
  · rw [h3]; simp
  · rw [h4]; simp
  · rw [h5]; rfl
  · intro r2
    have he : e = "<b>".toList ++ (x ++ '<' :: ("/b>".toList ++ [])) := by
      rw [h5]
      simp [boldTpl, expand, getCap]
    have e1 : e ++ r2 = "<b>".toList ++ (x ++ '<' :: ("/b>".toList ++ r2)) := by
      rw [he]; simp
    have e2 : '*' :: ('*' :: x ++ "**".toList) ++ rest = '*' :: '*' :: (x ++ '*' :: ('*' :: rest)) := by
      simp
    rw [e1, e2, (countStr_tags _ hw _).1, countStr_cut _ (List.cons_ne_nil _ _) '<' _ h1,
      (countStr_tags _ hw _).2.2.2.2.2.2.2.2.2, (countStr_tags _ hw _).2.2.2.2.2.2.2.2.2,
      countStr_cut _ (List.cons_ne_nil _ _) '*' _ hst,
      (countStr_tags _ hw _).2.2.2.2.2.2.2.2.2, (countStr_tags _ hw _).2.2.2.2.2.2.2.2.2]
    have := (countStr_tags ('<' :: ds) hw r2).2.1
    rw [show "</b>".toList ++ r2 = '<' :: ("/b>".toList ++ r2) from rfl] at this
    rw [this]
    omega

theorem italic_countStr (w : Str) (hw : w = "<pre>".toList ∨ w = "</pre>".toList) (s : Str) :
    countStr w (replaceAllString italicRe italicTpl s) = countStr w s := by
  obtain ⟨ds, rfl, h1, h2, _⟩ := preTag_shape w hw
  have hst : '*' ∉ ('<' :: ds).tail := h2
  refine rewriteAux_countStr ds h1 (fun d => d == '*') (by
      intro a ha
      simp only [beq_eq_false_iff_ne, ne_eq]
      rintro rfl
      rcases List.mem_cons.1 ha with h | h
      · exact absurd h (by decide)
      · exact h2 h) _ ?_ s.length s le_rfl false
  intro t e k hm
  obtain ⟨x, rest, _, _, h3, h4, h5⟩ := matchAt_italic _ _ _ _ _ hm
  refine ⟨'*', x ++ "*".toList, rest, ?_, ?_, rfl, ?_, ?_⟩
  · rw [h3]; simp
  · rw [h4]; simp
  · rw [h5]; rfl
  · intro r2
    have he : e = "<em>".toList ++ (x ++ '<' :: ("/em>".toList ++ [])) := by
      rw [h5]
      simp [italicTpl, expand, getCap]
    have e1 : e ++ r2 = "<em>".toList ++ (x ++ '<' :: ("/em>".toList ++ r2)) := by
      rw [he]; simp
    have e2 : '*' :: (x ++ "*".toList) ++ rest = '*' :: (x ++ '*' :: rest) := by
      simp
    rw [e1, e2, (countStr_tags _ hw _).2.2.1, countStr_cut _ (List.cons_ne_nil _ _) '<' _ h1,
      (countStr_tags _ hw _).2.2.2.2.2.2.2.2.2,
      countStr_cut _ (List.cons_ne_nil _ _) '*' _ hst,
      (countStr_tags _ hw _).2.2.2.2.2.2.2.2.2]
    have := (countStr_tags ('<' :: ds) hw r2).2.2.2.1
    rw [show "</em>".toList ++ r2 = '<' :: ("/em>".toList ++ r2) from rfl] at this
    rw [this]
    omega

theorem link_countStr (w : Str) (hw : w = "<pre>".toList ∨ w = "</pre>".toList) (s : Str) :
    countStr w (replaceAllString linkRe linkTpl s) = countStr w s := by
  obtain ⟨ds, rfl, h1, _, h3⟩ := preTag_shape w hw
  refine rewriteAux_countStr ds h1 (fun d => d == 'h') (by
      intro a ha
      simp only [beq_eq_false_iff_ne, ne_eq]
      rintro rfl
      rcases List.mem_cons.1 ha with h | h
      · exact absurd h (by decide)
      · exact h3 h) _ ?_ s.length s le_rfl false
  intro t e k hm
  obtain ⟨c, x, r, caps, g1, g2, g3, g4⟩ := matchAt_shape linkRe rfl _ _ _ _ _ hm
  have hc : c = 'h' := by
    by_contra hne
    have hp1 : hasPrefix t "http://".toList = false := by
      rw [g1]; simp [hne]
    have hp2 : hasPrefix t "https://".toList = false := by
      rw [g1]; simp [hne]
    rw [run_link_nil _ _ t hp1 hp2] at g4
    simp at g4
  obtain ⟨u, hu1, hu2⟩ := run_consumed s.length _ linkRe linkRe_within _ _ g4
  simp only at hu1
  have hu : u = c :: x := by
    rw [g1] at hu1
    exact (List.append_cancel_right hu1).symm
  have hlt : ∀ a ∈ c :: x, a ≠ '<' := by
    rw [← hu]
    exact hu2
  have he : e = "<a href=".toList ++ [Char.ofNat 34] ++ ((c :: x) ++
      (Char.ofNat 34 :: ">".toList ++ ((c :: x) ++ ("</a>".toList ++ [])))) := by
    rw [g3]
    simp [linkTpl, expand]
  refine ⟨c, x, r, g1, g2, by simp [hc], by rw [he]; rfl, ?_⟩
  intro r2
  have e1 : e ++ r2 = "<a href=".toList ++ [Char.ofNat 34] ++ ((c :: x) ++
      (Char.ofNat 34 :: ">".toList ++ ((c :: x) ++ ("</a>".toList ++ r2)))) := by
    rw [he]; simp
  rw [e1, (countStr_tags _ hw _).2.2.2.2.1, countStr_append_heads '<' ds _ (c :: x) hlt,
    (countStr_tags _ hw _).2.2.2.2.2.1, countStr_append_heads '<' ds _ (c :: x) hlt,
    (countStr_tags _ hw _).2.2.2.2.2.2.1, countStr_append_heads '<' ds r (c :: x) hlt]

/-- The three in-line passes and the outer paragraph keep the number of `<pre>`
and of `</pre>`. -/
theorem inline_countStr (w : Str) (hw : w = "<pre>".toList ∨ w = "</pre>".toList) (s : Str) :
    countStr w ("<p>".toList ++ replaceAllString linkRe linkTpl
      (replaceAllString italicRe italicTpl (replaceAllString boldRe boldTpl s)) ++
        "</p>".toList) = countStr w s := by
  obtain ⟨ds, hds, h1, _⟩ := preTag_shape w hw
  have hne : w ≠ [] := by rw [hds]; exact List.cons_ne_nil _ _
  have hcut : '<' ∉ w.tail := by rw [hds]; exact h1
  have e : ∀ X : Str, "<p>".toList ++ X ++ "</p>".toList
      = "<p>".toList ++ (X ++ '<' :: "/p>".toList) := by
    intro X; simp
  have hz : countStr w ('<' :: "/p>".toList) = 0 := by
    rcases hw with rfl | rfl <;> rfl
  rw [e, (countStr_tags w hw _).2.2.2.2.2.2.2.1, countStr_cut w hne '<' _ hcut, hz,
    link_countStr w hw, italic_countStr w hw, bold_countStr w hw]
  rfl

/-- The steps of `formatComment` before the bold pass, on indented lines: the
escaped contents, joined by `<br>`, inside one `<pre>` region. -/
theorem indented_blocks (c : Str) (cs : List Str)
    (h : ∀ x ∈ c :: cs, x ≠ [] ∧ '\n' ∉ x ∧ '\r' ∉ x ∧ containsStr "```".toList x = false) :
    lineBreaks (codeBlocks (HTMLEscapeString (stripCR
      ("\n".toList.intercalate ((c :: cs).map (fun x => "    ".toList ++ x)))))) =
      "<pre>".toList ++ ((HTMLEscapeString c ++
        (cs.map HTMLEscapeString).flatMap (fun F => "<br>".toList ++ F)) ++ "</pre>".toList) := by
  have hc := h c (List.mem_cons_self _ _)
  have hcs : ∀ x ∈ cs, x ≠ [] ∧ '\n' ∉ x ∧ '\r' ∉ x ∧ containsStr "```".toList x = false :=
    fun x hx => h x (List.mem_cons_of_mem _ hx)
  have hT : "\n".toList.intercalate ((c :: cs).map (fun x => "    ".toList ++ x)) =
      ("    ".toList ++ c) ++ cs.flatMap (fun x => "\n    ".toList ++ x) := by
    rw [List.map_cons, intercalate_cons, flatMap_map_lines]
    rfl
  have hcr : '\r' ∉ ("    ".toList ++ c) ++ cs.flatMap (fun x => "\n    ".toList ++ x) :=
    not_mem_joined '\r' _ (by decide) cs _
      (by simp only [List.mem_append, not_or]; exact ⟨by decide, hc.2.2.1⟩)
      (fun x hx => (hcs x hx).2.2.1)
  have hbt : containsStr "```".toList
      (("    ".toList ++ c) ++ cs.flatMap (fun x => "\n    ".toList ++ x)) = false :=
    containsStr_joined (Char.ofNat 96) "``".toList '\n' "    ".toList (by decide) (by decide) cs _
      ((containsStr_append_heads (Char.ofNat 96) "``".toList c "    ".toList (by decide)).trans
        hc.2.2.2)
      (fun x hx => (hcs x hx).2.2.2)
  have e0 : stripCR (("    ".toList ++ c) ++ cs.flatMap (fun x => "\n    ".toList ++ x)) =
      ("    ".toList ++ c) ++ cs.flatMap (fun x => "\n    ".toList ++ x) :=
    stringsReplace_id _ _ _ (containsStr_of_not_mem _ _ _ hcr)
  have e1 : HTMLEscapeString (("    ".toList ++ c) ++ cs.flatMap (fun x => "\n    ".toList ++ x)) =
      ("    ".toList ++ HTMLEscapeString c) ++
        (cs.map HTMLEscapeString).flatMap (fun F => "\n    ".toList ++ F) := by
    rw [HTMLEscapeString_append, HTMLEscapeString_append,
      escape_flatMap_lines "\n    ".toList (by decide)]
    rfl
  have hbt2 := containsStr_escape (Char.ofNat 96) "``".toList (by decide) (by decide) _ hbt
  rw [e1] at hbt2
  have hE : HTMLEscapeString c ≠ [] ∧ '\n' ∉ HTMLEscapeString c ∧ '<' ∉ HTMLEscapeString c :=
    ⟨HTMLEscapeString_ne_nil _ hc.1, not_mem_escape _ (by decide) _ hc.2.1, lt_not_mem_escape _⟩
  have hR : ∀ F ∈ cs.map HTMLEscapeString, F ≠ [] ∧ '\n' ∉ F ∧ '<' ∉ F := by
    intro F hF
    obtain ⟨x, hx, rfl⟩ := List.mem_map.1 hF
    exact ⟨HTMLEscapeString_ne_nil _ (hcs x hx).1, not_mem_escape _ (by decide) _ (hcs x hx).2.1,
      lt_not_mem_escape _⟩
  have e2 := codeBlocks_indented _ _ hE hR hbt2
  rw [hT, e0, e1, e2, ← List.append_assoc (HTMLEscapeString c),
    lineBreaks_context _ _ _ (by decide) (by decide),
    lineBreaks_joined _ _ hE.2.1 (fun F hF => ⟨(hR F hF).1, (hR F hF).2.1⟩)]

theorem countStr_paragraph (w : Str) (hw : w = "<pre>".toList ∨ w = "</pre>".toList) (X : Str) :
    countStr w ("<p>".toList ++ X ++ "</p>".toList) = countStr w X := by
  obtain ⟨ds, hds, h1, _⟩ := preTag_shape w hw
  have hne : w ≠ [] := by rw [hds]; exact List.cons_ne_nil _ _
  have hcut : '<' ∉ w.tail := by rw [hds]; exact h1
  have e : "<p>".toList ++ X ++ "</p>".toList = "<p>".toList ++ (X ++ '<' :: "/p>".toList) := by
    simp
  have hz : countStr w ('<' :: "/p>".toList) = 0 := by
    rcases hw with rfl | rfl <;> rfl
  rw [e, (countStr_tags w hw _).2.2.2.2.2.2.2.1, countStr_cut w hne '<' _ hcut, hz]
  rfl

/-- The rendering of indented lines holds one `<pre>` and one `</pre>`, whatever
markup the contents hold. -/
theorem formatted_indented_count (c : Str) (cs : List Str)
    (h : ∀ x ∈ c :: cs, x ≠ [] ∧ '\n' ∉ x ∧ '\r' ∉ x ∧ containsStr "```".toList x = false)
    (w : Str) (hw : w = "<pre>".toList ∨ w = "</pre>".toList) :
    countStr w (formatted ("\n".toList.intercalate
      ((c :: cs).map (fun x => "    ".toList ++ x)))) = 1 := by
  show countStr w ("<p>".toList ++ replaceAllString linkRe linkTpl
    (replaceAllString italicRe italicTpl (replaceAllString boldRe boldTpl
      (lineBreaks (codeBlocks (HTMLEscapeString (stripCR
        ("\n".toList.intercalate ((c :: cs).map (fun x => "    ".toList ++ x))))))))) ++
          "</p>".toList) = 1
  rw [inline_countStr w hw, indented_blocks c cs h]
  have h1 := one_pre (HTMLEscapeString c) (cs.map HTMLEscapeString) (lt_not_mem_escape _) (by
    intro F hF
    obtain ⟨x, _, rfl⟩ := List.mem_map.1 hF
    exact lt_not_mem_escape _)
  have e : "<p><pre>".toList ++ (HTMLEscapeString c ++
      (cs.map HTMLEscapeString).flatMap (fun F => "<br>".toList ++ F)) ++ "</pre></p>".toList =
      "<p>".toList ++ ("<pre>".toList ++ ((HTMLEscapeString c ++
        (cs.map HTMLEscapeString).flatMap (fun F => "<br>".toList ++ F)) ++ "</pre>".toList)) ++
        "</p>".toList := by simp
  rw [e, countStr_paragraph _ (Or.inl rfl), countStr_paragraph _ (Or.inr rfl)] at h1
  rcases hw with rfl | rfl
  · exact h1.1
  · exact h1.2

/-- C5 (amended): with the empty word list and the censor cache in its initial
state, one or more lines of four spaces followed by a content that is not empty
and has no newline, carriage return or triple backtick are rendered as a text
with exactly one `<pre>` and exactly one `</pre>`; when in addition no content
holds an asterisk or a URL scheme, the rendered text is the escaped contents, in
order and joined by `<br>`, inside that one `<pre>` region inside the paragraph. -/
theorem C5_indented_lines_merge_into_one_block {R : Type} (lib : RegexpLib R) (c : Str)
    (cs : List Str)
    (h : ∀ x ∈ c :: cs, x ≠ [] ∧ '\n' ∉ x ∧ '\r' ∉ x ∧ containsStr "```".toList x = false) :
    ∃ out, formatComment lib [] (CensorCache.initial R)
        ("\n".toList.intercalate ((c :: cs).map (fun x => "    ".toList ++ x))) =
        (some out, CensorCache.initial R) ∧
      countStr "<pre>".toList out = 1 ∧ countStr "</pre>".toList out = 1 ∧
      ((∀ x ∈ c :: cs, '*' ∉ x ∧ noUrl x) →
        out = "<p><pre>".toList ++ "<br>".toList.intercalate ((c :: cs).map HTMLEscapeString) ++
          "</pre></p>".toList) := by
  refine ⟨_, by rw [formatComment, censor_initial],
    formatted_indented_count c cs h _ (Or.inl rfl),
    formatted_indented_count c cs h _ (Or.inr rfl), ?_⟩
  intro h2
  exact formatted_indented c cs (fun x hx =>
    ⟨(h x hx).1, (h x hx).2.1, (h x hx).2.2.1, (h2 x hx).1, (h x hx).2.2.2, (h2 x hx).2⟩)

/-- C5 (amended) at the two lines of the claim's example, and at two lines with
markup: the second holds an `<em>` element and a link inside the one `<pre>`
region. -/
theorem C5_indented_lines_witness :
    (∃ out, formatComment panicLib [] (CensorCache.initial Unit) "    a\n    b".toList =
        (some out, CensorCache.initial Unit) ∧
      countStr "<pre>".toList out = 1 ∧ countStr "</pre>".toList out = 1 ∧
      out = "<p><pre>a<br>b</pre></p>".toList) ∧
    (∃ out, formatComment panicLib [] (CensorCache.initial Unit)
        "    *x*\n    http://a.bc".toList = (some out, CensorCache.initial Unit) ∧
      countStr "<pre>".toList out = 1 ∧ countStr "</pre>".toList out = 1) := by
  obtain ⟨out, h1, h2, h3, h4⟩ :=
    C5_indented_lines_merge_into_one_block panicLib "a".toList ["b".toList] (by decide)
  obtain ⟨out2, k1, k2, k3, _⟩ :=
    C5_indented_lines_merge_into_one_block panicLib "*x*".toList ["http://a.bc".toList]
      (by decide)
  exact ⟨⟨out, h1, h2, h3, h4 (by decide)⟩, ⟨out2, k1, k2, k3⟩⟩

end Views
